import Mathlib

/-! Multiple-shooting SQP solver (ocs2_sqp): time grid, warm start, LQ builder, step and
outer loop.

A shallow embedding of `src/ocs2_sqp/src/MultipleShootingSolver.cpp` and of
`PolicyData::fill` (`src/ocs2_oc/include/ocs2_oc/oc_data/PolicyData.h`).

* `scalar_t` time values are rationals (`ℚ`). The grid builder is embedded twice: in the
  arithmetic of `scalar_t` (`timeDiscretizationWithEventsRounded`), where every sum of two
  times is rounded by a function `fl`, `roundDouble` for `scalar_t = double` (the type
  `scalar_t` is declared in `ocs2_core/Types.h`, not among the sources), and in exact
  arithmetic (`timeDiscretizationWithEvents`), which is the first at `fl = id`. The entries
  of state and input vectors live in an arbitrary linearly ordered field `S` (take `S = ℚ`
  to run the definitions, `S = ℝ` for the Euclidean norm).
* `scalar_array_t` / `vector_array_t` (`std::vector`) are lists, `push_back` is `++ [_]`.
* `vector_t` (a dynamically sized Eigen vector) is the list of its entries, `matrix_t` the
  list of its rows.
* `assert` is modelled as active in `timeDiscretizationWithEvents`: a violated assertion
  aborts the call with `GridError.preconditionViolation`.
  `timeDiscretizationWithEventsRounded` has a flag for assertions compiled in or out
  (`NDEBUG`).
* Collaborators that are not among the sources (dynamics, cost, constraints, QP solver,
  controllers) are parameters, collected in `Collaborators`, `LqCollaborators` and
  `ControllerOps`.
-/

namespace ocs2

/-! ## Time-grid builder -/

/-- Modelled from the spec: the lookup helper `lookup::findIndexInTimeArray`
(`ocs2_core/misc/Lookup.h`) is called by `timeDiscretizationWithEvents` but is not among the
sources. The grid builder must represent every event time within `[initTime, finalTime)`, so
the index handed back for `time` is the position of the first entry of the sorted array that
is not before `time` (entries strictly before `time` are already consumed). -/
def findIndexInTimeArray (timeArray : List ℚ) (time : ℚ) : Nat :=
  (timeArray.takeWhile (fun t => decide (t < time))).length

/-- Local variables of `timeDiscretizationWithEvents` that live across iterations of its
`while` loop. `nextEventIdx` is a `scalar_t` in the source but only ever holds an index. -/
structure GridLoopState where
  timeDiscretization : List ℚ
  nextTime : ℚ
  nextEventIdx : Nat
deriving DecidableEq, Repr

/-- Member `back()` of the time array (the array is never empty where it is called). -/
def back (v : List ℚ) : ℚ := v.getLastD 0

/-- One pass through the body of the `while` loop of `timeDiscretizationWithEvents`
(source lines 341-362) in exact arithmetic, with the two flags `nextTimeIsEvent`
case-split. -/
def gridLoopBody (finalTime dt : ℚ) (eventTimes : List ℚ) (eventDelta : ℚ)
    (s : GridLoopState) : GridLoopState :=
  let nextTime := s.nextTime + dt
  -- Check if an event has passed
  if s.nextEventIdx < eventTimes.length ∧ nextTime ≥ eventTimes.getD s.nextEventIdx 0 then
    let nextTime := eventTimes.getD s.nextEventIdx 0
    -- Check if final time has passed
    if nextTime ≥ finalTime then
      { timeDiscretization := s.timeDiscretization ++ [finalTime]
        nextTime := finalTime
        nextEventIdx := s.nextEventIdx + 1 }
    else
      { timeDiscretization := s.timeDiscretization ++ [nextTime + eventDelta]
        nextTime := nextTime
        nextEventIdx := s.nextEventIdx + 1 }
  else
    if nextTime ≥ finalTime then
      { timeDiscretization := s.timeDiscretization ++ [finalTime]
        nextTime := finalTime
        nextEventIdx := s.nextEventIdx }
    else
      { timeDiscretization := s.timeDiscretization ++ [nextTime]
        nextTime := nextTime
        nextEventIdx := s.nextEventIdx }

/-- The `while (timeDiscretization.back() < finalTime)` loop, bounded by a fuel counter:
`none` means the fuel ran out before the loop condition became false. -/
def gridLoop (finalTime dt : ℚ) (eventTimes : List ℚ) (eventDelta : ℚ) :
    Nat → GridLoopState → Option (List ℚ)
  | 0, _ => none
  | fuel + 1, s =>
    if back s.timeDiscretization < finalTime then
      gridLoop finalTime dt eventTimes eventDelta fuel
        (gridLoopBody finalTime dt eventTimes eventDelta s)
    else
      some s.timeDiscretization

/-- Number of steps of size `dt` needed to get from `t` to `finalTime` or beyond. -/
def stepsToFinal (finalTime dt t : ℚ) : Nat := ⌈(finalTime - t) / dt⌉₊

/-- Fuel handed to `gridLoop`: every event may move `nextTime` back to the event time once,
after which at most `stepsToFinal` plain steps follow. -/
def gridFuel (initTime finalTime dt : ℚ) (eventTimes : List ℚ) : Nat :=
  stepsToFinal finalTime dt initTime + 2 +
    (eventTimes.map (fun e => stepsToFinal finalTime dt e + 2)).sum

/-- Termination measure of the grid loop. -/
def gridMeasure (finalTime dt : ℚ) (eventTimes : List ℚ) (s : GridLoopState) : Nat :=
  stepsToFinal finalTime dt s.nextTime + 1 +
    ((eventTimes.drop s.nextEventIdx).map (fun e => stepsToFinal finalTime dt e + 2)).sum

/-- Ways in which the embedded grid builder can fail to hand back a grid. -/
inductive GridError where
  | preconditionViolation
  | fuelExhausted
deriving DecidableEq, Repr

/-- Embedding of `MultipleShootingSolver::timeDiscretizationWithEvents` in exact arithmetic
and with the assertions enabled. In exact arithmetic the loop ends within `gridFuel`
passes. -/
def timeDiscretizationWithEvents (initTime finalTime dt : ℚ) (eventTimes : List ℚ)
    (eventDelta : ℚ) : Except GridError (List ℚ) :=
  if ¬ dt > 0 then .error .preconditionViolation            -- assert(dt > 0)
  else if ¬ finalTime > initTime then .error .preconditionViolation  -- assert(finalTime > initTime)
  else
    match gridLoop finalTime dt eventTimes eventDelta (gridFuel initTime finalTime dt eventTimes)
        { timeDiscretization := [initTime]
          nextTime := initTime
          nextEventIdx := findIndexInTimeArray eventTimes initTime } with
    | some grid => .ok grid
    | none => .error .fuelExhausted

/-! ## Time-grid builder in the arithmetic of `scalar_t` -/

/-- The integer nearest to `q`, a tie going to the even neighbour: the rule by which IEEE 754
arithmetic rounds in its default mode. -/
def roundHalfEven (q : ℚ) : ℤ :=
  if q - ⌊q⌋ < 1 / 2 then ⌊q⌋
  else if 1 / 2 < q - ⌊q⌋ then ⌊q⌋ + 1
  else if ⌊q⌋ % 2 = 0 then ⌊q⌋
  else ⌊q⌋ + 1

/-- The `double` (IEEE 754 binary64) nearest to the rational `q`: for
`2 ^ e <= |q| < 2 ^ (e + 1)` the doubles are the multiples of `2 ^ (e - 52)` (a significand of
53 bits), below `2 ^ (-1022)` they are the multiples of `2 ^ (-1074)` (subnormal numbers), and
`q` goes to the nearest one, ties to the even significand. Values beyond the largest finite
double, which the hardware rounds to infinity, are outside this model. The sum `a + b` of two
doubles, as the hardware computes it, is `roundDouble (a + b)`. -/
def roundDouble (q : ℚ) : ℚ :=
  let e : ℤ := max (Int.log 2 |q|) (-1022)
  (roundHalfEven (q / 2 ^ (e - 52)) : ℚ) * 2 ^ (e - 52)

/-- One pass through the body of the `while` loop of `timeDiscretizationWithEvents` (source
lines 341-362) in the arithmetic of `scalar_t`: the two sums `nextTime + dt` and
`nextTime + eventDelta` are rounded by `fl` (`roundDouble` for `scalar_t = double`, the
identity for exact arithmetic); comparisons and assignments are exact. -/
def gridLoopBodyRounded (fl : ℚ → ℚ) (finalTime dt : ℚ) (eventTimes : List ℚ) (eventDelta : ℚ)
    (s : GridLoopState) : GridLoopState :=
  let nextTime := fl (s.nextTime + dt)
  -- Check if an event has passed
  if s.nextEventIdx < eventTimes.length ∧ nextTime ≥ eventTimes.getD s.nextEventIdx 0 then
    let nextTime := eventTimes.getD s.nextEventIdx 0
    -- Check if final time has passed
    if nextTime ≥ finalTime then
      { timeDiscretization := s.timeDiscretization ++ [finalTime]
        nextTime := finalTime
        nextEventIdx := s.nextEventIdx + 1 }
    else
      { timeDiscretization := s.timeDiscretization ++ [fl (nextTime + eventDelta)]
        nextTime := nextTime
        nextEventIdx := s.nextEventIdx + 1 }
  else
    if nextTime ≥ finalTime then
      { timeDiscretization := s.timeDiscretization ++ [finalTime]
        nextTime := finalTime
        nextEventIdx := s.nextEventIdx }
    else
      { timeDiscretization := s.timeDiscretization ++ [nextTime]
        nextTime := nextTime
        nextEventIdx := s.nextEventIdx }

/-- The `while (timeDiscretization.back() < finalTime)` loop in the arithmetic of `scalar_t`,
run for at most `fuel` evaluations of the loop condition: `none` means that the condition
was true at each of them. -/
def gridLoopRounded (fl : ℚ → ℚ) (finalTime dt : ℚ) (eventTimes : List ℚ) (eventDelta : ℚ) :
    Nat → GridLoopState → Option (List ℚ)
  | 0, _ => none
  | fuel + 1, s =>
    if back s.timeDiscretization < finalTime then
      gridLoopRounded fl finalTime dt eventTimes eventDelta fuel
        (gridLoopBodyRounded fl finalTime dt eventTimes eventDelta s)
    else
      some s.timeDiscretization

/-- Embedding of `MultipleShootingSolver::timeDiscretizationWithEvents` in the arithmetic of
`scalar_t` (sums rounded by `fl`), for both ways of compiling the two `assert` statements:
with `assertsEnabled` a violated assertion aborts the call, without it (`NDEBUG`) the
assertions are no code at all. The loop need not terminate, so the call is run for at most
`fuel` evaluations of the loop condition: the result `fuelExhausted` for every `fuel` means
that the call never returns. -/
def timeDiscretizationWithEventsRounded (fl : ℚ → ℚ) (assertsEnabled : Bool) (fuel : Nat)
    (initTime finalTime dt : ℚ) (eventTimes : List ℚ) (eventDelta : ℚ) :
    Except GridError (List ℚ) :=
  if assertsEnabled = true ∧ ¬ dt > 0 then .error .preconditionViolation  -- assert(dt > 0)
  else if assertsEnabled = true ∧ ¬ finalTime > initTime then
    .error .preconditionViolation                                         -- assert(finalTime > initTime)
  else
    match gridLoopRounded fl finalTime dt eventTimes eventDelta fuel
        { timeDiscretization := [initTime]
          nextTime := initTime
          nextEventIdx := findIndexInTimeArray eventTimes initTime } with
    | some grid => .ok grid
    | none => .error .fuelExhausted

/-! ## Vectors, settings and solver state -/

/-- Eigen's dynamically sized `vector_t`: the list of its entries. -/
abbrev vector_t (S : Type) := List S

/-- Entry-wise sum `a + b` of two vectors. -/
def vadd {S : Type} [Add S] (a b : vector_t S) : vector_t S := List.zipWith (· + ·) a b

/-- Entry-wise difference `a - b` of two vectors. -/
def vsub {S : Type} [Sub S] (a b : vector_t S) : vector_t S := List.zipWith (· - ·) a b

/-- Scalar multiple `c * a` of a vector. -/
def vsmul {S : Type} [Mul S] (c : S) (a : vector_t S) : vector_t S := a.map (c * ·)

/-- The vector `vector_t::Zero(n)`. -/
def vzero {S : Type} [Zero S] (n : Nat) : vector_t S := List.replicate n 0

/-- The fields of `MultipleShootingSolverSettings` read by the solver (the header declaring
the struct is not among the sources; the fields are those the solver accesses). -/
structure Settings (S : Type) where
  n_state : Nat
  n_input : Nat
  dt : ℚ
  sqpIteration : Nat
  deltaTol : S
  inequalityConstraintMu : S
  inequalityConstraintDelta : S
  qr_decomp : Bool

/-- The trajectories held by `PrimalSolution`. The mode schedule is copied from the solver
base and the controller is the feedforward controller over `timeTrajectory_` and
`inputTrajectory_`; both are determined by these fields and the caller's data. -/
structure PrimalSolution (S : Type) where
  timeTrajectory_ : List ℚ
  stateTrajectory_ : List (vector_t S)
  inputTrajectory_ : List (vector_t S)

/-- The mutable members of `MultipleShootingSolver` that survive between calls. -/
structure SolverState (S : Type) where
  primalSolution_ : PrimalSolution S
  totalNumIterations_ : Nat

/-- The collaborators of the solver, none of which is among the sources:
* `interpolate` is `LinearInterpolation::interpolate (time, timeArray, dataArray)`;
* `operatingTrajectories`, when registered, maps `(state, t, tNext)` to the `inputArray`
  filled by `getSystemOperatingTrajectories`;
* `ocp time x u delta_x0` is the pair `(delta_x, delta_u)` obtained by
  `setupCostDynamicsEqualityConstraint` on `(time, x, u)` followed by
  `getOCPSolution (delta_x0)`, that is, linearisation plus the external QP solver;
* `norm` is Eigen's `norm()`;
* `limitEpsilon` is `OCS2NumericTraits<scalar_t>::limitEpsilon()`. -/
structure Collaborators (S : Type) where
  interpolate : ℚ → List ℚ → List (vector_t S) → vector_t S
  operatingTrajectories : Option (vector_t S → ℚ → ℚ → List (vector_t S))
  ocp : List ℚ → List (vector_t S) → List (vector_t S) → vector_t S →
    List (vector_t S) × List (vector_t S)
  norm : vector_t S → S
  limitEpsilon : ℚ

/-! ## Warm start -/

/-- Embedding of `MultipleShootingSolver::initializeStateTrajectory`. -/
def initializeStateTrajectory {S : Type} (c : Collaborators S) (self : SolverState S)
    (initState : vector_t S) (timeDiscretization : List ℚ) (N : Int) : List (vector_t S) :=
  if self.totalNumIterations_ = 0 then
    -- first iteration
    List.replicate (N + 1).toNat initState
  else
    -- interpolation of previous solution, for i = 1, ..., N
    [initState] ++ (List.range' 1 N.toNat).map (fun i =>
      c.interpolate (timeDiscretization.getD i 0) self.primalSolution_.timeTrajectory_
        self.primalSolution_.stateTrajectory_)

/-- Embedding of `MultipleShootingSolver::initializeInputTrajectory`. -/
def initializeInputTrajectory {S : Type} [Zero S] (c : Collaborators S) (settings : Settings S)
    (self : SolverState S) (timeDiscretization : List ℚ) (stateTrajectory : List (vector_t S))
    (N : Int) : List (vector_t S) :=
  let interpolateTill : ℚ :=
    if self.totalNumIterations_ > 0 then back self.primalSolution_.timeTrajectory_
    else timeDiscretization.headD 0
  (List.range N.toNat).map (fun i =>
    let ti := timeDiscretization.getD i 0
    if ti < interpolateTill then
      -- Interpolate previous input trajectory
      c.interpolate ti self.primalSolution_.timeTrajectory_ self.primalSolution_.inputTrajectory_
    else
      match c.operatingTrajectories with
      | some provider =>
        -- operating trajectory between t[k] and t[k+1]; take `inputArray.front()`
        (provider (stateTrajectory.getD i []) ti (timeDiscretization.getD (i + 1) 0)).headD []
      | none => vzero settings.n_input)

/-! ## Step and convergence -/

/-- One of the two `for` loops of `takeStep`: for `i = 0, ..., n - 1` add `alpha * d[i].norm()`
to the accumulated norm and `alpha * d[i]` to `v[i]`. -/
def stepLoop {S : Type} [Zero S] [Add S] [Mul S] (norm : vector_t S → S) (alpha : S)
    (d : List (vector_t S)) (n : Nat) (v : List (vector_t S)) : S × List (vector_t S) :=
  (List.range n).foldl
    (fun acc i =>
      (acc.1 + alpha * norm (d.getD i []),
       acc.2.set i (vadd (acc.2.getD i []) (vsmul alpha (d.getD i [])))))
    (0, v)

/-- Embedding of `MultipleShootingSolver::takeStep`: the convergence flag together with the
updated `x` and `u`. -/
def takeStep {S : Type} [LinearOrderedField S] (norm : vector_t S → S) (deltaTol : S)
    (timeDiscretization : List ℚ) (dx du x u : List (vector_t S)) :
    Bool × List (vector_t S) × List (vector_t S) :=
  let N : Int := (timeDiscretization.length : Int) - 1
  -- TODO implement line search
  let alpha : S := 1
  let ru := stepLoop norm alpha du N.toNat u
  let rx := stepLoop norm alpha dx (N + 1).toNat x
  (decide (ru.1 < deltaTol ∧ rx.1 < deltaTol), rx.2, ru.2)

/-! ## SQP loop -/

/-- The variables mutated by the `for` loop of `runImpl`. -/
structure SqpIterate (S : Type) where
  x : List (vector_t S)
  u : List (vector_t S)
  totalNumIterations_ : Nat

/-- The loop `for (iter = 0; iter < settings_.sqpIteration; iter++)` of `runImpl` with
`remaining = sqpIteration - iter` passes still allowed. -/
def sqpLoop {S : Type} [LinearOrderedField S] (c : Collaborators S) (settings : Settings S)
    (initState : vector_t S) (timeDiscretization : List ℚ) :
    Nat → SqpIterate S → SqpIterate S
  | 0, it => it
  | remaining + 1, it =>
    -- Make QP approximation, solve QP
    let delta_x0 := vsub initState (it.x.getD 0 [])
    let sol := c.ocp timeDiscretization it.x it.u delta_x0
    -- Apply step
    let r := takeStep c.norm settings.deltaTol timeDiscretization sol.1 sol.2 it.x it.u
    let it1 : SqpIterate S :=
      { x := r.2.1, u := r.2.2, totalNumIterations_ := it.totalNumIterations_ + 1 }
    if r.1 then it1 else sqpLoop c settings initState timeDiscretization remaining it1

/-- One pass through the body of the `for` loop of `runImpl` (source lines 110-135) on the
loop variables: the flag `converged` handed back by `takeStep`, and the variables after the
pass. -/
def sqpPass {S : Type} [LinearOrderedField S] (c : Collaborators S) (settings : Settings S)
    (initState : vector_t S) (timeDiscretization : List ℚ) (it : SqpIterate S) :
    Bool × SqpIterate S :=
  -- Make QP approximation, solve QP
  let delta_x0 := vsub initState (it.x.getD 0 [])
  let sol := c.ocp timeDiscretization it.x it.u delta_x0
  -- Apply step
  let r := takeStep c.norm settings.deltaTol timeDiscretization sol.1 sol.2 it.x it.u
  (r.1, { x := r.2.1, u := r.2.2, totalNumIterations_ := it.totalNumIterations_ + 1 })

/-- The loop variables after `k` passes through the body of the `for` loop of `runImpl`. -/
def sqpPasses {S : Type} [LinearOrderedField S] (c : Collaborators S) (settings : Settings S)
    (initState : vector_t S) (timeDiscretization : List ℚ) :
    Nat → SqpIterate S → SqpIterate S
  | 0, it => it
  | k + 1, it =>
    sqpPasses c settings initState timeDiscretization k
      (sqpPass c settings initState timeDiscretization it).2

/-- Everything `runImpl` does once the time discretization is known. -/
def runOnGrid {S : Type} [LinearOrderedField S] (c : Collaborators S) (settings : Settings S)
    (self : SolverState S) (initState : vector_t S) (timeDiscretization : List ℚ) :
    SolverState S :=
  let N : Int := (timeDiscretization.length : Int) - 1
  -- Initialize the state and input
  let x := initializeStateTrajectory c self initState timeDiscretization N
  let u := initializeInputTrajectory c settings self timeDiscretization x N
  let it := sqpLoop c settings initState timeDiscretization settings.sqpIteration
    { x := x, u := u, totalNumIterations_ := self.totalNumIterations_ }
  -- Store result in PrimalSolution: time, state, input (last input repeated)
  { primalSolution_ :=
      { timeTrajectory_ := timeDiscretization
        stateTrajectory_ := it.x
        inputTrajectory_ := it.u ++ [it.u.getLastD []] }
    totalNumIterations_ := it.totalNumIterations_ }

/-- Embedding of `MultipleShootingSolver::runImpl`: the solver state after the call, or the
failed assertion of the grid builder. The argument `partitioningTimes` is never read. -/
def runImpl {S : Type} [LinearOrderedField S] (c : Collaborators S) (settings : Settings S)
    (eventTimes : List ℚ) (self : SolverState S) (initTime : ℚ) (initState : vector_t S)
    (finalTime : ℚ) : Except GridError (SolverState S) :=
  match timeDiscretizationWithEvents initTime finalTime settings.dt eventTimes c.limitEpsilon with
  | .ok timeDiscretization => .ok (runOnGrid c settings self initState timeDiscretization)
  | .error e => .error e

/-! ## Concrete instances on which the definitions can be run -/

/-- Collaborators over `ℚ` whose QP corrections are all zero vectors: the interpolation
hands back the first stored sample, no operating-trajectory provider is registered and the
norm is the sum of absolute values. -/
def zeroStepCollaborators : Collaborators ℚ where
  interpolate := fun _ _ data => data.headD []
  operatingTrajectories := none
  ocp := fun _ x u _ => (x.map (fun v => vzero v.length), u.map (fun v => vzero v.length))
  norm := fun v => (v.map abs).sum
  limitEpsilon := 1 / 1000

/-- Collaborators over `ℚ` whose QP corrections always have norm one. -/
def unitStepCollaborators : Collaborators ℚ where
  interpolate := fun _ _ data => data.headD []
  operatingTrajectories := none
  ocp := fun _ x u _ => (x.map (fun v => v.map (fun _ => 1)), u.map (fun v => v.map (fun _ => 0)))
  norm := fun _ => 1
  limitEpsilon := 1 / 1000

/-- Settings with two states, one input, step `1/2`, three SQP iterations and tolerance
`1/10`. -/
def exampleSettings : Settings ℚ where
  n_state := 2
  n_input := 1
  dt := 1 / 2
  sqpIteration := 3
  deltaTol := 1 / 10
  inequalityConstraintMu := 0
  inequalityConstraintDelta := 0
  qr_decomp := true

/-- The solver state before the first call: empty solution, no iterations yet. -/
def freshSolver : SolverState ℚ where
  primalSolution_ := { timeTrajectory_ := [], stateTrajectory_ := [], inputTrajectory_ := [] }
  totalNumIterations_ := 0

/-! ## PolicyData (ocs2_oc) -/

/-- The operations of `ControllerBase` and `FeedforwardController` that `PolicyData::fill`
calls (neither class is among the sources): `empty c` is `c->empty()`, `concatenate m c` is
the controller `m` after `m->concatenate(c)`, `feedforward time input` is
`feedforward_controller_t(time, input)`; `clone()` copies the value. -/
structure ControllerOps (U Ctrl : Type) where
  empty : Ctrl → Bool
  concatenate : Ctrl → Ctrl → Ctrl
  feedforward : List ℚ → List U → Ctrl

/-- Embedding of the data members of `PolicyData<STATE_DIM, INPUT_DIM>`, with `X` and `U` the
state and input vector types; `mpcController_` is `none` for a null pointer. -/
structure PolicyData (X U Ctrl : Type) where
  mpcTimeTrajectory_ : List ℚ
  mpcStateTrajectory_ : List X
  mpcInputTrajectory_ : List U
  eventTimes_ : List ℚ
  subsystemsSequence_ : List Nat
  mpcController_ : Option Ctrl

/-- One pass of the controller loop of `PolicyData::fill`: empty controllers are skipped, the
first non-empty one is cloned, later ones are concatenated. -/
def fillControllerStep {U Ctrl : Type} (ops : ControllerOps U Ctrl) (mpcController_ : Option Ctrl)
    (controllerPtr : Ctrl) : Option Ctrl :=
  if ops.empty controllerPtr then
    mpcController_  -- continue: some time partitions may be unused
  else
    match mpcController_ with
    | some m => some (ops.concatenate m controllerPtr)
    | none => some controllerPtr

/-- Embedding of `PolicyData::fill`; `self` is the content of the object before the call.
The node count `N` of the source only sizes the `reserve` calls. -/
def PolicyData.fill {X U Ctrl : Type} (ops : ControllerOps U Ctrl) (_self : PolicyData X U Ctrl)
    (timeTrajectories : List (List ℚ)) (stateTrajectories : List (List X))
    (inputTrajectories : List (List U)) (eventTimes : List ℚ) (subsystemsSequence : List Nat)
    (controllerPtrs : List Ctrl) : PolicyData X U Ctrl :=
  -- fill trajectories: clear, then append partition by partition
  let merged := (List.range timeTrajectories.length).foldl
    (fun (acc : List ℚ × List X × List U) i =>
      (acc.1 ++ timeTrajectories.getD i [],
       acc.2.1 ++ stateTrajectories.getD i [],
       acc.2.2 ++ inputTrajectories.getD i []))
    ([], [], [])
  -- fill controller
  let controller : Option Ctrl :=
    if !controllerPtrs.isEmpty then
      controllerPtrs.foldl (fillControllerStep ops) none
    else
      some (ops.feedforward merged.1 merged.2.2)
  { mpcTimeTrajectory_ := merged.1
    mpcStateTrajectory_ := merged.2.1
    mpcInputTrajectory_ := merged.2.2
    eventTimes_ := eventTimes
    subsystemsSequence_ := subsystemsSequence
    mpcController_ := controller }

/-- A concrete controller: the list of its time stamps with the inputs applied there. It is
empty when it has no samples, concatenation appends the samples. -/
def sampleControllerOps : ControllerOps (List ℚ) (List (ℚ × List ℚ)) where
  empty := fun c => c.isEmpty
  concatenate := fun m c => m ++ c
  feedforward := fun time input => List.zip time input

/-- A `PolicyData` object without content. -/
def emptyPolicyData : PolicyData (List ℚ) (List ℚ) (List (ℚ × List ℚ)) where
  mpcTimeTrajectory_ := []
  mpcStateTrajectory_ := []
  mpcInputTrajectory_ := []
  eventTimes_ := []
  subsystemsSequence_ := []
  mpcController_ := none

/-! ## Linear-quadratic problem: data -/

/-- Eigen's dynamically sized `matrix_t`: the list of its rows. -/
abbrev matrix_t (S : Type) := List (List S)

/-- The inner product of two vectors. -/
def dot {S : Type} [Zero S] [Add S] [Mul S] (a b : vector_t S) : S :=
  (List.zipWith (· * ·) a b).sum

/-- The matrix-vector product `M * v`. -/
def matVec {S : Type} [Zero S] [Add S] [Mul S] (M : matrix_t S) (v : vector_t S) : vector_t S :=
  M.map (fun row => dot row v)

/-- The product `r^T * P` of a row vector with a matrix of `k` columns: the combination of
the rows of `P` with the entries of `r` as coefficients. -/
def vecMat {S : Type} [Zero S] [Add S] [Mul S] (k : Nat) :
    vector_t S → matrix_t S → vector_t S
  | a :: r, p :: P => vadd (vsmul a p) (vecMat k r P)
  | _, _ => vzero k

/-- Number of columns of a matrix (of its first row). -/
def numCols {S : Type} (M : matrix_t S) : Nat := (M.headD []).length

/-- The matrix product `A * B`. -/
def matMul {S : Type} [Zero S] [Add S] [Mul S] (A B : matrix_t S) : matrix_t S :=
  A.map (fun row => vecMat (numCols B) row B)

/-- The transpose of a matrix. -/
def transpose {S : Type} [Zero S] (M : matrix_t S) : matrix_t S :=
  (List.range (numCols M)).map (fun j => M.map (fun row => row.getD j 0))

/-- Entry-wise sum of two matrices. -/
def madd {S : Type} [Add S] (A B : matrix_t S) : matrix_t S := List.zipWith vadd A B

/-- The vector `a *= c`. -/
def vscale {S : Type} [Mul S] (a : vector_t S) (c : S) : vector_t S := a.map (· * c)

/-- The matrix `A *= c`. -/
def mscale {S : Type} [Mul S] (A : matrix_t S) (c : S) : matrix_t S := A.map (fun row => vscale row c)

/-- The vector `-a`. -/
def vneg {S : Type} [Neg S] (a : vector_t S) : vector_t S := a.map (fun s => -s)

/-- The matrix `-A`. -/
def mneg {S : Type} [Neg S] (A : matrix_t S) : matrix_t S := A.map vneg

/-- The `rows x cols` zero matrix. -/
def mzero {S : Type} [Zero S] (rows cols : Nat) : matrix_t S := List.replicate rows (vzero cols)

/-- The struct `VectorFunctionLinearApproximation` (`ocs2_core/Types.h`, not among the
sources), with the members the solver reads: value `f` and Jacobians `dfdx`, `dfdu`. -/
structure VectorFunctionLinearApproximation (S : Type) where
  f : vector_t S
  dfdx : matrix_t S
  dfdu : matrix_t S
deriving DecidableEq, Inhabited

/-- The struct `ScalarFunctionQuadraticApproximation`, with the members the solver scales:
value, gradients and Hessian blocks. -/
structure ScalarFunctionQuadraticApproximation (S : Type) where
  f : S
  dfdx : vector_t S
  dfdu : vector_t S
  dfdxx : matrix_t S
  dfdux : matrix_t S
  dfduu : matrix_t S
deriving DecidableEq

/-- The struct `VectorFunctionQuadraticApproximation` handed back for the inequality
constraints; the solver reads `f.rows()` and passes the rest on to the penalty. -/
structure VectorFunctionQuadraticApproximation (S : Type) where
  f : vector_t S
  dfdx : matrix_t S
  dfdu : matrix_t S
  dfdxx : List (matrix_t S)
  dfdux : List (matrix_t S)
  dfduu : List (matrix_t S)

/-- The sizes of the blocks of a quadratic approximation: the lengths of the two gradients
and the row lengths of the three Hessian blocks. -/
def ScalarFunctionQuadraticApproximation.sizes {S : Type}
    (a : ScalarFunctionQuadraticApproximation S) :
    Nat × Nat × List Nat × List Nat × List Nat :=
  (a.dfdx.length, a.dfdu.length, a.dfdxx.map List.length, a.dfdux.map List.length,
    a.dfduu.map List.length)

/-- The operator `+=` of `ScalarFunctionQuadraticApproximation`: block-wise sum. Eigen adds
blocks of equal sizes only (`ScalarFunctionQuadraticApproximation.sizes`); on such operands
the sum is the entry-wise sum below. On operands of different sizes the source has no
defined result, and nothing is proved from the value of this definition. -/
def ScalarFunctionQuadraticApproximation.add {S : Type} [Add S]
    (a b : ScalarFunctionQuadraticApproximation S) : ScalarFunctionQuadraticApproximation S where
  f := a.f + b.f
  dfdx := vadd a.dfdx b.dfdx
  dfdu := vadd a.dfdu b.dfdu
  dfdxx := madd a.dfdxx b.dfdxx
  dfdux := madd a.dfdux b.dfdux
  dfduu := madd a.dfduu b.dfduu

/-- The six statements `cost_[i].<block> *= dt` of `setupCostDynamicsEqualityConstraint`
(source lines 275-280). -/
def scaleCost {S : Type} [Mul S] (cost : ScalarFunctionQuadraticApproximation S) (dt : S) :
    ScalarFunctionQuadraticApproximation S where
  dfdxx := mscale cost.dfdxx dt
  dfdux := mscale cost.dfdux dt
  dfduu := mscale cost.dfduu dt
  dfdx := vscale cost.dfdx dt
  dfdu := vscale cost.dfdu dt
  f := cost.f * dt

/-- The cost `ScalarFunctionQuadraticApproximation::Zero(nx, nu)`. -/
def ScalarFunctionQuadraticApproximation.Zero {S : Type} [Zero S] (nx nu : Nat) :
    ScalarFunctionQuadraticApproximation S where
  f := 0
  dfdx := vzero nx
  dfdu := vzero nu
  dfdxx := mzero nx nx
  dfdux := mzero nu nx
  dfduu := mzero nu nu

/-- The constraint collaborator `ConstraintBase` (not among the sources): the two
approximations the solver asks for at `(t, x, u)`. -/
structure ConstraintBase (S : Type) where
  stateInputEqualityConstraintLinearApproximation :
    ℚ → vector_t S → vector_t S → VectorFunctionLinearApproximation S
  inequalityConstraintQuadraticApproximation :
    ℚ → vector_t S → vector_t S → VectorFunctionQuadraticApproximation S

/-- The arguments of one call `hpipmInterface_.solve(delta_x0, dynamics, cost, constraints,
deltaXSol, deltaUSol, verbose)`; `constraints` is `none` for `nullptr`. -/
structure QpCall (S : Type) where
  delta_x0 : vector_t S
  dynamics : List (VectorFunctionLinearApproximation S)
  cost : List (ScalarFunctionQuadraticApproximation S)
  constraints : Option (List (VectorFunctionLinearApproximation S))

/-- The collaborators of the LQ builder and of the QP adapter, none of which is among the
sources:
* `rk4Discretization t x u dt` is `rk4Discretization(systemDynamics, t, x, u, dt)`;
* `costQuadraticApproximation` is that of the cost collaborator;
* `constraintPtr_` is the constraint collaborator, when registered;
* `terminalCostFunctionPtr_`, when registered, is `finalCostQuadraticApproximation`;
* `luConstraintProjection`, `changeOfInputVariablesDynamics` and
  `changeOfInputVariablesCost` (the two overloads of `changeOfInputVariables`) are the
  helpers of `ocs2_sqp` and `ocs2_oc`;
* `penaltyCostQuadraticApproximation mu delta` is that of
  `RelaxedBarrierPenalty(mu, delta)`;
* `solve` hands back `(deltaXSol, deltaUSol)` of `hpipmInterface_.solve`. -/
structure LqCollaborators (S : Type) where
  rk4Discretization : ℚ → vector_t S → vector_t S → ℚ → VectorFunctionLinearApproximation S
  costQuadraticApproximation :
    ℚ → vector_t S → vector_t S → ScalarFunctionQuadraticApproximation S
  constraintPtr_ : Option (ConstraintBase S)
  terminalCostFunctionPtr_ : Option (ℚ → vector_t S → ScalarFunctionQuadraticApproximation S)
  luConstraintProjection :
    VectorFunctionLinearApproximation S → VectorFunctionLinearApproximation S
  changeOfInputVariablesDynamics : VectorFunctionLinearApproximation S → matrix_t S →
    matrix_t S → vector_t S → VectorFunctionLinearApproximation S
  changeOfInputVariablesCost : ScalarFunctionQuadraticApproximation S → matrix_t S →
    matrix_t S → vector_t S → ScalarFunctionQuadraticApproximation S
  penaltyCostQuadraticApproximation :
    S → S → VectorFunctionQuadraticApproximation S → ScalarFunctionQuadraticApproximation S
  solve : QpCall S → List (vector_t S) × List (vector_t S)

/-- The member `penaltyPtr_` after the constructor of `MultipleShootingSolver` (source lines
30-36): the pair `(mu, delta)` of the relaxed barrier penalty, created only when a constraint
collaborator is passed and `inequalityConstraintMu > 0`. -/
def constructPenalty {S : Type} [LinearOrderedField S] (settings : Settings S)
    (constraintPtr : Option (ConstraintBase S)) : Option (S × S) :=
  match constraintPtr with
  | some _ =>
    if settings.inequalityConstraintMu > 0 then
      some (settings.inequalityConstraintMu, settings.inequalityConstraintDelta)
    else none
  | none => none

/-- The struct `HpipmInterface::OcpSize` with the members the LQ builder writes. -/
structure OcpSize where
  numStages : Int
  nu : List Int
  nx : List Int
  ng : List Int
deriving DecidableEq, Repr

/-- Modelled from the spec: the constructor `HpipmInterface::OcpSize(N, nx, nu)`
(`ocs2_sqp/HpipmInterface.h`) is not among the sources. It sets up the sizing "for constant
state input size": every node has state dimension `nx`, every interval has input dimension
`nu`, the terminal node carries no control decision (input dimension 0), and no node has
general constraint rows. -/
def OcpSize.init (N : Int) (nx nu : Nat) : OcpSize where
  numStages := N
  nu := List.replicate N.toNat (nu : Int) ++ [0]
  nx := List.replicate (N.toNat + 1) (nx : Int)
  ng := List.replicate (N.toNat + 1) 0

/-- The members `dynamics_`, `cost_`, `constraints_` of the solver together with the sizing
handed to `hpipmInterface_.resize`. -/
structure LqProblem (S : Type) where
  dynamics_ : List (VectorFunctionLinearApproximation S)
  cost_ : List (ScalarFunctionQuadraticApproximation S)
  constraints_ : List (VectorFunctionLinearApproximation S)
  ocpSize : OcpSize

/-- The member `resize(n)` of `std::vector`: keeps the first `n` elements and fills up with
default-constructed ones. -/
def resize {α : Type} (v : List α) (n : Nat) (dflt : α) : List α :=
  (v ++ List.replicate (n - v.length) dflt).take n

/-! ## Linear-quadratic problem: builder and QP adapter -/

/-- What one pass of the interval loop of `setupCostDynamicsEqualityConstraint` computes:
the values written to `dynamics_[i]` and `cost_[i]` and, when they are written at all, to
`constraints_[i]`, `ocpSize.nu[i]` and `ocpSize.ng[i]`. -/
structure IntervalData (S : Type) where
  dynamics : VectorFunctionLinearApproximation S
  cost : ScalarFunctionQuadraticApproximation S
  constraints : Option (VectorFunctionLinearApproximation S)
  nu : Option Int
  ng : Option Int

/-- The body of the interval loop of `setupCostDynamicsEqualityConstraint` (source lines
237-280) for interval `i`. -/
def setupIntervalData {S : Type} [LinearOrderedField S] (lqc : LqCollaborators S)
    (settings : Settings S) (penaltyPtr_ : Option (S × S)) (time : List ℚ)
    (x u : List (vector_t S)) (i : Nat) : IntervalData S :=
  let ti := time.getD i 0
  let dt := time.getD (i + 1) 0 - time.getD i 0
  -- Dynamics: x_{k+1} = A_k dx_k + B_k du_k + b_k, made dx_{k+1} = ...
  let dynamics0 := lqc.rk4Discretization ti (x.getD i []) (u.getD i []) dt
  let dynamics : VectorFunctionLinearApproximation S :=
    { dynamics0 with f := vsub dynamics0.f (x.getD (i + 1) []) }
  -- Costs: approximate the integral with forward euler (correct for dt after adding penalty)
  let cost := lqc.costQuadraticApproximation ti (x.getD i []) (u.getD i [])
  match lqc.constraintPtr_ with
  | none =>
    { dynamics := dynamics
      cost := scaleCost cost (dt : S)
      constraints := none
      nu := none
      ng := none }
  | some constraintPtr =>
    -- C_k dx_k + D_k du_k + e_k = 0
    let constraint :=
      constraintPtr.stateInputEqualityConstraintLinearApproximation ti (x.getD i [])
        (u.getD i [])
    -- Projection stored instead of constraint
    let stored := if settings.qr_decomp then lqc.luConstraintProjection constraint else constraint
    -- Adapt dynamics and cost
    let dynamics1 :=
      if settings.qr_decomp then
        lqc.changeOfInputVariablesDynamics dynamics stored.dfdu stored.dfdx stored.f
      else dynamics
    let cost1 :=
      if settings.qr_decomp then
        lqc.changeOfInputVariablesCost cost stored.dfdu stored.dfdx stored.f
      else cost
    -- Inequalities as penalty
    let cost2 :=
      match penaltyPtr_ with
      | some penalty =>
        let ineqConstraints :=
          constraintPtr.inequalityConstraintQuadraticApproximation ti (x.getD i []) (u.getD i [])
        if ineqConstraints.f.length > 0 then
          cost1.add (lqc.penaltyCostQuadraticApproximation penalty.1 penalty.2 ineqConstraints)
        else cost1
      | none => cost1
    { dynamics := dynamics1
      cost := scaleCost cost2 (dt : S)
      constraints := some stored
      nu := if settings.qr_decomp then
          some ((settings.n_input : Int) - (constraint.f.length : Int))
        else none
      ng := if settings.qr_decomp then none else some (constraint.f.length : Int) }

/-- The writes of pass `i` of the interval loop. -/
def writeInterval {S : Type} (i : Nat) (d : IntervalData S) (p : LqProblem S) : LqProblem S where
  dynamics_ := p.dynamics_.set i d.dynamics
  cost_ := p.cost_.set i d.cost
  constraints_ :=
    match d.constraints with
    | some c => p.constraints_.set i c
    | none => p.constraints_
  ocpSize :=
    { p.ocpSize with
      nu := match d.nu with
        | some n => p.ocpSize.nu.set i n
        | none => p.ocpSize.nu
      ng := match d.ng with
        | some n => p.ocpSize.ng.set i n
        | none => p.ocpSize.ng }

/-- Embedding of `MultipleShootingSolver::setupCostDynamicsEqualityConstraint`: `self` holds
the members before the call, the result holds them after the call together with the sizing
passed to `hpipmInterface_.resize`. The collaborators passed as arguments in the source are
those of `lqc`. -/
def setupCostDynamicsEqualityConstraint {S : Type} [LinearOrderedField S]
    (lqc : LqCollaborators S) (settings : Settings S) (penaltyPtr_ : Option (S × S))
    (self : LqProblem S) (time : List ℚ) (x u : List (vector_t S)) : LqProblem S :=
  -- Problem horizon
  let N : Int := (time.length : Int) - 1
  -- Set up for constant state input size. Will be adapted based on constraint handling.
  let p0 : LqProblem S :=
    { dynamics_ := resize self.dynamics_ N.toNat default
      cost_ := resize self.cost_ (N + 1).toNat (ScalarFunctionQuadraticApproximation.Zero 0 0)
      constraints_ := resize self.constraints_ (N + 1).toNat default
      ocpSize := OcpSize.init N settings.n_state settings.n_input }
  let p1 := (List.range N.toNat).foldl
    (fun p i => writeInterval i (setupIntervalData lqc settings penaltyPtr_ time x u i) p) p0
  let terminal :=
    match lqc.terminalCostFunctionPtr_ with
    | some finalCostQuadraticApproximation =>
      finalCostQuadraticApproximation (time.getD N.toNat 0) (x.getD N.toNat [])
    | none => ScalarFunctionQuadraticApproximation.Zero settings.n_state 0
  { p1 with cost_ := p1.cost_.set N.toNat terminal }

/-- The three statements that remap a reduced input correction to the full input space
(source lines 214-216): `dfdu * deltaU + dfdx * deltaX + f`. -/
def remapInput {S : Type} [Zero S] [Add S] [Mul S]
    (projection : VectorFunctionLinearApproximation S) (deltaU deltaX : vector_t S) :
    vector_t S :=
  vadd (vadd (matVec projection.dfdu deltaU) (matVec projection.dfdx deltaX)) projection.f

/-- The call of the QP solver made by `getOCPSolution` (source lines 205-209). -/
def getOCPSolutionCall {S : Type} (lqc : LqCollaborators S) (settings : Settings S)
    (self : LqProblem S) (delta_x0 : vector_t S) : QpCall S :=
  if lqc.constraintPtr_.isSome && !settings.qr_decomp then
    { delta_x0 := delta_x0, dynamics := self.dynamics_, cost := self.cost_,
      constraints := some self.constraints_ }
  else
    -- without constraints, or when using QR decomposition, we have an unconstrained QP
    { delta_x0 := delta_x0, dynamics := self.dynamics_, cost := self.cost_,
      constraints := none }

/-- Embedding of `MultipleShootingSolver::getOCPSolution`: the pair
`(deltaXSol, deltaUSol)`. -/
def getOCPSolution {S : Type} [Zero S] [Add S] [Mul S] (lqc : LqCollaborators S)
    (settings : Settings S) (self : LqProblem S) (delta_x0 : vector_t S) :
    List (vector_t S) × List (vector_t S) :=
  -- Solve the QP
  let sol := lqc.solve (getOCPSolutionCall lqc settings self delta_x0)
  let deltaXSol := sol.1
  -- remap the tilde delta u to real delta u
  let deltaUSol :=
    if lqc.constraintPtr_.isSome && settings.qr_decomp then
      (List.range sol.2.length).foldl
        (fun deltaUSol i =>
          deltaUSol.set i
            (remapInput (self.constraints_.getD i default) (deltaUSol.getD i [])
              (deltaXSol.getD i [])))
        sol.2
    else sol.2
  (deltaXSol, deltaUSol)

/-- Modelled from the spec: the helper `luConstraintProjection`
(`ocs2_sqp/ConstraintProjection.h`) is not among the sources. For a constraint
`C dx + D du + e = 0` the spec describes its result as a null-space/range-space split of the
input Jacobian `D`, stored in place of the constraint as the map
`du = dfdu * u_red + dfdx * dx + f`: the columns of `dfdu` lie in the null space of `D`, and
`dfdx * dx + f` is the range-space part solving the constraint, `D * dfdx = -C` and
`D * f = -e`. This predicate says that `projection` is such a split of `constraint`. -/
def IsConstraintProjection {S : Type} [Zero S] [Add S] [Mul S] [Neg S]
    (constraint projection : VectorFunctionLinearApproximation S) : Prop :=
  matMul constraint.dfdu projection.dfdu =
      mzero constraint.dfdu.length (numCols projection.dfdu) ∧
    matMul constraint.dfdu projection.dfdx = mneg constraint.dfdx ∧
    matVec constraint.dfdu projection.f = vneg constraint.f

/-! ## A concrete linear-quadratic problem with one state and two inputs -/

/-- Modelled from the spec: the overload of `changeOfInputVariables`
(`ocs2_oc/approximate_model/ChangeOfInputVariables.h`, not among the sources) for the
dynamics. The spec describes a change of variables that folds the affine map
`du = Pu * u_red + Px * dx + u0` into `A_k, B_k, b_k`: `A + B Px`, `B Pu` and `b + B u0`
(for non-empty `Px` and `u0`). -/
def substituteInputDynamics {S : Type} [Zero S] [Add S] [Mul S]
    (dynamics : VectorFunctionLinearApproximation S) (Pu Px : matrix_t S) (u0 : vector_t S) :
    VectorFunctionLinearApproximation S where
  f := vadd dynamics.f (matVec dynamics.dfdu u0)
  dfdx := madd dynamics.dfdx (matMul dynamics.dfdu Px)
  dfdu := matMul dynamics.dfdu Pu

/-- Modelled from the spec: the overload of `changeOfInputVariables` for the cost, which
folds `du = Pu * u_red + Px * dx + u0` into the cost blocks: the quadratic model
`f + dfdx dx + dfdu du + dx' dfdxx dx / 2 + du' dfdux dx + du' dfduu du / 2` after the
substitution (for non-empty `Px` and `u0`). -/
def substituteInputCost {S : Type} [LinearOrderedField S]
    (cost : ScalarFunctionQuadraticApproximation S) (Pu Px : matrix_t S) (u0 : vector_t S) :
    ScalarFunctionQuadraticApproximation S where
  f := cost.f + dot cost.dfdu u0 + dot u0 (matVec cost.dfduu u0) / 2
  dfdx := vadd (vadd (vadd cost.dfdx (matVec (transpose Px) cost.dfdu))
    (matVec (transpose cost.dfdux) u0)) (matVec (transpose Px) (matVec cost.dfduu u0))
  dfdu := matVec (transpose Pu) (vadd cost.dfdu (matVec cost.dfduu u0))
  dfdxx := madd (madd (madd cost.dfdxx (matMul (transpose Px) cost.dfdux))
    (matMul (transpose cost.dfdux) Px)) (matMul (matMul (transpose Px) cost.dfduu) Px)
  dfdux := matMul (transpose Pu) (madd cost.dfdux (matMul cost.dfduu Px))
  dfduu := matMul (matMul (transpose Pu) cost.dfduu) Pu

/-- Collaborators of a problem with one state and two inputs: unit cost Hessians with input
gradient `(1, 1)`, and the equality constraint `du_0 = 0` (`C = 0`, `D = (1 0)`, `e = 0`)
without inequality rows. Its projection has `Pu = (0 1)'`, `Px = 0`, `u0 = 0`; the QP solver
hands back zero state corrections and reduced input corrections `(1)`. -/
def projectedLqCollaborators : LqCollaborators ℚ where
  rk4Discretization := fun _ x _ _ => { f := x, dfdx := [[1]], dfdu := [[1, 0]] }
  costQuadraticApproximation := fun _ _ _ =>
    { f := 0, dfdx := [0], dfdu := [1, 1], dfdxx := [[1]], dfdux := [[0], [0]],
      dfduu := [[1, 0], [0, 1]] }
  constraintPtr_ := some
    { stateInputEqualityConstraintLinearApproximation := fun _ _ _ =>
        { f := [0], dfdx := [[0]], dfdu := [[1, 0]] }
      inequalityConstraintQuadraticApproximation := fun _ _ _ =>
        { f := [], dfdx := [], dfdu := [], dfdxx := [], dfdux := [], dfduu := [] } }
  terminalCostFunctionPtr_ := none
  luConstraintProjection := fun _ => { f := [0, 0], dfdx := [[0], [0]], dfdu := [[0], [1]] }
  changeOfInputVariablesDynamics := substituteInputDynamics
  changeOfInputVariablesCost := substituteInputCost
  penaltyCostQuadraticApproximation := fun _ _ _ => ScalarFunctionQuadraticApproximation.Zero 1 2
  solve := fun call =>
    (List.replicate (call.dynamics.length + 1) [0], List.replicate call.dynamics.length [1])

/-- Settings for `projectedLqCollaborators`: projection enabled, no penalty. -/
def projectedSettings : Settings ℚ where
  n_state := 1
  n_input := 2
  dt := 1 / 2
  sqpIteration := 1
  deltaTol := 1 / 10
  inequalityConstraintMu := 0
  inequalityConstraintDelta := 0
  qr_decomp := true

/-- The collaborators `projectedLqCollaborators` with one inequality constraint row, whose
penalty expansion is in the full input space: one state, two inputs. -/
def penalisedLqCollaborators : LqCollaborators ℚ :=
  { projectedLqCollaborators with
    constraintPtr_ := some
      { stateInputEqualityConstraintLinearApproximation := fun _ _ _ =>
          { f := [0], dfdx := [[0]], dfdu := [[1, 0]] }
        inequalityConstraintQuadraticApproximation := fun _ _ _ =>
          { f := [1], dfdx := [[0]], dfdu := [[0, 0]], dfdxx := [[[0]]],
            dfdux := [[[0], [0]]], dfduu := [[[0, 0], [0, 0]]] } }
    penaltyCostQuadraticApproximation := fun _ _ _ =>
      { f := 1, dfdx := [1], dfdu := [2, 3], dfdxx := [[1]], dfdux := [[0], [0]],
        dfduu := [[1, 0], [0, 1]] } }

/-- Settings for `penalisedLqCollaborators`: penalty weight one, projection disabled. -/
def penalisedSettings : Settings ℚ :=
  { projectedSettings with inequalityConstraintMu := 1, qr_decomp := false }

/-- The members `dynamics_`, `cost_`, `constraints_` before the first call. -/
def emptyLqProblem : LqProblem ℚ where
  dynamics_ := []
  cost_ := []
  constraints_ := []
  ocpSize := OcpSize.init 0 0 0

/-! ## Lemmas on the grid loop -/

theorem back_concat (l : List ℚ) (a : ℚ) : back (l ++ [a]) = a := by
  simp [back]

theorem back_singleton (a : ℚ) : back [a] = a := by
  simp [back]

/-- The four ways through the loop body: an event is consumed or not, and the final time
is reached or not. -/
theorem gridLoopBody_cases (finalTime dt : ℚ) (eventTimes : List ℚ) (eventDelta : ℚ)
    (s : GridLoopState) :
    ((s.nextEventIdx < eventTimes.length ∧ eventTimes.getD s.nextEventIdx 0 ≤ s.nextTime + dt) ∧
      finalTime ≤ eventTimes.getD s.nextEventIdx 0 ∧
      gridLoopBody finalTime dt eventTimes eventDelta s =
        ⟨s.timeDiscretization ++ [finalTime], finalTime, s.nextEventIdx + 1⟩) ∨
    ((s.nextEventIdx < eventTimes.length ∧ eventTimes.getD s.nextEventIdx 0 ≤ s.nextTime + dt) ∧
      eventTimes.getD s.nextEventIdx 0 < finalTime ∧
      gridLoopBody finalTime dt eventTimes eventDelta s =
        ⟨s.timeDiscretization ++ [eventTimes.getD s.nextEventIdx 0 + eventDelta],
          eventTimes.getD s.nextEventIdx 0, s.nextEventIdx + 1⟩) ∨
    (¬ (s.nextEventIdx < eventTimes.length ∧ eventTimes.getD s.nextEventIdx 0 ≤ s.nextTime + dt) ∧
      finalTime ≤ s.nextTime + dt ∧
      gridLoopBody finalTime dt eventTimes eventDelta s =
        ⟨s.timeDiscretization ++ [finalTime], finalTime, s.nextEventIdx⟩) ∨
    (¬ (s.nextEventIdx < eventTimes.length ∧ eventTimes.getD s.nextEventIdx 0 ≤ s.nextTime + dt) ∧
      s.nextTime + dt < finalTime ∧
      gridLoopBody finalTime dt eventTimes eventDelta s =
        ⟨s.timeDiscretization ++ [s.nextTime + dt], s.nextTime + dt, s.nextEventIdx⟩) := by
  by_cases h1 : s.nextEventIdx < eventTimes.length ∧
      eventTimes.getD s.nextEventIdx 0 ≤ s.nextTime + dt
  · by_cases h2 : finalTime ≤ eventTimes.getD s.nextEventIdx 0
    · left
      refine ⟨h1, h2, ?_⟩
      simp only [gridLoopBody, ge_iff_le, if_pos h1, if_pos h2]
    · right; left
      refine ⟨h1, lt_of_not_ge h2, ?_⟩
      simp only [gridLoopBody, ge_iff_le, if_pos h1, if_neg h2]
  · by_cases h2 : finalTime ≤ s.nextTime + dt
    · right; right; left
      refine ⟨h1, h2, ?_⟩
      simp only [gridLoopBody, ge_iff_le, if_neg h1, if_pos h2]
    · right; right; right
      refine ⟨h1, lt_of_not_ge h2, ?_⟩
      simp only [gridLoopBody, ge_iff_le, if_neg h1, if_neg h2]

/-- Loop-invariant rule for `gridLoop`: a predicate that holds initially and is preserved by
every pass whose loop condition is true holds for the final state. -/
theorem gridLoop_invariant (finalTime dt : ℚ) (eventTimes : List ℚ) (eventDelta : ℚ)
    (P : GridLoopState → Prop)
    (hstep : ∀ s, P s → back s.timeDiscretization < finalTime →
      P (gridLoopBody finalTime dt eventTimes eventDelta s)) :
    ∀ (fuel : Nat) (s : GridLoopState) (grid : List ℚ), P s →
      gridLoop finalTime dt eventTimes eventDelta fuel s = some grid →
      ∃ s1, P s1 ∧ s1.timeDiscretization = grid ∧ ¬ back grid < finalTime := by
  intro fuel
  induction fuel with
  | zero => intro s grid _ h; simp [gridLoop] at h
  | succ n ih =>
    intro s grid hP h
    rw [gridLoop] at h
    split_ifs at h with hb
    · exact ih _ grid (hstep s hP hb) h
    · simp only [Option.some.injEq] at h
      exact ⟨s, hP, h, by rw [← h]; exact hb⟩

/-- More fuel does not change a result already reached. -/
theorem gridLoop_fuel_mono (finalTime dt : ℚ) (eventTimes : List ℚ) (eventDelta : ℚ) :
    ∀ (fuel k : Nat) (s : GridLoopState) (grid : List ℚ),
      gridLoop finalTime dt eventTimes eventDelta fuel s = some grid →
      gridLoop finalTime dt eventTimes eventDelta (fuel + k) s = some grid := by
  intro fuel
  induction fuel with
  | zero => intro k s grid h; simp [gridLoop] at h
  | succ n ih =>
    intro k s grid h
    rw [show n + 1 + k = (n + k) + 1 by omega, gridLoop]
    rw [gridLoop] at h
    split_ifs at h with hb
    · rw [if_pos hb]; exact ih k _ grid h
    · rw [if_neg hb]; exact h

theorem stepsToFinal_pos {finalTime dt t : ℚ} (hdt : 0 < dt) (ht : t < finalTime) :
    1 ≤ stepsToFinal finalTime dt t := by
  unfold stepsToFinal
  have : 0 < (finalTime - t) / dt := div_pos (by linarith) hdt
  exact Nat.ceil_pos.mpr this

theorem stepsToFinal_step {finalTime dt t : ℚ} (hdt : 0 < dt) (ht : t + dt < finalTime) :
    stepsToFinal finalTime dt (t + dt) + 1 = stepsToFinal finalTime dt t := by
  unfold stepsToFinal
  have h1 : (finalTime - t) / dt = (finalTime - (t + dt)) / dt + 1 := by
    field_simp
    ring
  have h2 : 0 ≤ (finalTime - (t + dt)) / dt := le_of_lt (div_pos (by linarith) hdt)
  rw [h1, Nat.ceil_add_one h2]

theorem drop_sum_step (f : ℚ → Nat) (l : List ℚ) (i : Nat) (h : i < l.length) :
    ((l.drop i).map f).sum = f (l.getD i 0) + ((l.drop (i + 1)).map f).sum := by
  rw [List.drop_eq_getElem_cons h, List.getD_eq_getElem l 0 h, List.map_cons, List.sum_cons]

theorem gridLoop_terminates (finalTime dt : ℚ) (eventTimes : List ℚ) (eventDelta : ℚ)
    (hdt : 0 < dt) :
    ∀ (fuel : Nat) (s : GridLoopState),
      (back s.timeDiscretization < finalTime → s.nextTime < finalTime) →
      gridMeasure finalTime dt eventTimes s < fuel →
      ∃ grid, gridLoop finalTime dt eventTimes eventDelta fuel s = some grid := by
  intro fuel
  induction fuel with
  | zero => intro s _ h; omega
  | succ n ih =>
    intro s hI hm
    rw [gridLoop]
    split_ifs with hb
    · have hnt := hI hb
      have hpos := stepsToFinal_pos hdt hnt
      have h0 : stepsToFinal finalTime dt finalTime = 0 := by simp [stepsToFinal]
      unfold gridMeasure at hm
      rcases gridLoopBody_cases finalTime dt eventTimes eventDelta s with
        ⟨h1, h2, he⟩ | ⟨h1, h2, he⟩ | ⟨h1, h2, he⟩ | ⟨h1, h2, he⟩
      · rw [he]
        apply ih
        · simp [back_concat]
        · have := drop_sum_step (fun e => stepsToFinal finalTime dt e + 2) eventTimes _ h1.1
          simp only [gridMeasure, h0] at this ⊢
          omega
      · rw [he]
        apply ih
        · intro _; exact h2
        · have := drop_sum_step (fun e => stepsToFinal finalTime dt e + 2) eventTimes _ h1.1
          simp only [gridMeasure] at this ⊢
          omega
      · rw [he]
        apply ih
        · simp [back_concat]
        · simp only [gridMeasure, h0]
          omega
      · rw [he]
        apply ih
        · intro _; exact h2
        · have := stepsToFinal_step hdt h2
          simp only [gridMeasure]
          omega
    · exact ⟨_, rfl⟩

theorem drop_sum_le (f : ℚ → Nat) (l : List ℚ) (i : Nat) :
    ((l.drop i).map f).sum ≤ (l.map f).sum := by
  conv_rhs => rw [← List.take_append_drop i l, List.map_append, List.sum_append]
  omega

/-- The grid builder hands back a grid on every input that passes its assertions. -/
theorem timeDiscretizationWithEvents_ok (initTime finalTime dt : ℚ) (eventTimes : List ℚ)
    (eventDelta : ℚ) (hdt : 0 < dt) (hT : initTime < finalTime) :
    ∃ grid, timeDiscretizationWithEvents initTime finalTime dt eventTimes eventDelta = .ok grid ∧
      ∃ fuel, gridLoop finalTime dt eventTimes eventDelta fuel
        ⟨[initTime], initTime, findIndexInTimeArray eventTimes initTime⟩ = some grid := by
  obtain ⟨grid, hg⟩ := gridLoop_terminates finalTime dt eventTimes eventDelta hdt
    (gridFuel initTime finalTime dt eventTimes)
    ⟨[initTime], initTime, findIndexInTimeArray eventTimes initTime⟩ (fun _ => hT) (by
      have := drop_sum_le (fun e => stepsToFinal finalTime dt e + 2) eventTimes
        (findIndexInTimeArray eventTimes initTime)
      simp only [gridMeasure, gridFuel]
      omega)
  refine ⟨grid, ?_, _, hg⟩
  simp only [timeDiscretizationWithEvents, gt_iff_lt, hdt, hT, not_true_eq_false, if_false, hg]

/-- The result of the loop does not depend on the fuel: any run of `gridLoop` that finishes
gives the grid handed back by `timeDiscretizationWithEvents`. -/
theorem timeDiscretizationWithEvents_of_loop (initTime finalTime dt : ℚ) (eventTimes : List ℚ)
    (eventDelta : ℚ) (hdt : 0 < dt) (hT : initTime < finalTime) (fuel : Nat) (grid : List ℚ)
    (h : gridLoop finalTime dt eventTimes eventDelta fuel
      ⟨[initTime], initTime, findIndexInTimeArray eventTimes initTime⟩ = some grid) :
    timeDiscretizationWithEvents initTime finalTime dt eventTimes eventDelta = .ok grid := by
  obtain ⟨g, hok, f, hf⟩ :=
    timeDiscretizationWithEvents_ok initTime finalTime dt eventTimes eventDelta hdt hT
  have h1 := gridLoop_fuel_mono finalTime dt eventTimes eventDelta fuel f _ grid h
  have h2 := gridLoop_fuel_mono finalTime dt eventTimes eventDelta f fuel _ g hf
  rw [Nat.add_comm] at h2
  rw [h1] at h2
  rw [hok, Option.some.inj h2]

/-- A grid is handed back only on inputs that pass both assertions. -/
theorem timeDiscretizationWithEvents_ok_valid (initTime finalTime dt : ℚ) (eventTimes : List ℚ)
    (eventDelta : ℚ) (grid : List ℚ)
    (h : timeDiscretizationWithEvents initTime finalTime dt eventTimes eventDelta = .ok grid) :
    0 < dt ∧ initTime < finalTime := by
  unfold timeDiscretizationWithEvents at h
  split_ifs at h with h1 h2
  exact ⟨h1, h2⟩

/-- Loop-invariant rule for the whole grid builder: a predicate that holds for the initial
loop state and is preserved by every pass holds for a state carrying the returned grid. -/
theorem timeDiscretizationWithEvents_invariant (initTime finalTime dt : ℚ)
    (eventTimes : List ℚ) (eventDelta : ℚ) (hdt : 0 < dt) (hT : initTime < finalTime)
    (P : GridLoopState → Prop)
    (h0 : P ⟨[initTime], initTime, findIndexInTimeArray eventTimes initTime⟩)
    (hstep : ∀ s, P s → back s.timeDiscretization < finalTime →
      P (gridLoopBody finalTime dt eventTimes eventDelta s)) :
    ∃ s1, timeDiscretizationWithEvents initTime finalTime dt eventTimes eventDelta =
        .ok s1.timeDiscretization ∧ P s1 ∧ ¬ back s1.timeDiscretization < finalTime := by
  obtain ⟨g, hok, f, hf⟩ :=
    timeDiscretizationWithEvents_ok initTime finalTime dt eventTimes eventDelta hdt hT
  obtain ⟨s1, hP, hg, hb⟩ :=
    gridLoop_invariant finalTime dt eventTimes eventDelta P hstep f _ g h0 hf
  exact ⟨s1, by rw [hok, hg], hP, by rw [hg]; exact hb⟩

/-! ## C1: first and last element of the grid -/

/-- On every input that passes the assertions the grid starts at `initTime`. -/
theorem timeDiscretizationWithEvents_head (initTime finalTime dt : ℚ) (eventTimes : List ℚ)
    (eventDelta : ℚ) (hdt : 0 < dt) (hT : initTime < finalTime) :
    ∃ grid, timeDiscretizationWithEvents initTime finalTime dt eventTimes eventDelta =
        .ok grid ∧ grid.head? = some initTime := by
  obtain ⟨s1, hok, hP, -⟩ := timeDiscretizationWithEvents_invariant initTime finalTime dt
    eventTimes eventDelta hdt hT (fun s => s.timeDiscretization.head? = some initTime)
    (by simp)
    (by
      intro s hs _
      rcases gridLoopBody_cases finalTime dt eventTimes eventDelta s with
        ⟨_, _, he⟩ | ⟨_, _, he⟩ | ⟨_, _, he⟩ | ⟨_, _, he⟩ <;>
      · rw [he]
        simp only
        rw [List.head?_append_of_ne_nil _ (by intro h; rw [h] at hs; simp at hs)]
        exact hs)
  exact ⟨_, hok, hP⟩

/-- When no event time below `finalTime` comes within `eventDelta` of it, the grid ends
exactly at `finalTime`. -/
theorem timeDiscretizationWithEvents_last (initTime finalTime dt : ℚ) (eventTimes : List ℚ)
    (eventDelta : ℚ) (hdt : 0 < dt) (hT : initTime < finalTime)
    (hev : ∀ e ∈ eventTimes, e < finalTime → e + eventDelta ≤ finalTime) :
    ∃ grid, timeDiscretizationWithEvents initTime finalTime dt eventTimes eventDelta =
        .ok grid ∧ grid.getLast? = some finalTime := by
  obtain ⟨s1, hok, ⟨hP1, hP2⟩, hb⟩ := timeDiscretizationWithEvents_invariant initTime
    finalTime dt eventTimes eventDelta hdt hT
    (fun s => s.timeDiscretization ≠ [] ∧ back s.timeDiscretization ≤ finalTime)
    (by
      refine ⟨by simp, ?_⟩
      rw [back_singleton]
      exact le_of_lt hT)
    (by
      intro s _ _
      rcases gridLoopBody_cases finalTime dt eventTimes eventDelta s with
        ⟨_, _, he⟩ | ⟨h1, h2, he⟩ | ⟨_, _, he⟩ | ⟨_, h2, he⟩
      · rw [he]; simp [back_concat]
      · rw [he]
        refine ⟨by simp, ?_⟩
        simp only [back_concat]
        refine hev _ ?_ h2
        rw [List.getD_eq_getElem eventTimes 0 h1.1]
        exact List.getElem_mem _
      · rw [he]; simp [back_concat]
      · rw [he]
        refine ⟨by simp, ?_⟩
        simp only [back_concat]
        exact le_of_lt h2)
  refine ⟨_, hok, ?_⟩
  have hback : back s1.timeDiscretization = finalTime := le_antisymm hP2 (not_lt.mp hb)
  obtain ⟨a, ha⟩ : ∃ a, s1.timeDiscretization.getLast? = some a := by
    cases h : s1.timeDiscretization.getLast? with
    | none => exact absurd (List.getLast?_eq_none_iff.mp h) hP1
    | some a => exact ⟨a, rfl⟩
  rw [back, List.getLastD_eq_getLast?, ha] at hback
  rw [ha]
  exact congrArg some hback

/-- C1 (failing input): for `initTime = 0`, `finalTime = 1`, `dt = 1/2`, the single event time
`19/20` and `eventDelta = 1/10`, the grid is `[0, 1/2, 21/20]`: it starts at `initTime`, but
its last element is `19/20 + 1/10`, beyond `finalTime`, because the final-time check looks at
the event time before `eventDelta` is added. -/
theorem timeDiscretizationWithEvents_last_exceeds_finalTime :
    timeDiscretizationWithEvents 0 1 (1/2) [19/20] (1/10) = .ok [0, 1/2, 21/20] ∧
      ([0, 1/2, 21/20] : List ℚ).getLast? ≠ some 1 := by
  constructor
  · apply timeDiscretizationWithEvents_of_loop 0 1 (1/2) [19/20] (1/10) (by norm_num)
      (by norm_num) 3
    norm_num [gridLoop, gridLoopBody, back, findIndexInTimeArray]
  · norm_num

/-! ## C4: the worked example -/

/-- C4: for `initTime = 3.0`, `finalTime = 4.0`, `dt = 0.1`, event times
`{3.25, 3.4, 3.88, 4.02, 4.5}` and every positive `eps` below `0.12` the grid is exactly
`{3.0, 3.1, 3.2, 3.25 + eps, 3.35, 3.4 + eps, 3.5, 3.6, 3.7, 3.8, 3.88 + eps, 3.98, 4.0}`. -/
theorem timeDiscretizationWithEvents_example (eps : ℚ) (h0 : 0 < eps) (h1 : eps < 3/25) :
    timeDiscretizationWithEvents 3 4 (1/10) [13/4, 17/5, 97/25, 201/50, 9/2] eps =
      .ok [3, 31/10, 16/5, 13/4 + eps, 67/20, 17/5 + eps, 7/2, 18/5, 37/10, 19/5,
        97/25 + eps, 199/50, 4] := by
  apply timeDiscretizationWithEvents_of_loop 3 4 (1/10) _ eps (by norm_num) (by norm_num) 13
  have e1 : 13/4 + eps < 4 := by linarith
  have e2 : 17/5 + eps < 4 := by linarith
  have e3 : 97/25 + eps < 4 := by linarith
  norm_num [gridLoop, gridLoopBody, back, findIndexInTimeArray, e1, e2, e3]

/-- The worked example at `eps = 1/100`. -/
theorem timeDiscretizationWithEvents_example_witness :
    (0 : ℚ) < 1/100 ∧ (1/100 : ℚ) < 3/25 ∧
    timeDiscretizationWithEvents 3 4 (1/10) [13/4, 17/5, 97/25, 201/50, 9/2] (1/100) =
      .ok [3, 31/10, 16/5, 13/4 + 1/100, 67/20, 17/5 + 1/100, 7/2, 18/5, 37/10, 19/5,
        97/25 + 1/100, 199/50, 4] :=
  ⟨by norm_num, by norm_num,
    timeDiscretizationWithEvents_example (1/100) (by norm_num) (by norm_num)⟩

/-! ## Facts on the event array -/

theorem findIndexInTimeArray_cons (a : ℚ) (l : List ℚ) (t : ℚ) :
    findIndexInTimeArray (a :: l) t = if a < t then findIndexInTimeArray l t + 1 else 0 := by
  unfold findIndexInTimeArray
  rw [List.takeWhile_cons]
  by_cases h : a < t <;> simp [h]

/-- Every entry before the looked-up index is strictly before `time`. -/
theorem findIndexInTimeArray_before (l : List ℚ) (t : ℚ) :
    ∀ j, j < findIndexInTimeArray l t → l.getD j 0 < t := by
  induction l with
  | nil => intro j h; simp [findIndexInTimeArray] at h
  | cons a l ih =>
    intro j h
    rw [findIndexInTimeArray_cons] at h
    by_cases ha : a < t
    · rw [if_pos ha] at h
      cases j with
      | zero => simpa using ha
      | succ k =>
        have := ih k (by omega)
        simpa using this
    · rw [if_neg ha] at h
      omega

/-- The entry at the looked-up index, if there is one, is not before `time`. -/
theorem findIndexInTimeArray_at (l : List ℚ) (t : ℚ) :
    findIndexInTimeArray l t < l.length → t ≤ l.getD (findIndexInTimeArray l t) 0 := by
  induction l with
  | nil => intro h; simp at h
  | cons a l ih =>
    intro h
    rw [findIndexInTimeArray_cons] at h ⊢
    by_cases ha : a < t
    · rw [if_pos ha] at h ⊢
      have := ih (by simpa using h)
      simpa using this
    · rw [if_neg ha]
      simpa using not_lt.mp ha

theorem sorted_lt_getD_succ (l : List ℚ) (hs : l.Sorted (· < ·)) (i : Nat)
    (h : i + 1 < l.length) : l.getD i 0 < l.getD (i + 1) 0 := by
  rw [List.getD_eq_getElem l 0 h, List.getD_eq_getElem l 0 (by omega : i < l.length)]
  exact List.pairwise_iff_getElem.mp hs i (i + 1) (by omega) h (by omega)

theorem sorted_le_getD (l : List ℚ) (hs : l.Sorted (· ≤ ·)) (i j : Nat) (hij : i ≤ j)
    (h : j < l.length) : l.getD i 0 ≤ l.getD j 0 := by
  rw [List.getD_eq_getElem l 0 h, List.getD_eq_getElem l 0 (by omega : i < l.length)]
  rcases Nat.lt_or_eq_of_le hij with h1 | h1
  · exact List.pairwise_iff_getElem.mp hs i j (by omega) h h1
  · subst h1; exact le_refl _

/-- Appending a value above the last element keeps a grid strictly increasing and bounded by
its last element. -/
theorem sorted_concat (l : List ℚ) (x : ℚ) (hs : l.Sorted (· < ·))
    (hall : ∀ a ∈ l, a ≤ back l) (hx : back l < x) :
    (l ++ [x]).Sorted (· < ·) ∧ ∀ a ∈ l ++ [x], a ≤ back (l ++ [x]) := by
  constructor
  · refine List.pairwise_append.mpr ⟨hs, List.pairwise_singleton _ _, ?_⟩
    intro a ha b hb
    rw [List.mem_singleton] at hb
    subst hb
    exact lt_of_le_of_lt (hall a ha) hx
  · intro a ha
    rw [back_concat]
    rcases List.mem_append.mp ha with h | h
    · exact le_of_lt (lt_of_le_of_lt (hall a h) hx)
    · rw [List.mem_singleton] at h
      exact le_of_eq h

/-! ## Lemmas on `takeStep` -/

section Step

variable {S : Type} [LinearOrderedField S]

theorem vsmul_one (v : vector_t S) : vsmul 1 v = v := by
  simp [vsmul]

theorem vadd_vzero (v : vector_t S) : vadd v (vzero v.length) = v := by
  induction v with
  | nil => rfl
  | cons a l ih =>
    simp only [vadd, vzero, List.length_cons, List.replicate_succ, List.zipWith_cons_cons,
      add_zero] at ih ⊢
    rw [ih]

theorem stepLoop_succ (norm : vector_t S → S) (alpha : S) (d : List (vector_t S)) (n : Nat)
    (v : List (vector_t S)) :
    stepLoop norm alpha d (n + 1) v =
      ((stepLoop norm alpha d n v).1 + alpha * norm (d.getD n []),
        (stepLoop norm alpha d n v).2.set n
          (vadd ((stepLoop norm alpha d n v).2.getD n []) (vsmul alpha (d.getD n [])))) := by
  simp only [stepLoop, List.range_succ, List.foldl_append, List.foldl_cons, List.foldl_nil]

theorem stepLoop_zero (norm : vector_t S → S) (alpha : S) (d : List (vector_t S))
    (v : List (vector_t S)) : stepLoop norm alpha d 0 v = (0, v) := by
  simp [stepLoop]

/-- The loop leaves the number of entries of the updated array unchanged. -/
theorem stepLoop_length (norm : vector_t S → S) (alpha : S) (d : List (vector_t S)) (n : Nat)
    (v : List (vector_t S)) : (stepLoop norm alpha d n v).2.length = v.length := by
  induction n with
  | zero => rw [stepLoop_zero]
  | succ k ih => rw [stepLoop_succ, List.length_set, ih]

/-- The accumulated norm after `n` passes. -/
theorem stepLoop_fst (norm : vector_t S → S) (alpha : S) (d : List (vector_t S)) (n : Nat)
    (v : List (vector_t S)) :
    (stepLoop norm alpha d n v).1 =
      ((List.range n).map (fun i => alpha * norm (d.getD i []))).sum := by
  induction n with
  | zero => simp [stepLoop_zero]
  | succ k ih =>
    rw [stepLoop_succ, List.range_succ, List.map_append, List.sum_append, ih]
    simp

/-- The entries of the updated array after `n` passes: the first `n` are incremented. -/
theorem stepLoop_getElem? (norm : vector_t S → S) (alpha : S) (d : List (vector_t S))
    (n : Nat) (v : List (vector_t S)) (j : Nat) :
    (stepLoop norm alpha d n v).2[j]? =
      if j < n then v[j]?.map (fun a => vadd a (vsmul alpha (d.getD j []))) else v[j]? := by
  induction n with
  | zero => simp [stepLoop_zero]
  | succ k ih =>
    rw [stepLoop_succ, List.getElem?_set]
    by_cases hkj : k = j
    · subst hkj
      rw [if_pos rfl, if_pos (Nat.lt_succ_self k), stepLoop_length, List.getD_eq_getElem?_getD]
      have ihk := ih
      rw [if_neg (Nat.lt_irrefl k)] at ihk
      rw [ihk]
      by_cases hk : k < v.length
      · rw [if_pos hk, List.getElem?_eq_getElem hk]
        simp
      · rw [if_neg hk, List.getElem?_eq_none (not_lt.mp hk)]
        simp
    · rw [if_neg hkj, ih]
      by_cases h1 : j < k
      · rw [if_pos h1, if_pos (by omega)]
      · rw [if_neg h1, if_neg (by omega)]

theorem range_map_getD {α : Type} (l : List α) (d : α) :
    (List.range l.length).map (fun i => l.getD i d) = l := by
  apply List.ext_getElem?
  intro n
  rw [List.getElem?_map]
  by_cases h : n < l.length
  · rw [List.getElem?_range h, List.getElem?_eq_getElem h]
    simp [List.getD_eq_getElem?_getD, List.getElem?_eq_getElem h]
  · rw [List.getElem?_eq_none (by simpa using h), List.getElem?_eq_none (not_lt.mp h)]
    rfl

theorem takeStep_unfold (norm : vector_t S → S) (deltaTol : S) (timeDiscretization : List ℚ)
    (dx du x u : List (vector_t S)) :
    takeStep norm deltaTol timeDiscretization dx du x u =
      (decide ((stepLoop norm 1 du (timeDiscretization.length - 1) u).1 < deltaTol ∧
          (stepLoop norm 1 dx ((timeDiscretization.length - 1 : Int) + 1).toNat x).1 <
            deltaTol),
        (stepLoop norm 1 dx ((timeDiscretization.length - 1 : Int) + 1).toNat x).2,
        (stepLoop norm 1 du (timeDiscretization.length - 1) u).2) := by
  have : ((timeDiscretization.length : Int) - 1).toNat = timeDiscretization.length - 1 := by
    omega
  simp only [takeStep, this]

theorem takeStep_length (norm : vector_t S → S) (deltaTol : S) (timeDiscretization : List ℚ)
    (dx du x u : List (vector_t S)) :
    (takeStep norm deltaTol timeDiscretization dx du x u).2.1.length = x.length ∧
    (takeStep norm deltaTol timeDiscretization dx du x u).2.2.length = u.length := by
  rw [takeStep_unfold]
  exact ⟨stepLoop_length _ _ _ _ _, stepLoop_length _ _ _ _ _⟩

/-! ## C9: the step and its convergence flag -/

end Step

/-! ## C6: warm start of the state trajectory -/

/-- C6: for every grid with `N` intervals, every current state and every stored previous
solution (also on the first solve), `initializeStateTrajectory` hands back `N + 1` state
samples, and the sample at index 0 is exactly the supplied current state. -/
theorem initializeStateTrajectory_spec {S : Type} (c : Collaborators S) (self : SolverState S)
    (initState : vector_t S) (timeDiscretization : List ℚ) (N : Nat) :
    (initializeStateTrajectory c self initState timeDiscretization (N : Int)).length = N + 1 ∧
    (initializeStateTrajectory c self initState timeDiscretization (N : Int))[0]? =
      some initState := by
  have h : ((N : Int) + 1).toNat = N + 1 := by omega
  unfold initializeStateTrajectory
  split_ifs
  · rw [h]
    simp
  · simp

theorem initializeStateTrajectory_length {S : Type} (c : Collaborators S) (self : SolverState S)
    (initState : vector_t S) (timeDiscretization : List ℚ) (N : Nat) :
    (initializeStateTrajectory c self initState timeDiscretization (N : Int)).length =
      N + 1 := by
  have h : ((N : Int) + 1).toNat = N + 1 := by omega
  unfold initializeStateTrajectory
  split_ifs
  · rw [h]
    simp
  · simp

/-! ## Lemmas on the SQP loop -/

section Sqp

variable {S : Type} [LinearOrderedField S]

theorem sqpLoop_length (c : Collaborators S) (settings : Settings S) (initState : vector_t S)
    (timeDiscretization : List ℚ) :
    ∀ (K : Nat) (it : SqpIterate S),
      (sqpLoop c settings initState timeDiscretization K it).x.length = it.x.length ∧
      (sqpLoop c settings initState timeDiscretization K it).u.length = it.u.length := by
  intro K
  induction K with
  | zero => intro it; exact ⟨rfl, rfl⟩
  | succ k ih =>
    intro it
    have hl := takeStep_length c.norm settings.deltaTol timeDiscretization
      (c.ocp timeDiscretization it.x it.u (vsub initState (it.x.getD 0 []))).1
      (c.ocp timeDiscretization it.x it.u (vsub initState (it.x.getD 0 []))).2 it.x it.u
    simp only [sqpLoop]
    split_ifs
    · exact hl
    · obtain ⟨h1, h2⟩ := ih
        { x := (takeStep c.norm settings.deltaTol timeDiscretization
            (c.ocp timeDiscretization it.x it.u (vsub initState (it.x.getD 0 []))).1
            (c.ocp timeDiscretization it.x it.u (vsub initState (it.x.getD 0 []))).2
            it.x it.u).2.1
          u := (takeStep c.norm settings.deltaTol timeDiscretization
            (c.ocp timeDiscretization it.x it.u (vsub initState (it.x.getD 0 []))).1
            (c.ocp timeDiscretization it.x it.u (vsub initState (it.x.getD 0 []))).2
            it.x it.u).2.2
          totalNumIterations_ := it.totalNumIterations_ + 1 }
      exact ⟨h1.trans hl.1, h2.trans hl.2⟩

/-- The loop of `runImpl` with `K + 1` passes allowed: one pass, then `break` if `takeStep`
reported convergence, the loop with `K` passes allowed otherwise. -/
theorem sqpLoop_succ (c : Collaborators S) (settings : Settings S) (initState : vector_t S)
    (timeDiscretization : List ℚ) (K : Nat) (it : SqpIterate S) :
    sqpLoop c settings initState timeDiscretization (K + 1) it =
      if (sqpPass c settings initState timeDiscretization it).1 = true then
        (sqpPass c settings initState timeDiscretization it).2
      else
        sqpLoop c settings initState timeDiscretization K
          (sqpPass c settings initState timeDiscretization it).2 := rfl

theorem sqpPasses_count (c : Collaborators S) (settings : Settings S) (initState : vector_t S)
    (timeDiscretization : List ℚ) :
    ∀ (k : Nat) (it : SqpIterate S),
      (sqpPasses c settings initState timeDiscretization k it).totalNumIterations_ =
        it.totalNumIterations_ + k := by
  intro k
  induction k with
  | zero => intro it; rfl
  | succ n ih =>
    intro it
    rw [sqpPasses, ih]
    simp only [sqpPass]
    omega

/-- The loop with `K` passes allowed raises the iteration counter by at most `K`. -/
theorem sqpLoop_count_le (c : Collaborators S) (settings : Settings S) (initState : vector_t S)
    (timeDiscretization : List ℚ) :
    ∀ (K : Nat) (it : SqpIterate S),
      (sqpLoop c settings initState timeDiscretization K it).totalNumIterations_ ≤
        it.totalNumIterations_ + K := by
  intro K
  induction K with
  | zero => intro it; exact le_refl _
  | succ k ih =>
    intro it
    rw [sqpLoop_succ]
    split_ifs
    · simp only [sqpPass]; omega
    · have := ih (sqpPass c settings initState timeDiscretization it).2
      simp only [sqpPass] at this ⊢
      omega

/-- When none of the first `K` passes reports convergence, the loop with `K` passes allowed
makes all of them. -/
theorem sqpLoop_of_not_converged (c : Collaborators S) (settings : Settings S)
    (initState : vector_t S) (timeDiscretization : List ℚ) :
    ∀ (K : Nat) (it : SqpIterate S),
      (∀ k, k < K → (sqpPass c settings initState timeDiscretization
        (sqpPasses c settings initState timeDiscretization k it)).1 = false) →
      sqpLoop c settings initState timeDiscretization K it =
        sqpPasses c settings initState timeDiscretization K it := by
  intro K
  induction K with
  | zero => intro it _; rfl
  | succ n ih =>
    intro it h
    have h0 := h 0 (by omega)
    rw [sqpPasses] at h0
    rw [sqpLoop_succ, if_neg (by rw [h0]; exact Bool.false_ne_true), sqpPasses]
    apply ih
    intro k hk
    have := h (k + 1) (by omega)
    rw [sqpPasses] at this
    exact this

/-- When pass `j` is the first to report convergence, the loop with more than `j` passes
allowed stops after that pass. -/
theorem sqpLoop_of_first_converged (c : Collaborators S) (settings : Settings S)
    (initState : vector_t S) (timeDiscretization : List ℚ) :
    ∀ (j K : Nat) (it : SqpIterate S), j < K →
      (∀ i, i < j → (sqpPass c settings initState timeDiscretization
        (sqpPasses c settings initState timeDiscretization i it)).1 = false) →
      (sqpPass c settings initState timeDiscretization
        (sqpPasses c settings initState timeDiscretization j it)).1 = true →
      sqpLoop c settings initState timeDiscretization K it =
        (sqpPass c settings initState timeDiscretization
          (sqpPasses c settings initState timeDiscretization j it)).2 := by
  intro j
  induction j with
  | zero =>
    intro K it hK _ hj
    obtain ⟨n, rfl⟩ : ∃ n, K = n + 1 := ⟨K - 1, by omega⟩
    rw [sqpPasses] at hj
    rw [sqpLoop_succ, if_pos hj, sqpPasses]
  | succ m ih =>
    intro K it hK hi hj
    obtain ⟨n, rfl⟩ : ∃ n, K = n + 1 := ⟨K - 1, by omega⟩
    have h0 := hi 0 (by omega)
    rw [sqpPasses] at h0
    rw [sqpLoop_succ, if_neg (by rw [h0]; exact Bool.false_ne_true), sqpPasses]
    apply ih n _ (by omega)
    · intro i hi2
      have := hi (i + 1) (by omega)
      rw [sqpPasses] at this
      exact this
    · rw [sqpPasses] at hj
      exact hj

/-- The grid handed to the SQP loop: `runImpl` on valid input is `runOnGrid` on a grid that
starts at `initTime` and has at least two points. -/
theorem runImpl_eq_runOnGrid (c : Collaborators S) (settings : Settings S)
    (eventTimes : List ℚ) (self : SolverState S) (initTime : ℚ) (initState : vector_t S)
    (finalTime : ℚ) (hdt : 0 < settings.dt) (hT : initTime < finalTime) :
    ∃ grid, timeDiscretizationWithEvents initTime finalTime settings.dt eventTimes
        c.limitEpsilon = .ok grid ∧ grid.head? = some initTime ∧ 2 ≤ grid.length ∧
      runImpl c settings eventTimes self initTime initState finalTime =
        .ok (runOnGrid c settings self initState grid) := by
  obtain ⟨s1, hok, hP, hb⟩ := timeDiscretizationWithEvents_invariant initTime finalTime
    settings.dt eventTimes c.limitEpsilon hdt hT
    (fun s => s.timeDiscretization.head? = some initTime)
    (by simp)
    (by
      intro s hs _
      rcases gridLoopBody_cases finalTime settings.dt eventTimes c.limitEpsilon s with
        ⟨_, _, he⟩ | ⟨_, _, he⟩ | ⟨_, _, he⟩ | ⟨_, _, he⟩ <;>
      · rw [he]
        simp only
        rw [List.head?_append_of_ne_nil _ (by intro h; rw [h] at hs; simp at hs)]
        exact hs)
  refine ⟨s1.timeDiscretization, hok, hP, ?_, ?_⟩
  · match hg : s1.timeDiscretization with
    | [] => rw [hg] at hP; simp at hP
    | [a] =>
      rw [hg] at hP hb
      simp only [List.head?_cons, Option.some.injEq] at hP
      rw [back_singleton, hP] at hb
      exact absurd hT hb
    | _ :: _ :: _ => simp
  · simp only [runImpl, hok]

theorem initializeInputTrajectory_length (c : Collaborators S) (settings : Settings S)
    (self : SolverState S) (timeDiscretization : List ℚ) (stateTrajectory : List (vector_t S))
    (N : Nat) :
    (initializeInputTrajectory c settings self timeDiscretization stateTrajectory
      (N : Int)).length = N := by
  simp [initializeInputTrajectory]

/-- A pass of the step loop whose corrections are zero vectors of matching size changes
nothing and accumulates norm zero. -/
theorem stepLoop_zero_step (norm : vector_t S → S) (hnorm : ∀ n, norm (vzero n) = 0)
    (n : Nat) (v : List (vector_t S)) :
    stepLoop norm 1 (v.map (fun w => vzero w.length)) n v = (0, v) := by
  have hget : ∀ i, ∃ m, (v.map (fun w => (vzero w.length : vector_t S))).getD i [] =
      vzero m ∧ ∀ a, v[i]? = some a → m = a.length := by
    intro i
    rw [List.getD_eq_getElem?_getD, List.getElem?_map]
    cases h : v[i]? with
    | none => exact ⟨0, rfl, fun a ha => by cases ha⟩
    | some b => exact ⟨b.length, rfl, fun a ha => by cases ha; rfl⟩
  apply Prod.ext
  · rw [stepLoop_fst]
    apply List.sum_eq_zero
    intro t ht
    rw [List.mem_map] at ht
    obtain ⟨i, -, hi⟩ := ht
    obtain ⟨m, hm, -⟩ := hget i
    rw [← hi, hm, hnorm, mul_zero]
  · apply List.ext_getElem?
    intro j
    rw [stepLoop_getElem?]
    split_ifs with hj
    · cases h : v[j]? with
      | none => rfl
      | some a =>
        obtain ⟨m, hm, hma⟩ := hget j
        rw [Option.map_some', hm, hma a h, vsmul_one, vadd_vzero]
    · rfl

theorem takeStep_zero_step (norm : vector_t S → S) (deltaTol : S) (htol : 0 < deltaTol)
    (hnorm : ∀ n, norm (vzero n) = 0) (timeDiscretization : List ℚ)
    (x u : List (vector_t S)) :
    takeStep norm deltaTol timeDiscretization (x.map (fun w => vzero w.length))
      (u.map (fun w => vzero w.length)) x u = (true, x, u) := by
  rw [takeStep_unfold, stepLoop_zero_step norm hnorm, stepLoop_zero_step norm hnorm]
  simp [htol]

/-! ## C7: iteration cap -/

/-- C7: the SQP loop of `runImpl` raises the iteration counter by at most the configured cap
`settings.sqpIteration`, on whatever grid it runs (`runOnGrid` is all that `runImpl` does
once the grid is built) and from the initial guess `it0` of the call. When `takeStep`
reports convergence in none of the passes of the run (pass `k` is the pass made on the
variables left by the `k` passes before it), the counter grows by exactly the cap; when pass
`j` is the first in which it reports convergence, the counter grows by exactly `j + 1`. On
every input that passes the assertions of the grid builder, `runImpl` is `runOnGrid` on the
grid built, which has at least two points. -/
theorem runImpl_iteration_cap (c : Collaborators S) (settings : Settings S)
    (eventTimes : List ℚ) (self : SolverState S) (initTime : ℚ) (initState : vector_t S)
    (finalTime : ℚ) :
    (∀ (grid : List ℚ) (it0 : SqpIterate S),
      it0 =
        { x := initializeStateTrajectory c self initState grid ((grid.length : Int) - 1)
          u := initializeInputTrajectory c settings self grid
            (initializeStateTrajectory c self initState grid ((grid.length : Int) - 1))
            ((grid.length : Int) - 1)
          totalNumIterations_ := self.totalNumIterations_ } →
      (runOnGrid c settings self initState grid).totalNumIterations_ ≤
        self.totalNumIterations_ + settings.sqpIteration ∧
      ((∀ k, k < settings.sqpIteration →
          (sqpPass c settings initState grid (sqpPasses c settings initState grid k it0)).1 =
            false) →
        (runOnGrid c settings self initState grid).totalNumIterations_ =
          self.totalNumIterations_ + settings.sqpIteration) ∧
      (∀ j, j < settings.sqpIteration →
        (∀ i, i < j →
          (sqpPass c settings initState grid (sqpPasses c settings initState grid i it0)).1 =
            false) →
        (sqpPass c settings initState grid (sqpPasses c settings initState grid j it0)).1 =
          true →
        (runOnGrid c settings self initState grid).totalNumIterations_ =
          self.totalNumIterations_ + (j + 1))) ∧
    (0 < settings.dt → initTime < finalTime →
      ∃ grid,
        timeDiscretizationWithEvents initTime finalTime settings.dt eventTimes
          c.limitEpsilon = .ok grid ∧
        2 ≤ grid.length ∧
        runImpl c settings eventTimes self initTime initState finalTime =
          .ok (runOnGrid c settings self initState grid)) := by
  constructor
  · intro grid it0 hit0
    subst hit0
    refine ⟨?_, ?_, ?_⟩
    · exact sqpLoop_count_le c settings initState grid settings.sqpIteration _
    · intro hnc
      simp only [runOnGrid]
      rw [sqpLoop_of_not_converged c settings initState grid settings.sqpIteration _ hnc,
        sqpPasses_count]
    · intro j hj hi hc
      simp only [runOnGrid]
      rw [sqpLoop_of_first_converged c settings initState grid j settings.sqpIteration _ hj hi
        hc]
      simp only [sqpPass]
      rw [sqpPasses_count]
      dsimp only
      omega
  · intro hdt hT
    obtain ⟨grid, hgrid, -, hlen, hrun⟩ :=
      runImpl_eq_runOnGrid c settings eventTimes self initTime initState finalTime hdt hT
    exact ⟨grid, hgrid, hlen, hrun⟩

/-- A run that never converges under a positive tolerance: with corrections of norm one and
tolerance `1/10` no pass reports convergence, and a first solve with cap 3 raises the counter
from 0 to exactly 3. -/
theorem runImpl_iteration_cap_witness :
    (0 : ℚ) < exampleSettings.deltaTol ∧ exampleSettings.sqpIteration = 3 ∧
    ∃ self1, runImpl unitStepCollaborators exampleSettings [1/4] freshSolver 0 [1, 2] 1 =
        .ok self1 ∧ self1.totalNumIterations_ = 0 + 3 := by
  obtain ⟨hA, hB⟩ := runImpl_iteration_cap unitStepCollaborators exampleSettings [1/4]
    freshSolver 0 [1, 2] 1
  obtain ⟨grid, -, hlen, h1⟩ := hB (by norm_num [exampleSettings]) (by norm_num)
  refine ⟨by norm_num [exampleSettings], rfl, _, h1, (hA grid _ rfl).2.1 ?_⟩
  intro k _
  simp only [sqpPass]
  rw [takeStep_unfold, stepLoop_fst, stepLoop_fst]
  have hN : ((grid.length - 1 : Int) + 1).toNat = grid.length := by omega
  have hpos : (2 : ℚ) ≤ (grid.length : ℚ) := by exact_mod_cast hlen
  rw [decide_eq_false_iff_not]
  rintro ⟨-, h⟩
  simp only [hN, unitStepCollaborators, exampleSettings, one_mul, List.map_const',
    List.length_range, List.sum_replicate, nsmul_eq_mul, mul_one] at h
  linarith

/-! ## C8: convergence on a zero step -/

/-- The SQP loop stops after one pass when the corrections of that pass are zero vectors. -/
theorem sqpLoop_zero_step (c : Collaborators S) (settings : Settings S)
    (initState : vector_t S) (timeDiscretization : List ℚ) (K : Nat) (it : SqpIterate S)
    (hK : 1 ≤ K) (htol : 0 < settings.deltaTol) (hnorm : ∀ n, c.norm (vzero n) = 0)
    (hzero : c.ocp timeDiscretization it.x it.u (vsub initState (it.x.getD 0 [])) =
      (it.x.map (fun w => vzero w.length), it.u.map (fun w => vzero w.length))) :
    sqpLoop c settings initState timeDiscretization K it =
      { x := it.x, u := it.u, totalNumIterations_ := it.totalNumIterations_ + 1 } := by
  obtain ⟨k, rfl⟩ : ∃ k, K = k + 1 := ⟨K - 1, by omega⟩
  simp only [sqpLoop, hzero,
    takeStep_zero_step c.norm settings.deltaTol htol hnorm timeDiscretization it.x it.u,
    if_true]

/-- C8: on a solve with iteration cap at least 1 and positive tolerance `deltaTol`, if the QP
corrections `delta_x`, `delta_u` of the first iteration are all zero vectors (whose norm is
zero), then `takeStep` reports convergence and hands back the guesses unchanged, and the loop
of `runImpl` stops after exactly one iteration: the stored state trajectory is the initial
state guess, the stored inputs are the initial input guess (padded), and the iteration
counter has grown by one. -/
theorem runImpl_converges_on_zero_step (c : Collaborators S) (settings : Settings S)
    (eventTimes : List ℚ) (self : SolverState S) (initTime : ℚ) (initState : vector_t S)
    (finalTime : ℚ) (hdt : 0 < settings.dt) (hT : initTime < finalTime)
    (hK : 1 ≤ settings.sqpIteration) (htol : 0 < settings.deltaTol)
    (hnorm : ∀ n, c.norm (vzero n) = 0)
    (hzero : ∀ grid,
      timeDiscretizationWithEvents initTime finalTime settings.dt eventTimes c.limitEpsilon =
        .ok grid →
      c.ocp grid
        (initializeStateTrajectory c self initState grid ((grid.length : Int) - 1))
        (initializeInputTrajectory c settings self grid
          (initializeStateTrajectory c self initState grid ((grid.length : Int) - 1))
          ((grid.length : Int) - 1))
        (vsub initState
          ((initializeStateTrajectory c self initState grid
            ((grid.length : Int) - 1)).getD 0 [])) =
      ((initializeStateTrajectory c self initState grid ((grid.length : Int) - 1)).map
          (fun w => vzero w.length),
        (initializeInputTrajectory c settings self grid
          (initializeStateTrajectory c self initState grid ((grid.length : Int) - 1))
          ((grid.length : Int) - 1)).map (fun w => vzero w.length))) :
    ∃ grid x0 u0,
      timeDiscretizationWithEvents initTime finalTime settings.dt eventTimes c.limitEpsilon =
        .ok grid ∧
      x0 = initializeStateTrajectory c self initState grid ((grid.length : Int) - 1) ∧
      u0 = initializeInputTrajectory c settings self grid x0 ((grid.length : Int) - 1) ∧
      takeStep c.norm settings.deltaTol grid (c.ocp grid x0 u0 (vsub initState (x0.getD 0 []))).1
        (c.ocp grid x0 u0 (vsub initState (x0.getD 0 []))).2 x0 u0 = (true, x0, u0) ∧
      runImpl c settings eventTimes self initTime initState finalTime =
        .ok { primalSolution_ :=
                { timeTrajectory_ := grid
                  stateTrajectory_ := x0
                  inputTrajectory_ := u0 ++ [u0.getLastD []] }
              totalNumIterations_ := self.totalNumIterations_ + 1 } := by
  obtain ⟨grid, hok, -, -, hrun⟩ :=
    runImpl_eq_runOnGrid c settings eventTimes self initTime initState finalTime hdt hT
  refine ⟨grid, _, _, hok, rfl, rfl, ?_, ?_⟩
  · rw [hzero grid hok]
    exact takeStep_zero_step c.norm settings.deltaTol htol hnorm grid _ _
  · rw [hrun]
    simp only [runOnGrid]
    rw [sqpLoop_zero_step c settings initState grid settings.sqpIteration _ hK htol hnorm
      (hzero grid hok)]

/-- A first solve with collaborators whose corrections are zero vectors stops after one iteration. -/
theorem runImpl_converges_on_zero_step_witness :
    ∃ grid x0 u0,
      timeDiscretizationWithEvents 0 1 exampleSettings.dt [1/4]
        zeroStepCollaborators.limitEpsilon = .ok grid ∧
      x0 = initializeStateTrajectory zeroStepCollaborators freshSolver [1, 2] grid
        ((grid.length : Int) - 1) ∧
      u0 = initializeInputTrajectory zeroStepCollaborators exampleSettings freshSolver grid x0
        ((grid.length : Int) - 1) ∧
      takeStep zeroStepCollaborators.norm exampleSettings.deltaTol grid
        (zeroStepCollaborators.ocp grid x0 u0 (vsub [1, 2] (x0.getD 0 []))).1
        (zeroStepCollaborators.ocp grid x0 u0 (vsub [1, 2] (x0.getD 0 []))).2 x0 u0 =
          (true, x0, u0) ∧
      runImpl zeroStepCollaborators exampleSettings [1/4] freshSolver 0 [1, 2] 1 =
        .ok { primalSolution_ :=
                { timeTrajectory_ := grid
                  stateTrajectory_ := x0
                  inputTrajectory_ := u0 ++ [u0.getLastD []] }
              totalNumIterations_ := freshSolver.totalNumIterations_ + 1 } :=
  runImpl_converges_on_zero_step zeroStepCollaborators exampleSettings [1/4] freshSolver 0
    [1, 2] 1 (by norm_num [exampleSettings]) (by norm_num) (by decide)
    (by norm_num [exampleSettings])
    (by intro n; simp [zeroStepCollaborators, vzero])
    (fun _ _ => rfl)

/-! ## C10: output alignment -/

/-- C10: on every solve, with `N` the number of intervals of the grid, the solution stored by
`runImpl` has a time trajectory, a state trajectory and an input trajectory of `N + 1`
elements each, and the last element of the input trajectory equals the element before it. -/
theorem runImpl_output_alignment (c : Collaborators S) (settings : Settings S)
    (eventTimes : List ℚ) (self : SolverState S) (initTime : ℚ) (initState : vector_t S)
    (finalTime : ℚ) (hdt : 0 < settings.dt) (hT : initTime < finalTime) :
    ∃ self1 N, runImpl c settings eventTimes self initTime initState finalTime = .ok self1 ∧
      timeDiscretizationWithEvents initTime finalTime settings.dt eventTimes c.limitEpsilon =
        .ok self1.primalSolution_.timeTrajectory_ ∧
      1 ≤ N ∧
      self1.primalSolution_.timeTrajectory_.length = N + 1 ∧
      self1.primalSolution_.stateTrajectory_.length = N + 1 ∧
      self1.primalSolution_.inputTrajectory_.length = N + 1 ∧
      ∃ a, self1.primalSolution_.inputTrajectory_[N]? = some a ∧
        self1.primalSolution_.inputTrajectory_[N - 1]? = some a := by
  obtain ⟨grid, hok, -, hlen, hrun⟩ :=
    runImpl_eq_runOnGrid c settings eventTimes self initTime initState finalTime hdt hT
  have hN : (grid.length : Int) - 1 = ((grid.length - 1 : Nat) : Int) := by omega
  obtain ⟨hx, hu⟩ := sqpLoop_length c settings initState grid settings.sqpIteration
    { x := initializeStateTrajectory c self initState grid ((grid.length : Int) - 1)
      u := initializeInputTrajectory c settings self grid
        (initializeStateTrajectory c self initState grid ((grid.length : Int) - 1))
        ((grid.length : Int) - 1)
      totalNumIterations_ := self.totalNumIterations_ }
  simp only at hx hu
  rw [hN, initializeStateTrajectory_length] at hx
  rw [hN, initializeInputTrajectory_length] at hu
  rw [← hN] at hx hu
  refine ⟨_, grid.length - 1, hrun, hok, by omega, ?_, ?_, ?_, ?_⟩
  · simp only [runOnGrid]; omega
  · simp only [runOnGrid]; exact hx
  · simp only [runOnGrid, List.length_append, List.length_singleton, hu]
  · simp only [runOnGrid]
    generalize (sqpLoop c settings initState grid settings.sqpIteration _).u = u at hu ⊢
    have h1 : u.length - 1 < u.length := by omega
    refine ⟨u.getLastD [], ?_, ?_⟩
    · rw [← hu, List.getElem?_concat_length]
    · rw [← hu, List.getElem?_append_left h1, List.getLastD_eq_getLast?,
        List.getLast?_eq_getElem?, List.getElem?_eq_getElem h1]
      rfl

/-- Output alignment for a first solve on `[0, 1]` with `dt = 1/2`. -/
theorem runImpl_output_alignment_witness :
    ∃ self1 N,
      runImpl unitStepCollaborators exampleSettings [1/4] freshSolver 0 [1, 2] 1 = .ok self1 ∧
      timeDiscretizationWithEvents 0 1 exampleSettings.dt [1/4]
        unitStepCollaborators.limitEpsilon = .ok self1.primalSolution_.timeTrajectory_ ∧
      1 ≤ N ∧
      self1.primalSolution_.timeTrajectory_.length = N + 1 ∧
      self1.primalSolution_.stateTrajectory_.length = N + 1 ∧
      self1.primalSolution_.inputTrajectory_.length = N + 1 ∧
      ∃ a, self1.primalSolution_.inputTrajectory_[N]? = some a ∧
        self1.primalSolution_.inputTrajectory_[N - 1]? = some a :=
  runImpl_output_alignment unitStepCollaborators exampleSettings [1/4] freshSolver 0 [1, 2] 1
    (by norm_num [exampleSettings]) (by norm_num)

end Sqp

/-! ## Further lemmas on the grid -/

theorem back_eq_of_getLast? (l : List ℚ) (a : ℚ) (h : l.getLast? = some a) : back l = a := by
  rw [back, List.getLastD_eq_getLast?, h]
  rfl

theorem getLast?_eq_back (l : List ℚ) (hl : l ≠ []) : l.getLast? = some (back l) := by
  cases h : l.getLast? with
  | none => exact absurd (List.getLast?_eq_none_iff.mp h) hl
  | some a => rw [back_eq_of_getLast? l a h]

theorem getElem?_pred_length_eq_back (l : List ℚ) (hl : l ≠ []) :
    l[l.length - 1]? = some (back l) := by
  rw [← List.getLast?_eq_getElem?, getLast?_eq_back l hl]

theorem mem_dropLast_or_back (l : List ℚ) (hl : l ≠ []) (a : ℚ) (ha : a ∈ l) :
    a ∈ l.dropLast ∨ a = back l := by
  have h1 := List.dropLast_append_getLast hl
  have h2 : back l = l.getLast hl := by
    apply back_eq_of_getLast?
    exact List.getLast?_eq_getLast l hl
  rw [← h1] at ha
  rcases List.mem_append.mp ha with h | h
  · exact Or.inl h
  · rw [List.mem_singleton] at h
    exact Or.inr (h.trans h2.symm)

/-- Appending to a non-empty chain: only the last element has to be related to the new one. -/
theorem chain'_concat (R : ℚ → ℚ → Prop) (l : List ℚ) (hl : l ≠ []) (b : ℚ)
    (hc : l.Chain' R) (hb : R (back l) b) : (l ++ [b]).Chain' R := by
  refine List.chain'_append.mpr ⟨hc, List.chain'_singleton b, ?_⟩
  intro x hx y hy
  rw [Option.mem_def, getLast?_eq_back l hl] at hx
  rw [Option.mem_def, List.head?_cons] at hy
  cases hx
  cases hy
  exact hb

/-! ## C18: warm start of the input trajectory -/

section WarmStart

variable {S : Type} [LinearOrderedField S]

theorem getD_mem_of_lt (l : List ℚ) (i : Nat) (hi : i < l.length) : l.getD i 0 ∈ l := by
  rw [List.getD_eq_getElem l 0 hi]
  exact List.getElem_mem hi

/-- C18: for every grid of `N` intervals (whose first point is its earliest, as in every
increasing grid) `initializeInputTrajectory` hands back `N` input guesses, and for each node
`i < N`: if a previous solution exists
(`totalNumIterations_ > 0`) and `t_i` is strictly before the final time of the previous
solution, the guess is the interpolation of the previous input trajectory at `t_i`; otherwise
it is the first input handed back by the operating-trajectory provider for `[t_i, t_{i+1}]`
when one is registered, else the zero vector of dimension `n_input`. On the first solve
without a provider every guess is that zero vector. -/
theorem initializeInputTrajectory_spec (c : Collaborators S) (settings : Settings S)
    (self : SolverState S) (timeDiscretization : List ℚ) (stateTrajectory : List (vector_t S))
    (N : Nat) (hN : timeDiscretization.length = N + 1)
    (hs : ∀ t ∈ timeDiscretization, timeDiscretization.headD 0 ≤ t) :
    (initializeInputTrajectory c settings self timeDiscretization stateTrajectory
      (N : Int)).length = N ∧
    (∀ i, i < N →
      (initializeInputTrajectory c settings self timeDiscretization stateTrajectory
          (N : Int))[i]? =
        some
          (if 0 < self.totalNumIterations_ ∧
              timeDiscretization.getD i 0 < back self.primalSolution_.timeTrajectory_ then
            c.interpolate (timeDiscretization.getD i 0) self.primalSolution_.timeTrajectory_
              self.primalSolution_.inputTrajectory_
          else
            match c.operatingTrajectories with
            | some provider =>
              (provider (stateTrajectory.getD i []) (timeDiscretization.getD i 0)
                (timeDiscretization.getD (i + 1) 0)).headD []
            | none => vzero settings.n_input)) ∧
    (self.totalNumIterations_ = 0 → c.operatingTrajectories = none →
      initializeInputTrajectory c settings self timeDiscretization stateTrajectory (N : Int) =
        List.replicate N (vzero settings.n_input)) := by
  have hfirst : ∀ i, i < N → ¬ timeDiscretization.getD i 0 < timeDiscretization.headD 0 :=
    fun i hi => not_lt.mpr (hs _ (getD_mem_of_lt _ i (by omega)))
  have hentry : ∀ i, i < N →
      (initializeInputTrajectory c settings self timeDiscretization stateTrajectory
          (N : Int))[i]? =
        some
          (if 0 < self.totalNumIterations_ ∧
              timeDiscretization.getD i 0 < back self.primalSolution_.timeTrajectory_ then
            c.interpolate (timeDiscretization.getD i 0) self.primalSolution_.timeTrajectory_
              self.primalSolution_.inputTrajectory_
          else
            match c.operatingTrajectories with
            | some provider =>
              (provider (stateTrajectory.getD i []) (timeDiscretization.getD i 0)
                (timeDiscretization.getD (i + 1) 0)).headD []
            | none => vzero settings.n_input) := by
    intro i hi
    simp only [initializeInputTrajectory, Int.toNat_ofNat, List.getElem?_map,
      List.getElem?_range hi, Option.map_some', gt_iff_lt]
    by_cases ht : 0 < self.totalNumIterations_
    · simp only [ht, if_true, true_and]
    · simp only [ht, if_false, false_and, if_neg (hfirst i hi)]
  refine ⟨by simp [initializeInputTrajectory], hentry, ?_⟩
  intro h0 hnone
  apply List.ext_getElem?
  intro i
  by_cases hi : i < N
  · rw [hentry i hi, List.getElem?_replicate, if_pos hi, hnone]
    simp [h0]
  · rw [List.getElem?_eq_none (by simp [initializeInputTrajectory]; omega),
      List.getElem?_eq_none (by simp; omega)]

/-- Input guesses of a first solve without provider on the grid `0, 1/2, 1`. -/
theorem initializeInputTrajectory_spec_witness :
    initializeInputTrajectory zeroStepCollaborators exampleSettings freshSolver [0, 1/2, 1]
        [[1, 2], [1, 2], [1, 2]] ((2 : Nat) : Int) =
      List.replicate 2 (vzero exampleSettings.n_input) :=
  (initializeInputTrajectory_spec zeroStepCollaborators exampleSettings freshSolver
    [0, 1/2, 1] [[1, 2], [1, 2], [1, 2]] 2 rfl (by simp)).2.2 rfl rfl

end WarmStart

/-! ## C19: the horizon is at least one interval -/

section Horizon

variable {S : Type} [LinearOrderedField S]

/-- C19: for `initTime < finalTime` and `dt > 0` the grid handed back by
`timeDiscretizationWithEvents` has at least two elements, so the horizon `N = size - 1` is at
least 1, the input guess built by `runImpl` is non-empty, and the last element taken when the
input trajectory is padded exists. -/
theorem runImpl_horizon_positive (c : Collaborators S) (settings : Settings S)
    (eventTimes : List ℚ) (self : SolverState S) (initTime : ℚ) (initState : vector_t S)
    (finalTime : ℚ) (hdt : 0 < settings.dt) (hT : initTime < finalTime) :
    ∃ grid x0 u0 last,
      timeDiscretizationWithEvents initTime finalTime settings.dt eventTimes c.limitEpsilon =
        .ok grid ∧
      2 ≤ grid.length ∧ 1 ≤ (grid.length : Int) - 1 ∧
      x0 = initializeStateTrajectory c self initState grid ((grid.length : Int) - 1) ∧
      u0 = initializeInputTrajectory c settings self grid x0 ((grid.length : Int) - 1) ∧
      u0 ≠ [] ∧
      (sqpLoop c settings initState grid settings.sqpIteration
        { x := x0, u := u0, totalNumIterations_ := self.totalNumIterations_ }).u.getLast? =
          some last ∧
      (runOnGrid c settings self initState grid).primalSolution_.inputTrajectory_ =
        (sqpLoop c settings initState grid settings.sqpIteration
          { x := x0, u := u0, totalNumIterations_ := self.totalNumIterations_ }).u ++ [last] ∧
      runImpl c settings eventTimes self initTime initState finalTime =
        .ok (runOnGrid c settings self initState grid) := by
  obtain ⟨grid, hok, -, hlen, hrun⟩ :=
    runImpl_eq_runOnGrid c settings eventTimes self initTime initState finalTime hdt hT
  have hN : (grid.length : Int) - 1 = ((grid.length - 1 : Nat) : Int) := by omega
  have hu0 : (initializeInputTrajectory c settings self grid
      (initializeStateTrajectory c self initState grid ((grid.length : Int) - 1))
      ((grid.length : Int) - 1)).length = grid.length - 1 := by
    rw [hN, initializeInputTrajectory_length]
  have hu := (sqpLoop_length c settings initState grid settings.sqpIteration
    { x := initializeStateTrajectory c self initState grid ((grid.length : Int) - 1)
      u := initializeInputTrajectory c settings self grid
        (initializeStateTrajectory c self initState grid ((grid.length : Int) - 1))
        ((grid.length : Int) - 1)
      totalNumIterations_ := self.totalNumIterations_ }).2
  simp only at hu
  rw [hu0] at hu
  have hne : (sqpLoop c settings initState grid settings.sqpIteration
    { x := initializeStateTrajectory c self initState grid ((grid.length : Int) - 1)
      u := initializeInputTrajectory c settings self grid
        (initializeStateTrajectory c self initState grid ((grid.length : Int) - 1))
        ((grid.length : Int) - 1)
      totalNumIterations_ := self.totalNumIterations_ }).u ≠ [] := by
    intro h
    rw [h] at hu
    simp at hu
    omega
  refine ⟨grid, _, _, _, hok, hlen, by omega, rfl, rfl, ?_, List.getLast?_eq_getLast _ hne,
    ?_, hrun⟩
  · intro h
    rw [h] at hu0
    simp at hu0
    omega
  · simp only [runOnGrid]
    rw [List.getLastD_eq_getLast?, List.getLast?_eq_getLast _ hne]
    rfl

/-- A first solve on `[0, 1]` with `dt = 1/2` has a horizon of at least one interval. -/
theorem runImpl_horizon_positive_witness :
    ∃ grid x0 u0 last,
      timeDiscretizationWithEvents 0 1 exampleSettings.dt [1/4]
        unitStepCollaborators.limitEpsilon = .ok grid ∧
      2 ≤ grid.length ∧ 1 ≤ (grid.length : Int) - 1 ∧
      x0 = initializeStateTrajectory unitStepCollaborators freshSolver [1, 2] grid
        ((grid.length : Int) - 1) ∧
      u0 = initializeInputTrajectory unitStepCollaborators exampleSettings freshSolver grid x0
        ((grid.length : Int) - 1) ∧
      u0 ≠ [] ∧
      (sqpLoop unitStepCollaborators exampleSettings [1, 2] grid exampleSettings.sqpIteration
        { x := x0, u := u0, totalNumIterations_ := freshSolver.totalNumIterations_ }).u.getLast? =
          some last ∧
      (runOnGrid unitStepCollaborators exampleSettings freshSolver [1, 2]
          grid).primalSolution_.inputTrajectory_ =
        (sqpLoop unitStepCollaborators exampleSettings [1, 2] grid exampleSettings.sqpIteration
          { x := x0, u := u0,
            totalNumIterations_ := freshSolver.totalNumIterations_ }).u ++ [last] ∧
      runImpl unitStepCollaborators exampleSettings [1/4] freshSolver 0 [1, 2] 1 =
        .ok (runOnGrid unitStepCollaborators exampleSettings freshSolver [1, 2] grid) :=
  runImpl_horizon_positive unitStepCollaborators exampleSettings [1/4] freshSolver 0 [1, 2] 1
    (by norm_num [exampleSettings]) (by norm_num)

end Horizon

/-! ## C13: empty partial controllers in `PolicyData::fill` -/

section Policy

variable {X U Ctrl : Type}

theorem fillControllerStep_empty (ops : ControllerOps U Ctrl) (m : Option Ctrl) (e : Ctrl)
    (he : ops.empty e = true) : fillControllerStep ops m e = m := by
  simp [fillControllerStep, he]

/-- The controller loop only sees the non-empty controllers. -/
theorem foldl_fillControllerStep_filter (ops : ControllerOps U Ctrl) (cs : List Ctrl) :
    ∀ m : Option Ctrl, cs.foldl (fillControllerStep ops) m =
      (cs.filter (fun c => !ops.empty c)).foldl (fillControllerStep ops) m := by
  induction cs with
  | nil => intro m; rfl
  | cons c t ih =>
    intro m
    by_cases hc : ops.empty c = true
    · rw [List.foldl_cons, fillControllerStep_empty ops m c hc, ih,
        List.filter_cons_of_neg (by simp [hc])]
    · rw [List.filter_cons_of_pos (by simpa using hc), List.foldl_cons, List.foldl_cons, ih]

/-- Started from a non-null controller, the loop over non-empty controllers concatenates. -/
theorem foldl_fillControllerStep_some (ops : ControllerOps U Ctrl) (cs : List Ctrl)
    (hcs : ∀ c ∈ cs, ops.empty c = false) :
    ∀ m : Ctrl, cs.foldl (fillControllerStep ops) (some m) =
      some (cs.foldl ops.concatenate m) := by
  induction cs with
  | nil => intro m; rfl
  | cons c t ih =>
    intro m
    have hc : ops.empty c = false := hcs c (List.mem_cons_self c t)
    rw [List.foldl_cons, List.foldl_cons]
    simp only [fillControllerStep, hc, Bool.false_eq_true, if_false]
    exact ih (fun d hd => hcs d (List.mem_cons_of_mem c hd)) _

/-- C13 (counterexample): for the empty controller list `fill` builds the feedforward
controller of the merged trajectories, but after adding one empty partial controller to that
list it leaves `mpcController_` null. -/
theorem PolicyData.fill_empty_controller_changes_result :
    sampleControllerOps.empty [] = true ∧
    (PolicyData.fill sampleControllerOps emptyPolicyData [[0, 1]] [[[1], [2]]] [[[3], [4]]]
        [] [0] []).mpcController_ = some [(0, [3]), (1, [4])] ∧
    (PolicyData.fill sampleControllerOps emptyPolicyData [[0, 1]] [[[1], [2]]] [[[3], [4]]]
        [] [0] [[]]).mpcController_ = none := by
  refine ⟨rfl, ?_, ?_⟩
  · simp [PolicyData.fill, sampleControllerOps, List.range_succ]
  · simp [PolicyData.fill, sampleControllerOps, fillControllerStep]

/-- C13 (amended): for every non-empty list of partial controllers passed to
`PolicyData::fill`, adding an empty partial controller at any position leaves the resulting
`mpcController_` the same: empty partitions are skipped, and the result is the first
non-empty controller concatenated, in list order, with the remaining non-empty controllers
(null when every controller of the list is empty). -/
theorem PolicyData.fill_controller_skips_empty (ops : ControllerOps U Ctrl)
    (self : PolicyData X U Ctrl) (timeTrajectories : List (List ℚ))
    (stateTrajectories : List (List X)) (inputTrajectories : List (List U))
    (eventTimes : List ℚ) (subsystemsSequence : List Nat) (before after : List Ctrl)
    (e : Ctrl) (hne : before ++ after ≠ []) (he : ops.empty e = true) :
    (PolicyData.fill ops self timeTrajectories stateTrajectories inputTrajectories eventTimes
        subsystemsSequence (before ++ e :: after)).mpcController_ =
      (PolicyData.fill ops self timeTrajectories stateTrajectories inputTrajectories
        eventTimes subsystemsSequence (before ++ after)).mpcController_ ∧
    (PolicyData.fill ops self timeTrajectories stateTrajectories inputTrajectories eventTimes
        subsystemsSequence (before ++ after)).mpcController_ =
      match (before ++ after).filter (fun c => !ops.empty c) with
      | [] => none
      | c :: rest => some (rest.foldl ops.concatenate c) := by
  have h1 : (before ++ e :: after).isEmpty = false := by
    cases before <;> rfl
  have h2 : (before ++ after).isEmpty = false := by
    cases h : before ++ after with
    | nil => exact absurd h hne
    | cons a t => rfl
  constructor
  · simp only [PolicyData.fill, h1, h2, Bool.not_false, if_true]
    rw [List.foldl_append, List.foldl_cons, fillControllerStep_empty ops _ e he,
      ← List.foldl_append]
  · simp only [PolicyData.fill, h2, Bool.not_false, if_true]
    rw [foldl_fillControllerStep_filter]
    have hall : ∀ c ∈ (before ++ after).filter (fun c => !ops.empty c),
        ops.empty c = false := by
      intro c hc
      have := (List.mem_filter.mp hc).2
      simpa using this
    cases hf : (before ++ after).filter (fun c => !ops.empty c) with
    | nil => rfl
    | cons c rest =>
      rw [hf] at hall
      have hc : ops.empty c = false := hall c (List.mem_cons_self c rest)
      rw [List.foldl_cons]
      simp only [fillControllerStep, hc, Bool.false_eq_true, if_false]
      exact foldl_fillControllerStep_some ops rest
        (fun d hd => hall d (List.mem_cons_of_mem c hd)) c

/-- An empty controller between two non-empty ones is skipped. -/
theorem PolicyData.fill_controller_skips_empty_witness :
    (PolicyData.fill sampleControllerOps emptyPolicyData [] [] [] [] []
        ([[(0, [1])]] ++ [] :: [[(1, [2])]])).mpcController_ =
      (PolicyData.fill sampleControllerOps emptyPolicyData [] [] [] [] []
        ([[(0, [1])]] ++ [[(1, [2])]])).mpcController_ :=
  (PolicyData.fill_controller_skips_empty sampleControllerOps emptyPolicyData [] [] [] [] []
    [[(0, [1])]] [[(1, [2])]] [] (by simp) rfl).1

end Policy

/-! ## Lemmas on the interval loop of the LQ builder -/

section LqLoop

variable {S : Type}

theorem getElem?_set_map {α : Type} (l : List α) (i j : Nat) (a : α) :
    (l.set i a)[j]? = if j = i then l[j]?.map (fun _ => a) else l[j]? := by
  rw [List.getElem?_set]
  by_cases h : i = j
  · subst h
    rw [if_pos rfl, if_pos rfl]
    by_cases hi : i < l.length
    · rw [if_pos hi, List.getElem?_eq_getElem hi]; rfl
    · rw [if_neg hi, List.getElem?_eq_none (not_lt.mp hi)]; rfl
  · rw [if_neg h, if_neg (fun h1 => h h1.symm)]

theorem resize_length {α : Type} (v : List α) (n : Nat) (dflt : α) :
    (resize v n dflt).length = n := by
  simp only [resize, List.length_take, List.length_append, List.length_replicate]
  omega

theorem writeInterval_dynamics (i : Nat) (d : IntervalData S) (p : LqProblem S) :
    (writeInterval i d p).dynamics_ = p.dynamics_.set i d.dynamics := rfl

theorem writeInterval_cost (i : Nat) (d : IntervalData S) (p : LqProblem S) :
    (writeInterval i d p).cost_ = p.cost_.set i d.cost := rfl

theorem writeInterval_constraints (i : Nat) (d : IntervalData S) (p : LqProblem S) :
    (writeInterval i d p).constraints_ =
      match d.constraints with
      | some c => p.constraints_.set i c
      | none => p.constraints_ := rfl

theorem writeInterval_nx (i : Nat) (d : IntervalData S) (p : LqProblem S) :
    (writeInterval i d p).ocpSize.nx = p.ocpSize.nx := rfl

theorem writeInterval_nu (i : Nat) (d : IntervalData S) (p : LqProblem S) :
    (writeInterval i d p).ocpSize.nu =
      match d.nu with
      | some n => p.ocpSize.nu.set i n
      | none => p.ocpSize.nu := rfl

theorem writeInterval_ng (i : Nat) (d : IntervalData S) (p : LqProblem S) :
    (writeInterval i d p).ocpSize.ng =
      match d.ng with
      | some n => p.ocpSize.ng.set i n
      | none => p.ocpSize.ng := rfl

theorem interval_loop_succ (D : Nat → IntervalData S) (p0 : LqProblem S) (n : Nat) :
    (List.range (n + 1)).foldl (fun p i => writeInterval i (D i) p) p0 =
      writeInterval n (D n) ((List.range n).foldl (fun p i => writeInterval i (D i) p) p0) := by
  rw [List.range_succ, List.foldl_append, List.foldl_cons, List.foldl_nil]

/-- After `n` passes entry `j < n` of `dynamics_` holds the dynamics of interval `j`. -/
theorem interval_loop_dynamics (D : Nat → IntervalData S) (p0 : LqProblem S) (n j : Nat) :
    ((List.range n).foldl (fun p i => writeInterval i (D i) p) p0).dynamics_[j]? =
      if j < n then p0.dynamics_[j]?.map (fun _ => (D j).dynamics) else p0.dynamics_[j]? := by
  induction n with
  | zero => simp
  | succ n ih =>
    rw [interval_loop_succ, writeInterval_dynamics, getElem?_set_map, ih]
    by_cases h : j = n
    · subst h; simp
    · rw [if_neg h]
      by_cases h1 : j < n
      · rw [if_pos h1, if_pos (by omega)]
      · rw [if_neg h1, if_neg (by omega)]

/-- After `n` passes entry `j < n` of `cost_` holds the cost of interval `j`. -/
theorem interval_loop_cost (D : Nat → IntervalData S) (p0 : LqProblem S) (n j : Nat) :
    ((List.range n).foldl (fun p i => writeInterval i (D i) p) p0).cost_[j]? =
      if j < n then p0.cost_[j]?.map (fun _ => (D j).cost) else p0.cost_[j]? := by
  induction n with
  | zero => simp
  | succ n ih =>
    rw [interval_loop_succ, writeInterval_cost, getElem?_set_map, ih]
    by_cases h : j = n
    · subst h; simp
    · rw [if_neg h]
      by_cases h1 : j < n
      · rw [if_pos h1, if_pos (by omega)]
      · rw [if_neg h1, if_neg (by omega)]

/-- After `n` passes entry `j < n` of `constraints_` holds what interval `j` stored there, if
it stored anything. -/
theorem interval_loop_constraints (D : Nat → IntervalData S) (p0 : LqProblem S) (n j : Nat) :
    ((List.range n).foldl (fun p i => writeInterval i (D i) p) p0).constraints_[j]? =
      if j < n then p0.constraints_[j]?.map (fun old => (D j).constraints.getD old)
      else p0.constraints_[j]? := by
  induction n with
  | zero => simp
  | succ n ih =>
    rw [interval_loop_succ, writeInterval_constraints]
    by_cases h : j = n
    · subst h
      cases hc : (D j).constraints with
      | none =>
        simp only
        rw [ih, if_neg (Nat.lt_irrefl j), if_pos (Nat.lt_succ_self j)]
        cases p0.constraints_[j]? <;> rfl
      | some c =>
        simp only
        rw [getElem?_set_map, if_pos rfl, ih, if_neg (Nat.lt_irrefl j),
          if_pos (Nat.lt_succ_self j)]
        cases p0.constraints_[j]? <;> rfl
    · have hstep : (match (D n).constraints with
          | some c => ((List.range n).foldl (fun p i => writeInterval i (D i) p)
              p0).constraints_.set n c
          | none => ((List.range n).foldl (fun p i => writeInterval i (D i) p)
              p0).constraints_)[j]? =
          ((List.range n).foldl (fun p i => writeInterval i (D i) p) p0).constraints_[j]? := by
        cases (D n).constraints with
        | none => rfl
        | some c => simp only; rw [getElem?_set_map, if_neg h]
      rw [hstep, ih]
      by_cases h1 : j < n
      · rw [if_pos h1, if_pos (by omega)]
      · rw [if_neg h1, if_neg (by omega)]

/-- After `n` passes the sizing holds, for `j < n`, what interval `j` wrote; the state
dimensions are never written. -/
theorem interval_loop_ocpSize (D : Nat → IntervalData S) (p0 : LqProblem S) (n j : Nat) :
    ((List.range n).foldl (fun p i => writeInterval i (D i) p) p0).ocpSize.nx =
      p0.ocpSize.nx ∧
    ((List.range n).foldl (fun p i => writeInterval i (D i) p) p0).ocpSize.nu[j]? =
      (if j < n then p0.ocpSize.nu[j]?.map (fun old => (D j).nu.getD old)
      else p0.ocpSize.nu[j]?) ∧
    ((List.range n).foldl (fun p i => writeInterval i (D i) p) p0).ocpSize.ng[j]? =
      (if j < n then p0.ocpSize.ng[j]?.map (fun old => (D j).ng.getD old)
      else p0.ocpSize.ng[j]?) := by
  induction n with
  | zero => simp
  | succ n ih =>
    obtain ⟨ih1, ih2, ih3⟩ := ih
    rw [interval_loop_succ, writeInterval_nx, writeInterval_nu, writeInterval_ng]
    refine ⟨ih1, ?_, ?_⟩
    · by_cases h : j = n
      · subst h
        rw [if_pos (Nat.lt_succ_self j)]
        rw [if_neg (Nat.lt_irrefl j)] at ih2
        cases hc : (D j).nu with
        | none =>
          simp only
          rw [ih2]
          cases p0.ocpSize.nu[j]? <;> rfl
        | some c =>
          simp only
          rw [getElem?_set_map, if_pos rfl, ih2]
          cases p0.ocpSize.nu[j]? <;> rfl
      · have hstep : (match (D n).nu with
            | some c => ((List.range n).foldl (fun p i => writeInterval i (D i) p)
                p0).ocpSize.nu.set n c
            | none => ((List.range n).foldl (fun p i => writeInterval i (D i) p)
                p0).ocpSize.nu)[j]? =
            ((List.range n).foldl (fun p i => writeInterval i (D i) p) p0).ocpSize.nu[j]? := by
          cases (D n).nu with
          | none => rfl
          | some c => simp only; rw [getElem?_set_map, if_neg h]
        rw [hstep, ih2]
        by_cases h1 : j < n
        · rw [if_pos h1, if_pos (by omega)]
        · rw [if_neg h1, if_neg (by omega)]
    · by_cases h : j = n
      · subst h
        rw [if_pos (Nat.lt_succ_self j)]
        rw [if_neg (Nat.lt_irrefl j)] at ih3
        cases hc : (D j).ng with
        | none =>
          simp only
          rw [ih3]
          cases p0.ocpSize.ng[j]? <;> rfl
        | some c =>
          simp only
          rw [getElem?_set_map, if_pos rfl, ih3]
          cases p0.ocpSize.ng[j]? <;> rfl
      · have hstep : (match (D n).ng with
            | some c => ((List.range n).foldl (fun p i => writeInterval i (D i) p)
                p0).ocpSize.ng.set n c
            | none => ((List.range n).foldl (fun p i => writeInterval i (D i) p)
                p0).ocpSize.ng)[j]? =
            ((List.range n).foldl (fun p i => writeInterval i (D i) p) p0).ocpSize.ng[j]? := by
          cases (D n).ng with
          | none => rfl
          | some c => simp only; rw [getElem?_set_map, if_neg h]
        rw [hstep, ih3]
        by_cases h1 : j < n
        · rw [if_pos h1, if_pos (by omega)]
        · rw [if_neg h1, if_neg (by omega)]

end LqLoop

/-! ## Lemmas on the LQ builder -/

section LqBuilder

variable {S : Type} [LinearOrderedField S]

/-- Entry `k` of the arrays built by `setupCostDynamicsEqualityConstraint` on a grid of `N`
intervals, for `k < N`: the cost and the sizing of interval `k`. -/
theorem setupCostDynamicsEqualityConstraint_entry (lqc : LqCollaborators S)
    (settings : Settings S) (penaltyPtr_ : Option (S × S)) (self : LqProblem S)
    (time : List ℚ) (x u : List (vector_t S)) (N k : Nat) (hN : time.length = N + 1)
    (hk : k < N) :
    (setupCostDynamicsEqualityConstraint lqc settings penaltyPtr_ self time x u).cost_[k]? =
      some (setupIntervalData lqc settings penaltyPtr_ time x u k).cost ∧
    (setupCostDynamicsEqualityConstraint lqc settings penaltyPtr_ self time x u).ocpSize.nx[k]? =
      some (settings.n_state : Int) ∧
    (setupCostDynamicsEqualityConstraint lqc settings penaltyPtr_ self time x u).ocpSize.nu[k]? =
      some ((setupIntervalData lqc settings penaltyPtr_ time x u k).nu.getD
        (settings.n_input : Int)) ∧
    (setupCostDynamicsEqualityConstraint lqc settings penaltyPtr_ self time x u).ocpSize.ng[k]? =
      some ((setupIntervalData lqc settings penaltyPtr_ time x u k).ng.getD 0) := by
  have h1 : ((time.length : Int) - 1).toNat = N := by omega
  have h2 : ((time.length : Int) - 1 + 1).toNat = N + 1 := by omega
  simp only [setupCostDynamicsEqualityConstraint, h1, h2]
  obtain ⟨hnx, hnu, hng⟩ := interval_loop_ocpSize
    (fun i => setupIntervalData lqc settings penaltyPtr_ time x u i)
    { dynamics_ := resize self.dynamics_ N default
      cost_ := resize self.cost_ (N + 1) (ScalarFunctionQuadraticApproximation.Zero 0 0)
      constraints_ := resize self.constraints_ (N + 1) default
      ocpSize := OcpSize.init ((time.length : Int) - 1) settings.n_state settings.n_input } N k
  have hcost := interval_loop_cost
    (fun i => setupIntervalData lqc settings penaltyPtr_ time x u i)
    { dynamics_ := resize self.dynamics_ N default
      cost_ := resize self.cost_ (N + 1) (ScalarFunctionQuadraticApproximation.Zero 0 0)
      constraints_ := resize self.constraints_ (N + 1) default
      ocpSize := OcpSize.init ((time.length : Int) - 1) settings.n_state settings.n_input } N k
  rw [if_pos hk] at hnu hng hcost
  simp only at hnx hnu hng hcost
  refine ⟨?_, ?_, ?_, ?_⟩
  · rw [getElem?_set_map, if_neg (by omega), hcost,
      List.getElem?_eq_getElem (by rw [resize_length]; omega)]
    rfl
  · rw [hnx]
    simp only [OcpSize.init, h1]
    rw [List.getElem?_replicate, if_pos (by omega)]
  · rw [hnu]
    simp only [OcpSize.init, h1]
    rw [List.getElem?_append_left (by simp; exact hk), List.getElem?_replicate, if_pos hk]
    rfl
  · rw [hng]
    simp only [OcpSize.init, h1]
    rw [List.getElem?_replicate, if_pos (by omega)]
    rfl

end LqBuilder

/-! ## C16: sizing of the LQ problem -/

section LqClaims

variable {S : Type} [LinearOrderedField S]

/-- C16: for every interval `k` of the LQ problem built by
`setupCostDynamicsEqualityConstraint` the state dimension of the sizing is `n_state`. With a
constraint collaborator whose equality constraint at `(t_k, x_k, u_k)` has `m_k` rows: with
projection enabled the input dimension is `n_input - m_k` with 0 general constraint rows,
with projection disabled it is `n_input` with `m_k` general constraint rows. Without a
constraint collaborator the input dimension is `n_input` with 0 rows. -/
theorem setupCostDynamicsEqualityConstraint_sizing (lqc : LqCollaborators S)
    (settings : Settings S) (penaltyPtr_ : Option (S × S)) (self : LqProblem S)
    (time : List ℚ) (x u : List (vector_t S)) (N k : Nat) (hN : time.length = N + 1)
    (hk : k < N) :
    (setupCostDynamicsEqualityConstraint lqc settings penaltyPtr_ self time x u).ocpSize.nx[k]? =
      some (settings.n_state : Int) ∧
    (lqc.constraintPtr_ = none →
      (setupCostDynamicsEqualityConstraint lqc settings penaltyPtr_ self time x
          u).ocpSize.nu[k]? = some (settings.n_input : Int) ∧
      (setupCostDynamicsEqualityConstraint lqc settings penaltyPtr_ self time x
          u).ocpSize.ng[k]? = some 0) ∧
    (∀ constraintPtr, lqc.constraintPtr_ = some constraintPtr →
      (settings.qr_decomp = true →
        (setupCostDynamicsEqualityConstraint lqc settings penaltyPtr_ self time x
            u).ocpSize.nu[k]? =
          some ((settings.n_input : Int) -
            ((constraintPtr.stateInputEqualityConstraintLinearApproximation (time.getD k 0)
              (x.getD k []) (u.getD k [])).f.length : Int)) ∧
        (setupCostDynamicsEqualityConstraint lqc settings penaltyPtr_ self time x
            u).ocpSize.ng[k]? = some 0) ∧
      (settings.qr_decomp = false →
        (setupCostDynamicsEqualityConstraint lqc settings penaltyPtr_ self time x
            u).ocpSize.nu[k]? = some (settings.n_input : Int) ∧
        (setupCostDynamicsEqualityConstraint lqc settings penaltyPtr_ self time x
            u).ocpSize.ng[k]? =
          some ((constraintPtr.stateInputEqualityConstraintLinearApproximation (time.getD k 0)
            (x.getD k []) (u.getD k [])).f.length : Int))) := by
  obtain ⟨-, hnx, hnu, hng⟩ := setupCostDynamicsEqualityConstraint_entry lqc settings
    penaltyPtr_ self time x u N k hN hk
  refine ⟨hnx, ?_, ?_⟩
  · intro hc
    rw [hnu, hng]
    simp [setupIntervalData, hc]
  · intro constraintPtr hc
    constructor
    · intro hqr
      rw [hnu, hng]
      simp [setupIntervalData, hc, hqr]
    · intro hqr
      rw [hnu, hng]
      simp [setupIntervalData, hc, hqr]

/-- Sizing of the problem with one state, two inputs and one projected constraint row: the
input dimension of interval 1 is `2 - 1`, with no general constraint rows. -/
theorem setupCostDynamicsEqualityConstraint_sizing_witness :
    (setupCostDynamicsEqualityConstraint projectedLqCollaborators projectedSettings none
        emptyLqProblem [0, 1/2, 1] [[1], [1], [1]] [[0, 0], [0, 0]]).ocpSize.nu[1]? =
      some (((2 : Nat) : Int) - ((1 : Nat) : Int)) ∧
    (setupCostDynamicsEqualityConstraint projectedLqCollaborators projectedSettings none
        emptyLqProblem [0, 1/2, 1] [[1], [1], [1]] [[0, 0], [0, 0]]).ocpSize.ng[1]? =
      some 0 :=
  ((setupCostDynamicsEqualityConstraint_sizing projectedLqCollaborators projectedSettings none
    emptyLqProblem [0, 1/2, 1] [[1], [1], [1]] [[0, 0], [0, 0]] 2 1 rfl (by decide)).2.2
      _ rfl).1 rfl

/-! ## C17: scaling of the stored cost -/

theorem vadd_length_of_eq (a b : vector_t S) (h : a.length = b.length) :
    (vadd a b).length = a.length := by
  simp [vadd, h]

theorem madd_row_lengths (A B : matrix_t S) (h : A.map List.length = B.map List.length) :
    (madd A B).map List.length = A.map List.length := by
  induction A generalizing B with
  | nil => simp [madd]
  | cons a A ih =>
    cases B with
    | nil => simp at h
    | cons b B =>
      simp only [List.map_cons, List.cons.injEq] at h
      simp only [madd, List.zipWith_cons_cons, List.map_cons, List.cons.injEq]
      exact ⟨vadd_length_of_eq a b h.1, ih B h.2⟩

/-- On operands of equal block sizes the block-wise sum cuts nothing off: the sum has the
block sizes of its operands. -/
theorem ScalarFunctionQuadraticApproximation.add_sizes
    (a b : ScalarFunctionQuadraticApproximation S) (h : a.sizes = b.sizes) :
    (a.add b).sizes = a.sizes := by
  simp only [ScalarFunctionQuadraticApproximation.sizes, Prod.mk.injEq] at h ⊢
  obtain ⟨h1, h2, h3, h4, h5⟩ := h
  exact ⟨vadd_length_of_eq _ _ h1, vadd_length_of_eq _ _ h2, madd_row_lengths _ _ h3,
    madd_row_lengths _ _ h4, madd_row_lengths _ _ h5⟩

/-- C17 (counterexample): one state, two inputs, the constraint `du_0 = 0` eliminated by
projection, no penalty configured, grid `0, 1/2`. The cost expansion has input gradient
`(1, 1)`, so `dt_0` times the cost expansion has `dfdu = (1/2, 1/2)`; the stored cost is
`dt_0` times the cost after the change of input variables and has `dfdu = (1/2)`. -/
theorem setupCostDynamicsEqualityConstraint_cost_projected :
    constructPenalty projectedSettings projectedLqCollaborators.constraintPtr_ = none ∧
    (scaleCost (projectedLqCollaborators.costQuadraticApproximation 0 [1] [0, 0])
        (((1/2 : ℚ) - 0 : ℚ) : ℚ)).dfdu = [1/2, 1/2] ∧
    ∃ stored,
      (setupCostDynamicsEqualityConstraint projectedLqCollaborators projectedSettings
        (constructPenalty projectedSettings projectedLqCollaborators.constraintPtr_)
        emptyLqProblem [0, 1/2] [[1], [1]] [[0, 0]]).cost_[0]? = some stored ∧
      stored.dfdu = [1/2] := by
  refine ⟨?_, ?_, ?_⟩
  · simp [constructPenalty, projectedSettings, projectedLqCollaborators]
  · norm_num [scaleCost, vscale, projectedLqCollaborators]
  · refine ⟨_, (setupCostDynamicsEqualityConstraint_entry projectedLqCollaborators
      projectedSettings _ emptyLqProblem [0, 1/2] [[1], [1]] [[0, 0]] 1 0 rfl (by decide)).1, ?_⟩
    norm_num [setupIntervalData, constructPenalty, projectedSettings, projectedLqCollaborators,
      substituteInputCost, scaleCost, vscale, matVec, transpose, numCols, dot, vadd,
      List.range_succ]

/-- With projection and penalty both enabled the sum of source line 269 is not well formed:
for `penalisedLqCollaborators` the cost after the change of input variables has one input,
the penalty expansion has two. -/
theorem changeOfInputVariables_penalty_sizes_differ :
    ∃ constraintPtr, penalisedLqCollaborators.constraintPtr_ = some constraintPtr ∧
      (constraintPtr.stateInputEqualityConstraintLinearApproximation 0 [1] [0, 0]).f.length =
        1 ∧
      (0 : ℚ) < penalisedSettings.inequalityConstraintMu ∧
      0 < (constraintPtr.inequalityConstraintQuadraticApproximation 0 [1] [0, 0]).f.length ∧
      (penalisedLqCollaborators.changeOfInputVariablesCost
          (penalisedLqCollaborators.costQuadraticApproximation 0 [1] [0, 0])
          (penalisedLqCollaborators.luConstraintProjection
            (constraintPtr.stateInputEqualityConstraintLinearApproximation 0 [1] [0, 0])).dfdu
          (penalisedLqCollaborators.luConstraintProjection
            (constraintPtr.stateInputEqualityConstraintLinearApproximation 0 [1] [0, 0])).dfdx
          (penalisedLqCollaborators.luConstraintProjection
            (constraintPtr.stateInputEqualityConstraintLinearApproximation 0 [1] [0,
              0])).f).sizes ≠
        (penalisedLqCollaborators.penaltyCostQuadraticApproximation
          penalisedSettings.inequalityConstraintMu penalisedSettings.inequalityConstraintDelta
          (constraintPtr.inequalityConstraintQuadraticApproximation 0 [1] [0, 0])).sizes := by
  refine ⟨_, rfl, rfl, by norm_num [penalisedSettings], by decide, ?_⟩
  simp [ScalarFunctionQuadraticApproximation.sizes, penalisedLqCollaborators,
    projectedLqCollaborators, substituteInputCost, matVec, transpose, numCols]

/-- C17 (amended): for every interval `k` with step `dt_k = t_{k+1} - t_k` the cost stored by
`setupCostDynamicsEqualityConstraint` is `dt_k` times, block by block, the cost model before
scaling. Without a constraint collaborator that model is the cost expansion at
`(t_k, x_k, u_k)`. With one, and no penalty active (the penalty weight is not positive or the
inequality constraint has no row), it is the cost expansion, rewritten by
`changeOfInputVariables` with the stored projection when projection is enabled. With a
penalty active and projection disabled it is the cost expansion plus the penalty expansion
at unit weight, the two having the same block sizes. Nothing is stated for projection and
penalty both active, where the penalty expansion, in the full input space, is added to a
cost in the reduced input space. -/
theorem setupCostDynamicsEqualityConstraint_cost (lqc : LqCollaborators S)
    (settings : Settings S) (self : LqProblem S) (time : List ℚ) (x u : List (vector_t S))
    (N k : Nat) (hN : time.length = N + 1) (hk : k < N) :
    (lqc.constraintPtr_ = none →
      (setupCostDynamicsEqualityConstraint lqc settings
          (constructPenalty settings lqc.constraintPtr_) self time x u).cost_[k]? =
        some (scaleCost (lqc.costQuadraticApproximation (time.getD k 0) (x.getD k [])
          (u.getD k [])) ((time.getD (k + 1) 0 - time.getD k 0 : ℚ) : S))) ∧
    (∀ constraintPtr, lqc.constraintPtr_ = some constraintPtr →
      ∀ expansion projection ineqConstraints penalty,
      expansion = lqc.costQuadraticApproximation (time.getD k 0) (x.getD k []) (u.getD k []) →
      projection = lqc.luConstraintProjection
        (constraintPtr.stateInputEqualityConstraintLinearApproximation (time.getD k 0)
          (x.getD k []) (u.getD k [])) →
      ineqConstraints = constraintPtr.inequalityConstraintQuadraticApproximation
        (time.getD k 0) (x.getD k []) (u.getD k []) →
      penalty = lqc.penaltyCostQuadraticApproximation settings.inequalityConstraintMu
        settings.inequalityConstraintDelta ineqConstraints →
      (¬ (0 < settings.inequalityConstraintMu ∧ 0 < ineqConstraints.f.length) →
        (setupCostDynamicsEqualityConstraint lqc settings
            (constructPenalty settings lqc.constraintPtr_) self time x u).cost_[k]? =
          some (scaleCost
            (if settings.qr_decomp = true then
              lqc.changeOfInputVariablesCost expansion projection.dfdu projection.dfdx
                projection.f
            else expansion)
            ((time.getD (k + 1) 0 - time.getD k 0 : ℚ) : S))) ∧
      (0 < settings.inequalityConstraintMu → 0 < ineqConstraints.f.length →
        settings.qr_decomp = false → expansion.sizes = penalty.sizes →
        (setupCostDynamicsEqualityConstraint lqc settings
            (constructPenalty settings lqc.constraintPtr_) self time x u).cost_[k]? =
          some (scaleCost (expansion.add penalty)
            ((time.getD (k + 1) 0 - time.getD k 0 : ℚ) : S)))) := by
  obtain ⟨hcost, -⟩ := setupCostDynamicsEqualityConstraint_entry lqc settings
    (constructPenalty settings lqc.constraintPtr_) self time x u N k hN hk
  constructor
  · intro hc
    rw [hcost]
    simp [setupIntervalData, hc]
  · intro constraintPtr hc expansion projection ineqConstraints penalty he hp hi hpen
    rw [hcost]
    subst he hp hi hpen
    constructor
    · intro hno
      by_cases hmu : 0 < settings.inequalityConstraintMu
      · have hrows : ¬ 0 < (constraintPtr.inequalityConstraintQuadraticApproximation
            (time.getD k 0) (x.getD k []) (u.getD k [])).f.length := fun h => hno ⟨hmu, h⟩
        simp only [List.getD_eq_getElem?_getD, List.length_pos, ne_eq, not_not] at hrows
        by_cases hqr : settings.qr_decomp = true
        · simp [setupIntervalData, hc, constructPenalty, hmu, hqr, hrows]
        · simp [setupIntervalData, hc, constructPenalty, hmu, hqr, hrows]
      · by_cases hqr : settings.qr_decomp = true
        · simp [setupIntervalData, hc, constructPenalty, hmu, hqr]
        · simp [setupIntervalData, hc, constructPenalty, hmu, hqr]
    · intro hmu hrows hqr _
      simp only [List.getD_eq_getElem?_getD] at hrows
      simp [setupIntervalData, hc, constructPenalty, hmu, hqr, hrows]

/-- The stored cost of interval 1 on the grid `0, 1/2, 1`, for the problem with one state and
two inputs: with projection and no penalty it is `dt_1` times the cost expansion after the
change of input variables; with a penalty of the sizes of the cost expansion and no
projection it is `dt_1` times the sum of the two, with input gradient
`((1, 1) + (2, 3)) / 2`. -/
theorem setupCostDynamicsEqualityConstraint_cost_witness :
    (∃ constraintPtr projection,
      projectedLqCollaborators.constraintPtr_ = some constraintPtr ∧
      projection = projectedLqCollaborators.luConstraintProjection
        (constraintPtr.stateInputEqualityConstraintLinearApproximation (1/2) [1] [0, 0]) ∧
      ¬ ((0 : ℚ) < projectedSettings.inequalityConstraintMu ∧
        0 < (constraintPtr.inequalityConstraintQuadraticApproximation (1/2) [1]
          [0, 0]).f.length) ∧
      (setupCostDynamicsEqualityConstraint projectedLqCollaborators projectedSettings
          (constructPenalty projectedSettings projectedLqCollaborators.constraintPtr_)
          emptyLqProblem [0, 1/2, 1] [[1], [1], [1]] [[0, 0], [0, 0]]).cost_[1]? =
        some (scaleCost
          (projectedLqCollaborators.changeOfInputVariablesCost
            (projectedLqCollaborators.costQuadraticApproximation (1/2) [1] [0, 0])
            projection.dfdu projection.dfdx projection.f)
          (((1 : ℚ) - 1/2 : ℚ) : ℚ))) ∧
    (∃ constraintPtr penalty stored,
      penalisedLqCollaborators.constraintPtr_ = some constraintPtr ∧
      penalty = penalisedLqCollaborators.penaltyCostQuadraticApproximation
        penalisedSettings.inequalityConstraintMu penalisedSettings.inequalityConstraintDelta
        (constraintPtr.inequalityConstraintQuadraticApproximation (1/2) [1] [0, 0]) ∧
      (0 : ℚ) < penalisedSettings.inequalityConstraintMu ∧
      0 < (constraintPtr.inequalityConstraintQuadraticApproximation (1/2) [1]
        [0, 0]).f.length ∧
      penalisedSettings.qr_decomp = false ∧
      (penalisedLqCollaborators.costQuadraticApproximation (1/2) [1] [0, 0]).sizes =
        penalty.sizes ∧
      (setupCostDynamicsEqualityConstraint penalisedLqCollaborators penalisedSettings
          (constructPenalty penalisedSettings penalisedLqCollaborators.constraintPtr_)
          emptyLqProblem [0, 1/2, 1] [[1], [1], [1]] [[0, 0], [0, 0]]).cost_[1]? =
        some stored ∧
      stored = scaleCost
        ((penalisedLqCollaborators.costQuadraticApproximation (1/2) [1] [0, 0]).add penalty)
        (((1 : ℚ) - 1/2 : ℚ) : ℚ) ∧
      stored.dfdu = [3/2, 2]) := by
  constructor
  · refine ⟨_, _, rfl, rfl, by norm_num [projectedSettings], ?_⟩
    have h := ((setupCostDynamicsEqualityConstraint_cost projectedLqCollaborators
      projectedSettings emptyLqProblem [0, 1/2, 1] [[1], [1], [1]] [[0, 0], [0, 0]] 2 1 rfl
      (by decide)).2 _ rfl _ _ _ _ rfl rfl rfl rfl).1 (by norm_num [projectedSettings])
    simpa [projectedSettings] using h
  · refine ⟨_, _, _, rfl, rfl, by norm_num [penalisedSettings], by decide, rfl, ?_, ?_, rfl,
      ?_⟩
    · simp [ScalarFunctionQuadraticApproximation.sizes, penalisedLqCollaborators,
        projectedLqCollaborators]
    · have h := ((setupCostDynamicsEqualityConstraint_cost penalisedLqCollaborators
        penalisedSettings emptyLqProblem [0, 1/2, 1] [[1], [1], [1]] [[0, 0], [0, 0]] 2 1 rfl
        (by decide)).2 _ rfl _ _ _ _ rfl rfl rfl rfl).2
        (by norm_num [penalisedSettings]) (by decide) rfl
        (by simp [ScalarFunctionQuadraticApproximation.sizes, penalisedSettings,
          penalisedLqCollaborators, projectedLqCollaborators])
      simpa [penalisedSettings] using h
    · norm_num [scaleCost, vscale, ScalarFunctionQuadraticApproximation.add, vadd,
        penalisedLqCollaborators, projectedLqCollaborators]

end LqClaims

/-! ## Linear algebra on lists -/

section LinAlg

variable {S : Type} [LinearOrderedField S]

theorem dot_nil_left (u : vector_t S) : dot ([] : vector_t S) u = 0 := by
  simp [dot]

theorem dot_nil_right (r : vector_t S) : dot r ([] : vector_t S) = 0 := by
  simp [dot]

theorem dot_cons_cons (a b : S) (r s : vector_t S) :
    dot (a :: r) (b :: s) = a * b + dot r s := by
  simp [dot]

theorem dot_vzero_left (k : Nat) : ∀ u : vector_t S, dot (vzero k) u = 0 := by
  induction k with
  | zero => intro u; exact dot_nil_left u
  | succ n ih =>
    intro u
    cases u with
    | nil => exact dot_nil_right _
    | cons b s =>
      have : (vzero (n + 1) : vector_t S) = 0 :: vzero n := rfl
      rw [this, dot_cons_cons, ih s]
      simp

theorem dot_vsmul_left (c : S) (p : vector_t S) :
    ∀ u : vector_t S, dot (vsmul c p) u = c * dot p u := by
  induction p with
  | nil => intro u; simp [vsmul, dot_nil_left]
  | cons a t ih =>
    intro u
    cases u with
    | nil => simp [dot_nil_right]
    | cons b s =>
      have : vsmul c (a :: t) = (c * a) :: vsmul c t := rfl
      rw [this, dot_cons_cons, dot_cons_cons, ih s]
      ring

theorem dot_vneg_left (p : vector_t S) : ∀ u : vector_t S, dot (vneg p) u = - dot p u := by
  induction p with
  | nil => intro u; simp [vneg, dot_nil_left]
  | cons a t ih =>
    intro u
    cases u with
    | nil => simp [dot_nil_right]
    | cons b s =>
      have : vneg (a :: t) = (-a) :: vneg t := rfl
      rw [this, dot_cons_cons, dot_cons_cons, ih s]
      ring

theorem dot_vadd_left (A : vector_t S) :
    ∀ (B u : vector_t S), A.length = B.length → dot (vadd A B) u = dot A u + dot B u := by
  induction A with
  | nil =>
    intro B u h
    cases B with
    | nil => simp [vadd, dot_nil_left]
    | cons b t => simp at h
  | cons a t ih =>
    intro B u h
    cases B with
    | nil => simp at h
    | cons b t2 =>
      cases u with
      | nil => simp [dot_nil_right]
      | cons c s =>
        have : vadd (a :: t) (b :: t2) = (a + b) :: vadd t t2 := rfl
        rw [this, dot_cons_cons, dot_cons_cons, dot_cons_cons, ih t2 s (by simpa using h)]
        ring

theorem dot_vadd_right (r : vector_t S) :
    ∀ (A B : vector_t S), A.length = B.length → dot r (vadd A B) = dot r A + dot r B := by
  induction r with
  | nil => intro A B _; simp [dot_nil_left]
  | cons c s ih =>
    intro A B h
    cases A with
    | nil =>
      cases B with
      | nil => simp [vadd, dot_nil_right]
      | cons b t => simp at h
    | cons a t =>
      cases B with
      | nil => simp at h
      | cons b t2 =>
        have : vadd (a :: t) (b :: t2) = (a + b) :: vadd t t2 := rfl
        rw [this, dot_cons_cons, dot_cons_cons, dot_cons_cons, ih t t2 (by simpa using h)]
        ring

theorem vadd_length (A B : vector_t S) : (vadd A B).length = min A.length B.length := by
  simp [vadd]

theorem matVec_length (M : matrix_t S) (v : vector_t S) : (matVec M v).length = M.length := by
  simp [matVec]

theorem vecMat_length (k : Nat) :
    ∀ (r : vector_t S) (P : matrix_t S), (∀ p ∈ P, p.length = k) →
      (vecMat k r P).length = k := by
  intro r
  induction r with
  | nil => intro P _; simp [vecMat, vzero]
  | cons a t ih =>
    intro P hP
    cases P with
    | nil => simp [vecMat, vzero]
    | cons p Q =>
      have h1 : p.length = k := hP p (List.mem_cons_self p Q)
      have h2 := ih Q (fun q hq => hP q (List.mem_cons_of_mem p hq))
      simp only [vecMat, vadd_length, h2]
      simp [vsmul, h1]

/-- Associativity of the products: `(r^T P) u = r^T (P u)` for a matrix `P` with rows of
length `k`. -/
theorem dot_vecMat (k : Nat) (u : vector_t S) :
    ∀ (r : vector_t S) (P : matrix_t S), (∀ p ∈ P, p.length = k) →
      dot (vecMat k r P) u = dot r (matVec P u) := by
  intro r
  induction r with
  | nil => intro P _; simp [vecMat, dot_vzero_left, dot_nil_left]
  | cons a t ih =>
    intro P hP
    cases P with
    | nil => simp [vecMat, dot_vzero_left, matVec, dot_nil_right]
    | cons p Q =>
      have h1 : p.length = k := hP p (List.mem_cons_self p Q)
      have hQ : ∀ q ∈ Q, q.length = k := fun q hq => hP q (List.mem_cons_of_mem p hq)
      have h2 := vecMat_length k t Q hQ
      have h3 : matVec (p :: Q) u = dot p u :: matVec Q u := rfl
      simp only [vecMat]
      rw [dot_vadd_left _ _ _ (by rw [h2]; simp [vsmul, h1]), dot_vsmul_left, ih Q hQ, h3,
        dot_cons_cons]

end LinAlg

/-! ## C15: constraints handed to the QP solver -/

section QpAdapter

variable {S : Type} [LinearOrderedField S]

/-- C15: the QP solver is invoked by `getOCPSolution` on the call `getOCPSolutionCall`, whose
constraint argument is the array `constraints_` exactly when a constraint collaborator is
registered and projection (`qr_decomp`) is disabled; when projection is enabled or no
constraint collaborator is registered the solver gets no constraints. Initial perturbation,
dynamics and cost are passed in every case. -/
theorem getOCPSolution_constraints_handed (lqc : LqCollaborators S) (settings : Settings S)
    (self : LqProblem S) (delta_x0 : vector_t S) :
    (getOCPSolution lqc settings self delta_x0).1 =
      (lqc.solve (getOCPSolutionCall lqc settings self delta_x0)).1 ∧
    ((getOCPSolutionCall lqc settings self delta_x0).constraints = some self.constraints_ ↔
      (lqc.constraintPtr_.isSome = true ∧ settings.qr_decomp = false)) ∧
    ((settings.qr_decomp = true ∨ lqc.constraintPtr_ = none) →
      (getOCPSolutionCall lqc settings self delta_x0).constraints = none) ∧
    (getOCPSolutionCall lqc settings self delta_x0).delta_x0 = delta_x0 ∧
    (getOCPSolutionCall lqc settings self delta_x0).dynamics = self.dynamics_ ∧
    (getOCPSolutionCall lqc settings self delta_x0).cost = self.cost_ := by
  refine ⟨rfl, ?_, ?_, ?_, ?_, ?_⟩
  · unfold getOCPSolutionCall
    cases lqc.constraintPtr_ <;> cases settings.qr_decomp <;> simp
  · intro h
    unfold getOCPSolutionCall
    rcases h with h | h
    · simp [h]
    · simp [h]
  · unfold getOCPSolutionCall; split_ifs <;> rfl
  · unfold getOCPSolutionCall; split_ifs <;> rfl
  · unfold getOCPSolutionCall; split_ifs <;> rfl

/-- With projection enabled the solver of the projected example gets no constraints. -/
theorem getOCPSolution_constraints_handed_witness :
    (getOCPSolutionCall projectedLqCollaborators projectedSettings emptyLqProblem
      [0]).constraints = none :=
  (getOCPSolution_constraints_handed projectedLqCollaborators projectedSettings emptyLqProblem
    [0]).2.2.1 (Or.inl rfl)

/-! ## C11: remapping the reduced input corrections -/

theorem remap_loop_succ (cs : List (VectorFunctionLinearApproximation S))
    (dx du : List (vector_t S)) (n : Nat) :
    (List.range (n + 1)).foldl
        (fun acc i => acc.set i (remapInput (cs.getD i default) (acc.getD i []) (dx.getD i [])))
        du =
      ((List.range n).foldl
        (fun acc i => acc.set i (remapInput (cs.getD i default) (acc.getD i []) (dx.getD i [])))
        du).set n
        (remapInput (cs.getD n default)
          (((List.range n).foldl
            (fun acc i =>
              acc.set i (remapInput (cs.getD i default) (acc.getD i []) (dx.getD i [])))
            du).getD n [])
          (dx.getD n [])) := by
  rw [List.range_succ, List.foldl_append, List.foldl_cons, List.foldl_nil]

theorem remap_loop_length (cs : List (VectorFunctionLinearApproximation S))
    (dx du : List (vector_t S)) (n : Nat) :
    ((List.range n).foldl
      (fun acc i => acc.set i (remapInput (cs.getD i default) (acc.getD i []) (dx.getD i [])))
      du).length = du.length := by
  induction n with
  | zero => rfl
  | succ n ih => rw [remap_loop_succ, List.length_set, ih]

/-- After `n` passes of the remapping loop the first `n` input corrections are remapped, each
from the value the solver handed back. -/
theorem remap_loop_getElem? (cs : List (VectorFunctionLinearApproximation S))
    (dx du : List (vector_t S)) (n j : Nat) :
    ((List.range n).foldl
      (fun acc i => acc.set i (remapInput (cs.getD i default) (acc.getD i []) (dx.getD i [])))
      du)[j]? =
      if j < n then du[j]?.map (fun v => remapInput (cs.getD j default) v (dx.getD j []))
      else du[j]? := by
  induction n with
  | zero => simp
  | succ n ih =>
    rw [remap_loop_succ, getElem?_set_map]
    by_cases h : j = n
    · subst h
      rw [if_pos rfl, if_pos (Nat.lt_succ_self j)]
      have ihj := ih
      rw [if_neg (Nat.lt_irrefl j)] at ihj
      have hg : ((List.range j).foldl
          (fun acc i =>
            acc.set i (remapInput (cs.getD i default) (acc.getD i []) (dx.getD i [])))
          du).getD j [] = du[j]?.getD [] := by
        rw [List.getD_eq_getElem?_getD, ihj]
      rw [hg, ihj]
      cases du[j]? <;> rfl
    · rw [if_neg h, ih]
      by_cases h1 : j < n
      · rw [if_pos h1, if_pos (by omega)]
      · rw [if_neg h1, if_neg (by omega)]

/-- C11: `getOCPSolution` hands back the state corrections exactly as the QP solver produced
them. When a constraint collaborator is registered and projection is enabled, the input
correction of every interval `i` is `dfdu_i * u_red_i + dfdx_i * delta_x_i + f_i`, with
`u_red_i`, `delta_x_i` the outputs of the solver for interval `i` and `(dfdu_i, dfdx_i, f_i)`
the projection stored in `constraints_[i]`; in every other configuration the input
corrections are those of the solver. -/
theorem getOCPSolution_spec (lqc : LqCollaborators S) (settings : Settings S)
    (self : LqProblem S) (delta_x0 : vector_t S) (deltaXSol deltaUSol : List (vector_t S))
    (hsol : lqc.solve (getOCPSolutionCall lqc settings self delta_x0) =
      (deltaXSol, deltaUSol)) :
    (getOCPSolution lqc settings self delta_x0).1 = deltaXSol ∧
    ((lqc.constraintPtr_.isSome = true ∧ settings.qr_decomp = true) →
      (getOCPSolution lqc settings self delta_x0).2.length = deltaUSol.length ∧
      ∀ i (hi : i < deltaUSol.length) (_ : i < self.constraints_.length)
        (_ : i < deltaXSol.length),
        (getOCPSolution lqc settings self delta_x0).2[i]? =
          some (vadd (vadd (matVec self.constraints_[i].dfdu deltaUSol[i])
            (matVec self.constraints_[i].dfdx deltaXSol[i])) self.constraints_[i].f)) ∧
    (¬ (lqc.constraintPtr_.isSome = true ∧ settings.qr_decomp = true) →
      (getOCPSolution lqc settings self delta_x0).2 = deltaUSol) := by
  refine ⟨by simp [getOCPSolution, hsol], ?_, ?_⟩
  · rintro ⟨h1, h2⟩
    simp only [getOCPSolution, hsol, h1, h2, Bool.and_self, if_true]
    refine ⟨remap_loop_length _ _ _ _, ?_⟩
    intro i hi hc hx
    rw [remap_loop_getElem?, if_pos hi, List.getElem?_eq_getElem hi, Option.map_some',
      List.getD_eq_getElem _ _ hc, List.getD_eq_getElem _ _ hx]
    rfl
  · intro h
    have h3 : (lqc.constraintPtr_.isSome && settings.qr_decomp) = false := by
      cases h1 : lqc.constraintPtr_.isSome <;> cases h2 : settings.qr_decomp <;> simp_all
    simp only [getOCPSolution, hsol, h3, Bool.false_eq_true, if_false]

/-- The projected example: the state corrections are those of the solver and the reduced
input correction `(1)` of interval 0 is remapped to `(0, 1) * 1 + 0 * 0 + (0, 0)`. -/
theorem getOCPSolution_spec_witness :
    (getOCPSolution projectedLqCollaborators projectedSettings
        { emptyLqProblem with
          dynamics_ := [default]
          constraints_ := [{ f := [0, 0], dfdx := [[0], [0]], dfdu := [[0], [1]] }, default] }
        [0]).1 = [[0], [0]] ∧
    (getOCPSolution projectedLqCollaborators projectedSettings
        { emptyLqProblem with
          dynamics_ := [default]
          constraints_ := [{ f := [0, 0], dfdx := [[0], [0]], dfdu := [[0], [1]] }, default] }
        [0]).2[0]? =
      some (vadd (vadd (matVec [[0], [1]] [1]) (matVec [[0], [0]] [0])) [0, 0]) := by
  obtain ⟨h1, h2, -⟩ := getOCPSolution_spec projectedLqCollaborators projectedSettings
    { emptyLqProblem with
      dynamics_ := [default]
      constraints_ := [{ f := [0, 0], dfdx := [[0], [0]], dfdu := [[0], [1]] }, default] }
    [0] [[0], [0]] [[1]] rfl
  exact ⟨h1, (h2 ⟨rfl, rfl⟩).2 0 (by decide) (by decide) (by decide)⟩

/-! ## C12: projecting and un-projecting -/

/-- C12: let `projection` be the null-space/range-space split of the linearized equality
constraint `C dx + D du + e = 0` with `m` rows (the map stored by the LQ builder in place of
the constraint), with rectangular `dfdu`, `dfdx` and as many rows in `dfdu`, `dfdx` and `f`.
Then for every state correction `dx` and every reduced input correction `u_red` the
full-space `du = dfdu * u_red + dfdx * dx + f` computed by `getOCPSolution` satisfies
`C dx + D du + e = 0`. -/
theorem constraint_projection_round_trip
    (constraint projection : VectorFunctionLinearApproximation S) (dx u_red : vector_t S)
    (m : Nat) (hproj : IsConstraintProjection constraint projection)
    (hC : constraint.dfdx.length = m) (hD : constraint.dfdu.length = m)
    (he : constraint.f.length = m)
    (hPu : ∀ r ∈ projection.dfdu, r.length = numCols projection.dfdu)
    (hPx : ∀ r ∈ projection.dfdx, r.length = numCols projection.dfdx)
    (hrows : projection.dfdu.length = projection.dfdx.length)
    (hf : projection.dfdx.length = projection.f.length) :
    vadd (vadd (matVec constraint.dfdx dx)
        (matVec constraint.dfdu (remapInput projection u_red dx))) constraint.f =
      vzero m := by
  obtain ⟨h1, h2, h3⟩ := hproj
  apply List.ext_getElem
  · simp [vadd, matVec, vzero, hC, hD, he]
  · intro i hi1 hi2
    have him : i < m := by simpa [vzero] using hi2
    have hiC : i < constraint.dfdx.length := by omega
    have hiD : i < constraint.dfdu.length := by omega
    have hie : i < constraint.f.length := by omega
    -- row `i` of the three identities of the split
    have r1 : dot constraint.dfdu[i] (matVec projection.dfdu u_red) = 0 := by
      have := congrArg (fun M => M[i]?) h1
      simp only [matMul, mzero, List.getElem?_map, List.getElem?_eq_getElem hiD,
        Option.map_some', List.getElem?_replicate, hD, if_pos him, Option.some.injEq] at this
      rw [← dot_vecMat _ _ _ _ hPu, this, dot_vzero_left]
    have r2 : dot constraint.dfdu[i] (matVec projection.dfdx dx) =
        - dot constraint.dfdx[i] dx := by
      have := congrArg (fun M => M[i]?) h2
      simp only [matMul, mneg, List.getElem?_map, List.getElem?_eq_getElem hiD,
        List.getElem?_eq_getElem hiC, Option.map_some', Option.some.injEq] at this
      rw [← dot_vecMat _ _ _ _ hPx, this, dot_vneg_left]
    have r3 : dot constraint.dfdu[i] projection.f = - constraint.f[i] := by
      have := congrArg (fun M => M[i]?) h3
      simp only [matVec, vneg, List.getElem?_map, List.getElem?_eq_getElem hiD,
        List.getElem?_eq_getElem hie, Option.map_some', Option.some.injEq] at this
      exact this
    have hsum : dot constraint.dfdu[i] (remapInput projection u_red dx) =
        - dot constraint.dfdx[i] dx - constraint.f[i] := by
      unfold remapInput
      rw [dot_vadd_right _ _ _ (by
          rw [vadd_length, matVec_length, matVec_length, ← hrows, ← hf, hrows]; simp),
        dot_vadd_right _ _ _ (by rw [matVec_length, matVec_length, hrows]), r1, r2, r3]
      ring
    simp only [vadd, matVec, vzero, List.getElem_zipWith, List.getElem_map,
      List.getElem_replicate]
    rw [hsum]
    ring

/-- The split of the constraint `du_0 = 0` on two inputs: the remapped correction satisfies
the constraint. -/
theorem constraint_projection_round_trip_witness :
    vadd (vadd (matVec [[(0 : ℚ)]] [3])
        (matVec [[1, 0]]
          (remapInput { f := [0, 0], dfdx := [[0], [0]], dfdu := [[0], [1]] } [5] [3])))
        [0] = vzero 1 :=
  constraint_projection_round_trip
    ({ f := [0], dfdx := [[0]], dfdu := [[1, 0]] } : VectorFunctionLinearApproximation ℚ)
    { f := [0, 0], dfdx := [[0], [0]], dfdu := [[0], [1]] } [3] [5] 1
    (by norm_num [IsConstraintProjection, matMul, vecMat, numCols, mzero, vzero, vadd, vsmul,
      mneg, vneg, matVec, dot])
    rfl rfl rfl (by simp [numCols]) (by simp [numCols]) rfl rfl

end QpAdapter

/-! ## C21: the initial-state perturbation of the first iteration -/

/-- The state guess at index 0 is the supplied state, on a first solve and on later ones. -/
theorem initializeStateTrajectory_getD_zero {S : Type} (c : Collaborators S) (self : SolverState S)
    (initState : vector_t S) (timeDiscretization : List ℚ) (N : Nat) :
    (initializeStateTrajectory c self initState timeDiscretization (N : Int)).getD 0 [] =
      initState := by
  have h : ((N : Int) + 1).toNat = N + 1 := by omega
  unfold initializeStateTrajectory
  split_ifs
  · rw [h]
    simp [List.replicate_succ]
  · simp

section FirstPerturbation

variable {S : Type} [LinearOrderedField S]

theorem vsub_self (a : vector_t S) : vsub a a = vzero a.length := by
  induction a with
  | nil => rfl
  | cons x t ih =>
    have h1 : vsub (x :: t) (x :: t) = (x - x) :: vsub t t := rfl
    have h2 : (vzero (x :: t).length : vector_t S) = 0 :: vzero t.length := rfl
    rw [h1, h2, ih, sub_self]

/-- C21: on every solve call with iteration cap at least 1, on a first solve as on a
warm-started one, the state guess at index 0 is the supplied initial state, so the
perturbation `delta_x0 = initState - x[0]` of the first SQP iteration is the zero vector (of
the dimension of `initState`): the first pass of the loop of `runImpl` is the pass with the
QP solved for that zero vector, and the call handed to the QP solver by `getOCPSolution`
carries it. -/
theorem runImpl_first_delta_x0_zero (c : Collaborators S) (settings : Settings S)
    (eventTimes : List ℚ) (self : SolverState S) (initTime : ℚ) (initState : vector_t S)
    (finalTime : ℚ) (hdt : 0 < settings.dt) (hT : initTime < finalTime)
    (hK : 1 ≤ settings.sqpIteration) :
    ∃ grid x0 u0,
      timeDiscretizationWithEvents initTime finalTime settings.dt eventTimes c.limitEpsilon =
        .ok grid ∧
      runImpl c settings eventTimes self initTime initState finalTime =
        .ok (runOnGrid c settings self initState grid) ∧
      x0 = initializeStateTrajectory c self initState grid ((grid.length : Int) - 1) ∧
      u0 = initializeInputTrajectory c settings self grid x0 ((grid.length : Int) - 1) ∧
      x0.getD 0 [] = initState ∧
      vsub initState (x0.getD 0 []) = vzero initState.length ∧
      sqpLoop c settings initState grid settings.sqpIteration
          { x := x0, u := u0, totalNumIterations_ := self.totalNumIterations_ } =
        (if (takeStep c.norm settings.deltaTol grid
              (c.ocp grid x0 u0 (vzero initState.length)).1
              (c.ocp grid x0 u0 (vzero initState.length)).2 x0 u0).1 = true then
          { x := (takeStep c.norm settings.deltaTol grid
              (c.ocp grid x0 u0 (vzero initState.length)).1
              (c.ocp grid x0 u0 (vzero initState.length)).2 x0 u0).2.1
            u := (takeStep c.norm settings.deltaTol grid
              (c.ocp grid x0 u0 (vzero initState.length)).1
              (c.ocp grid x0 u0 (vzero initState.length)).2 x0 u0).2.2
            totalNumIterations_ := self.totalNumIterations_ + 1 }
        else
          sqpLoop c settings initState grid (settings.sqpIteration - 1)
            { x := (takeStep c.norm settings.deltaTol grid
                (c.ocp grid x0 u0 (vzero initState.length)).1
                (c.ocp grid x0 u0 (vzero initState.length)).2 x0 u0).2.1
              u := (takeStep c.norm settings.deltaTol grid
                (c.ocp grid x0 u0 (vzero initState.length)).1
                (c.ocp grid x0 u0 (vzero initState.length)).2 x0 u0).2.2
              totalNumIterations_ := self.totalNumIterations_ + 1 }) ∧
      ∀ (lqc : LqCollaborators S) (lq : LqProblem S),
        (getOCPSolutionCall lqc settings lq (vsub initState (x0.getD 0 []))).delta_x0 =
          vzero initState.length := by
  obtain ⟨grid, hok, -, hlen, hrun⟩ :=
    runImpl_eq_runOnGrid c settings eventTimes self initTime initState finalTime hdt hT
  have hN : (grid.length : Int) - 1 = ((grid.length - 1 : Nat) : Int) := by omega
  have hx0 : (initializeStateTrajectory c self initState grid
      ((grid.length : Int) - 1)).getD 0 [] = initState := by
    rw [hN]
    exact initializeStateTrajectory_getD_zero c self initState grid _
  have hzero : vsub initState ((initializeStateTrajectory c self initState grid
      ((grid.length : Int) - 1)).getD 0 []) = vzero initState.length := by
    rw [hx0, vsub_self]
  refine ⟨grid, _, _, hok, hrun, rfl, rfl, hx0, hzero, ?_, ?_⟩
  · obtain ⟨k, hk⟩ : ∃ k, settings.sqpIteration = k + 1 :=
      ⟨settings.sqpIteration - 1, by omega⟩
    rw [hk, Nat.add_sub_cancel]
    simp only [sqpLoop, hzero]
  · intro lqc lq
    rw [hzero]
    unfold getOCPSolutionCall
    split_ifs <;> rfl

/-- A first solve on `[0, 1]` with `dt = 1/2` and initial state `(1, 2)`: the perturbation of
the first iteration is `(0, 0)`. -/
theorem runImpl_first_delta_x0_zero_witness :
    ∃ grid x0,
      timeDiscretizationWithEvents 0 1 exampleSettings.dt [1/4]
        unitStepCollaborators.limitEpsilon = .ok grid ∧
      x0 = initializeStateTrajectory unitStepCollaborators freshSolver [1, 2] grid
        ((grid.length : Int) - 1) ∧
      vsub [1, 2] (x0.getD 0 []) = vzero ([1, 2] : vector_t ℚ).length := by
  obtain ⟨grid, x0, u0, h1, -, h3, -, -, h6, -⟩ := runImpl_first_delta_x0_zero
    unitStepCollaborators exampleSettings [1/4] freshSolver 0 [1, 2] 1
    (by norm_num [exampleSettings]) (by norm_num) (by decide)
  exact ⟨grid, x0, h1, h3, h6⟩

end FirstPerturbation

/-! ## C22: the merged trajectories of `PolicyData::fill` -/

section PolicyTrajectories

variable {X U Ctrl : Type}

/-- The trajectory loop of `fill` after `n` passes: the concatenation of the first `n`
partitions of each of the three arrays. -/
theorem fill_merge_loop (timeTrajectories : List (List ℚ)) (stateTrajectories : List (List X))
    (inputTrajectories : List (List U)) (n : Nat) :
    (List.range n).foldl
        (fun (acc : List ℚ × List X × List U) i =>
          (acc.1 ++ timeTrajectories.getD i [],
           acc.2.1 ++ stateTrajectories.getD i [],
           acc.2.2 ++ inputTrajectories.getD i []))
        ([], [], []) =
      (((List.range n).map (fun i => timeTrajectories.getD i [])).flatten,
        ((List.range n).map (fun i => stateTrajectories.getD i [])).flatten,
        ((List.range n).map (fun i => inputTrajectories.getD i [])).flatten) := by
  induction n with
  | zero => rfl
  | succ n ih =>
    rw [List.range_succ, List.foldl_append, ih]
    simp only [List.foldl_cons, List.foldl_nil, List.map_append, List.map_cons, List.map_nil,
      List.flatten_concat]

/-- The first `n` partitions of an array with exactly `n` partitions are the array. -/
theorem range_map_getD_of_length {α : Type} (l : List (List α)) (n : Nat) (h : l.length = n) :
    (List.range n).map (fun i => l.getD i []) = l := by
  rw [← h]
  exact range_map_getD l []

/-- C22: for every prior content of the `PolicyData` and every list of partitions, each with
its time, state and input trajectory, `fill` leaves in `mpcTimeTrajectory_`,
`mpcStateTrajectory_` and `mpcInputTrajectory_` the in-order concatenations of the
per-partition time, state and input trajectories (so their lengths are the sums of the
partition lengths and empty partitions contribute nothing), and in `eventTimes_` and
`subsystemsSequence_` the given arguments; the result does not depend on the prior
content. -/
theorem PolicyData.fill_trajectories (ops : ControllerOps U Ctrl) (self : PolicyData X U Ctrl)
    (timeTrajectories : List (List ℚ)) (stateTrajectories : List (List X))
    (inputTrajectories : List (List U)) (eventTimes : List ℚ) (subsystemsSequence : List Nat)
    (controllerPtrs : List Ctrl)
    (hX : stateTrajectories.length = timeTrajectories.length)
    (hU : inputTrajectories.length = timeTrajectories.length) :
    (PolicyData.fill ops self timeTrajectories stateTrajectories inputTrajectories eventTimes
        subsystemsSequence controllerPtrs).mpcTimeTrajectory_ = timeTrajectories.flatten ∧
    (PolicyData.fill ops self timeTrajectories stateTrajectories inputTrajectories eventTimes
        subsystemsSequence controllerPtrs).mpcStateTrajectory_ = stateTrajectories.flatten ∧
    (PolicyData.fill ops self timeTrajectories stateTrajectories inputTrajectories eventTimes
        subsystemsSequence controllerPtrs).mpcInputTrajectory_ = inputTrajectories.flatten ∧
    (PolicyData.fill ops self timeTrajectories stateTrajectories inputTrajectories eventTimes
        subsystemsSequence controllerPtrs).mpcTimeTrajectory_.length =
      (timeTrajectories.map List.length).sum ∧
    (PolicyData.fill ops self timeTrajectories stateTrajectories inputTrajectories eventTimes
        subsystemsSequence controllerPtrs).mpcStateTrajectory_.length =
      (stateTrajectories.map List.length).sum ∧
    (PolicyData.fill ops self timeTrajectories stateTrajectories inputTrajectories eventTimes
        subsystemsSequence controllerPtrs).mpcInputTrajectory_.length =
      (inputTrajectories.map List.length).sum ∧
    (PolicyData.fill ops self timeTrajectories stateTrajectories inputTrajectories eventTimes
        subsystemsSequence controllerPtrs).eventTimes_ = eventTimes ∧
    (PolicyData.fill ops self timeTrajectories stateTrajectories inputTrajectories eventTimes
        subsystemsSequence controllerPtrs).subsystemsSequence_ = subsystemsSequence ∧
    ∀ other : PolicyData X U Ctrl,
      PolicyData.fill ops other timeTrajectories stateTrajectories inputTrajectories eventTimes
          subsystemsSequence controllerPtrs =
        PolicyData.fill ops self timeTrajectories stateTrajectories inputTrajectories
          eventTimes subsystemsSequence controllerPtrs := by
  have ht : (PolicyData.fill ops self timeTrajectories stateTrajectories inputTrajectories
      eventTimes subsystemsSequence controllerPtrs).mpcTimeTrajectory_ =
      timeTrajectories.flatten := by
    simp only [PolicyData.fill, fill_merge_loop]
    rw [range_map_getD_of_length timeTrajectories _ rfl]
  have hx : (PolicyData.fill ops self timeTrajectories stateTrajectories inputTrajectories
      eventTimes subsystemsSequence controllerPtrs).mpcStateTrajectory_ =
      stateTrajectories.flatten := by
    simp only [PolicyData.fill, fill_merge_loop]
    rw [range_map_getD_of_length stateTrajectories _ hX]
  have hu : (PolicyData.fill ops self timeTrajectories stateTrajectories inputTrajectories
      eventTimes subsystemsSequence controllerPtrs).mpcInputTrajectory_ =
      inputTrajectories.flatten := by
    simp only [PolicyData.fill, fill_merge_loop]
    rw [range_map_getD_of_length inputTrajectories _ hU]
  refine ⟨ht, hx, hu, ?_, ?_, ?_, rfl, rfl, fun _ => rfl⟩
  · rw [ht, List.length_flatten]
  · rw [hx, List.length_flatten]
  · rw [hu, List.length_flatten]

/-- Two partitions, the second one empty, filled into an object without content. -/
theorem PolicyData.fill_trajectories_witness :
    (PolicyData.fill sampleControllerOps emptyPolicyData [[0, 1], []] [[[1], [2]], []]
        [[[3], [4]], []] [1/2] [0, 1] []).mpcTimeTrajectory_ =
      ([[0, 1], []] : List (List ℚ)).flatten ∧
    (PolicyData.fill sampleControllerOps emptyPolicyData [[0, 1], []] [[[1], [2]], []]
        [[[3], [4]], []] [1/2] [0, 1] []).mpcStateTrajectory_ =
      ([[[1], [2]], []] : List (List (List ℚ))).flatten ∧
    (PolicyData.fill sampleControllerOps emptyPolicyData [[0, 1], []] [[[1], [2]], []]
        [[[3], [4]], []] [1/2] [0, 1] []).mpcInputTrajectory_ =
      ([[[3], [4]], []] : List (List (List ℚ))).flatten := by
  obtain ⟨h1, h2, h3, -⟩ := PolicyData.fill_trajectories sampleControllerOps emptyPolicyData
    [[0, 1], []] [[[1], [2]], []] [[[3], [4]], []] [1/2] [0, 1] [] rfl rfl
  exact ⟨h1, h2, h3⟩

/-! ## C23: when `PolicyData::fill` leaves no controller -/

/-- The controller loop started from the null controller ends with the null controller
exactly when every controller of the list is empty. -/
theorem foldl_fillControllerStep_none_iff (ops : ControllerOps U Ctrl) (cs : List Ctrl) :
    cs.foldl (fillControllerStep ops) none = none ↔ ∀ c ∈ cs, ops.empty c = true := by
  rw [foldl_fillControllerStep_filter]
  have hall : ∀ c ∈ cs.filter (fun c => !ops.empty c), ops.empty c = false := by
    intro c hc
    have := (List.mem_filter.mp hc).2
    simpa using this
  cases hf : cs.filter (fun c => !ops.empty c) with
  | nil =>
    constructor
    · intro _ c hc
      by_contra hne
      have : c ∈ cs.filter (fun c => !ops.empty c) :=
        List.mem_filter.mpr ⟨hc, by simpa using hne⟩
      rw [hf] at this
      exact absurd this (List.not_mem_nil c)
    · intro _; rfl
  | cons d rest =>
    rw [hf] at hall
    have hd : ops.empty d = false := hall d (List.mem_cons_self d rest)
    constructor
    · intro h
      rw [List.foldl_cons] at h
      simp only [fillControllerStep, hd, Bool.false_eq_true, if_false] at h
      rw [foldl_fillControllerStep_some ops rest
        (fun e he => hall e (List.mem_cons_of_mem d he))] at h
      cases h
    · intro h
      have hmem : d ∈ cs := by
        have : d ∈ cs.filter (fun c => !ops.empty c) := by rw [hf]; exact List.mem_cons_self d rest
        exact (List.mem_filter.mp this).1
      rw [h d hmem] at hd
      cases hd

/-- C23: `PolicyData::fill` leaves `mpcController_` null exactly when the given controller
list is non-empty and every controller in it is empty. When the list itself is empty the
controller is the feedforward controller built from the merged time and input trajectories,
and when the list holds at least one non-empty controller the controller is non-null. -/
theorem PolicyData.fill_controller_null_iff (ops : ControllerOps U Ctrl)
    (self : PolicyData X U Ctrl) (timeTrajectories : List (List ℚ))
    (stateTrajectories : List (List X)) (inputTrajectories : List (List U))
    (eventTimes : List ℚ) (subsystemsSequence : List Nat) (controllerPtrs : List Ctrl) :
    ((PolicyData.fill ops self timeTrajectories stateTrajectories inputTrajectories eventTimes
        subsystemsSequence controllerPtrs).mpcController_ = none ↔
      (controllerPtrs ≠ [] ∧ ∀ c ∈ controllerPtrs, ops.empty c = true)) ∧
    (controllerPtrs = [] →
      (PolicyData.fill ops self timeTrajectories stateTrajectories inputTrajectories eventTimes
          subsystemsSequence controllerPtrs).mpcController_ =
        some (ops.feedforward
          (PolicyData.fill ops self timeTrajectories stateTrajectories inputTrajectories
            eventTimes subsystemsSequence controllerPtrs).mpcTimeTrajectory_
          (PolicyData.fill ops self timeTrajectories stateTrajectories inputTrajectories
            eventTimes subsystemsSequence controllerPtrs).mpcInputTrajectory_)) ∧
    ((∃ c ∈ controllerPtrs, ops.empty c = false) →
      (PolicyData.fill ops self timeTrajectories stateTrajectories inputTrajectories eventTimes
          subsystemsSequence controllerPtrs).mpcController_.isSome = true) := by
  have hiff : (PolicyData.fill ops self timeTrajectories stateTrajectories inputTrajectories
      eventTimes subsystemsSequence controllerPtrs).mpcController_ = none ↔
      (controllerPtrs ≠ [] ∧ ∀ c ∈ controllerPtrs, ops.empty c = true) := by
    cases hc : controllerPtrs with
    | nil => simp [PolicyData.fill]
    | cons d rest =>
      have := foldl_fillControllerStep_none_iff ops (d :: rest)
      simp only [PolicyData.fill, List.isEmpty_cons, Bool.not_false, if_true, ne_eq,
        reduceCtorEq, not_false_eq_true, true_and]
      exact this
  refine ⟨hiff, ?_, ?_⟩
  · intro hc
    subst hc
    simp [PolicyData.fill]
  · rintro ⟨c, hc, hne⟩
    cases h : (PolicyData.fill ops self timeTrajectories stateTrajectories inputTrajectories
        eventTimes subsystemsSequence controllerPtrs).mpcController_ with
    | some m => rfl
    | none =>
      have := (hiff.mp h).2 c hc
      rw [this] at hne
      cases hne

/-- With an empty controller list the feedforward controller of the merged trajectories is
built; with one non-empty controller in the list the controller is non-null. -/
theorem PolicyData.fill_controller_null_iff_witness :
    (PolicyData.fill sampleControllerOps emptyPolicyData [[0, 1]] [[[1], [2]]] [[[3], [4]]]
        [] [0] []).mpcController_ =
      some (sampleControllerOps.feedforward
        (PolicyData.fill sampleControllerOps emptyPolicyData [[0, 1]] [[[1], [2]]]
          [[[3], [4]]] [] [0] []).mpcTimeTrajectory_
        (PolicyData.fill sampleControllerOps emptyPolicyData [[0, 1]] [[[1], [2]]]
          [[[3], [4]]] [] [0] []).mpcInputTrajectory_) ∧
    (PolicyData.fill sampleControllerOps emptyPolicyData [[0, 1]] [[[1], [2]]] [[[3], [4]]]
        [] [0] [[], [(0, [3])]]).mpcController_.isSome = true :=
  ⟨(PolicyData.fill_controller_null_iff sampleControllerOps emptyPolicyData [[0, 1]]
      [[[1], [2]]] [[[3], [4]]] [] [0] []).2.1 rfl,
    (PolicyData.fill_controller_null_iff sampleControllerOps emptyPolicyData [[0, 1]]
      [[[1], [2]]] [[[3], [4]]] [] [0] [[], [(0, [3])]]).2.2
        ⟨[(0, [3])], by simp, rfl⟩⟩

end PolicyTrajectories

/-! ## Rounding to `double` -/

/-- The nearest integer is at most one half away. -/
theorem roundHalfEven_abs_sub_le (q : ℚ) : |(roundHalfEven q : ℚ) - q| ≤ 1 / 2 := by
  have h1 := Int.floor_le q
  have h2 := Int.lt_floor_add_one q
  unfold roundHalfEven
  split_ifs with a b c
  · rw [abs_le]; constructor <;> linarith
  · rw [abs_le]; push_cast; constructor <;> linarith
  · rw [abs_le]; constructor <;> linarith
  · rw [abs_le]; push_cast; constructor <;> linarith

/-- A rational less than one half away from the integer `m` rounds to `m`. -/
theorem roundHalfEven_eq_of_lt (q : ℚ) (m : ℤ) (h : |q - m| < 1 / 2) : roundHalfEven q = m := by
  rw [abs_lt] at h
  obtain ⟨h1, h2⟩ := h
  by_cases hm : (m : ℚ) ≤ q
  · have hf : ⌊q⌋ = m := by
      rw [Int.floor_eq_iff]
      constructor
      · exact hm
      · linarith
    unfold roundHalfEven
    rw [hf, if_pos (by linarith)]
  · have hf : ⌊q⌋ = m - 1 := by
      rw [Int.floor_eq_iff]
      push_cast
      constructor <;> linarith
    unfold roundHalfEven
    rw [hf]
    push_cast
    rw [if_neg (by linarith), if_pos (by linarith)]
    ring

theorem roundHalfEven_intCast (m : ℤ) : roundHalfEven (m : ℚ) = m :=
  roundHalfEven_eq_of_lt _ m (by simp)

/-- A tie above an even integer goes down to it. -/
theorem roundHalfEven_tie_even (q : ℚ) (m : ℤ) (hq : q = m + 1 / 2) (hm : m % 2 = 0) :
    roundHalfEven q = m := by
  have hf : ⌊q⌋ = m := by
    rw [Int.floor_eq_iff]
    constructor <;> linarith
  unfold roundHalfEven
  rw [hf, if_neg (by linarith), if_neg (by linarith), if_pos hm]

/-- A tie above an odd integer goes up to the next one. -/
theorem roundHalfEven_tie_odd (q : ℚ) (m : ℤ) (hq : q = m + 1 / 2) (hm : m % 2 = 1) :
    roundHalfEven q = m + 1 := by
  have hf : ⌊q⌋ = m := by
    rw [Int.floor_eq_iff]
    constructor <;> linarith
  unfold roundHalfEven
  rw [hf, if_neg (by linarith), if_neg (by linarith), if_neg (by omega)]

theorem roundDouble_zero : roundDouble 0 = 0 := by
  simp [roundDouble, roundHalfEven]

/-- For `2 ^ e <= |q| < 2 ^ (e + 1)` with `e` in the normal range, `roundDouble` rounds `q` to
a multiple of `2 ^ (e - 52)`. -/
theorem roundDouble_of_binade (q : ℚ) (e : ℤ) (he : -1022 ≤ e) (h1 : (2 : ℚ) ^ e ≤ |q|)
    (h2 : |q| < (2 : ℚ) ^ (e + 1)) :
    roundDouble q = (roundHalfEven (q / 2 ^ (e - 52)) : ℚ) * 2 ^ (e - 52) := by
  have hpos : 0 < |q| := lt_of_lt_of_le (by positivity) h1
  have hlog : Int.log 2 |q| = e := by
    apply le_antisymm
    · have := (Int.lt_zpow_iff_log_lt (R := ℚ) (b := 2) (by norm_num) hpos).mp
        (by simpa using h2)
      omega
    · exact (Int.zpow_le_iff_le_log (R := ℚ) (b := 2) (by norm_num) hpos).mp (by simpa using h1)
  unfold roundDouble
  simp only [hlog, max_eq_left he]

/-- Evaluation of `roundDouble` at a value with `2 ^ e <= |q| < 2 ^ (e + 1)`: with
`ulp = 2 ^ (e - 52)` and `m` the integer nearest to `q / ulp` the result is `m * ulp`. -/
theorem roundDouble_eval (q ulp : ℚ) (e m : ℤ) (he : -1022 ≤ e) (hulp : ulp = 2 ^ (e - 52))
    (h1 : (2 : ℚ) ^ e ≤ |q|) (h2 : |q| < (2 : ℚ) ^ (e + 1))
    (hm : roundHalfEven (q / ulp) = m) : roundDouble q = m * ulp := by
  rw [roundDouble_of_binade q e he h1 h2, ← hulp, hm]

/-- The rounding error of `roundDouble` is at most half a unit in the last place: on values of
magnitude at most `M`, with `M` not below the smallest normal number, it is at most
`M / 2 ^ 53`. -/
theorem roundDouble_abs_sub_le (x M : ℚ) (hx : |x| ≤ M) (hM : 1 / 2 ^ 1022 ≤ M) :
    |roundDouble x - x| ≤ M / 2 ^ 53 := by
  by_cases h0 : x = 0
  · subst h0
    rw [roundDouble_zero]
    have : (0 : ℚ) ≤ M := le_trans (by positivity) hM
    simp only [sub_zero, abs_zero]
    positivity
  have hpos : 0 < |x| := abs_pos.mpr h0
  set e : ℤ := max (Int.log 2 |x|) (-1022) with he
  have hulp : (0 : ℚ) < 2 ^ (e - 52) := by positivity
  have hrd : roundDouble x = (roundHalfEven (x / 2 ^ (e - 52)) : ℚ) * 2 ^ (e - 52) := rfl
  have herr := roundHalfEven_abs_sub_le (x / 2 ^ (e - 52))
  have h1 : |roundDouble x - x| = |(roundHalfEven (x / 2 ^ (e - 52)) : ℚ) - x / 2 ^ (e - 52)| *
      2 ^ (e - 52) := by
    rw [hrd]
    have : (roundHalfEven (x / 2 ^ (e - 52)) : ℚ) * 2 ^ (e - 52) - x =
        ((roundHalfEven (x / 2 ^ (e - 52)) : ℚ) - x / 2 ^ (e - 52)) * 2 ^ (e - 52) := by
      field_simp
    rw [this, abs_mul, abs_of_pos hulp]
  have h2 : (2 : ℚ) ^ (e - 52) = 2 ^ e / 2 ^ 52 := by
    rw [zpow_sub₀ (by norm_num : (2 : ℚ) ≠ 0)]
    norm_cast
  have h3 : (2 : ℚ) ^ e ≤ M := by
    rcases max_cases (Int.log 2 |x|) (-1022) with ⟨hc, _⟩ | ⟨hc, _⟩
    · rw [he, hc]
      have := Int.zpow_log_le_self (R := ℚ) (b := 2) (by norm_num) hpos
      simp only [Nat.cast_ofNat] at this
      linarith
    · rw [he, hc]
      have : (2 : ℚ) ^ (-1022 : ℤ) = 1 / 2 ^ 1022 := by
        rw [zpow_neg, one_div]
        norm_cast
      rw [this]
      exact hM
  rw [h1, h2]
  calc |(roundHalfEven (x / (2 ^ e / 2 ^ 52)) : ℚ) - x / (2 ^ e / 2 ^ 52)| * (2 ^ e / 2 ^ 52)
      ≤ 1 / 2 * (2 ^ e / 2 ^ 52) := by
        apply mul_le_mul_of_nonneg_right _ (by positivity)
        rw [← h2]
        exact herr
    _ = 2 ^ e / 2 ^ 53 := by ring
    _ ≤ M / 2 ^ 53 := by
        apply div_le_div_of_nonneg_right h3 (by positivity)

/-- Doubles are fixed by `roundDouble`: a rational `n / 2 ^ k` with `|n| < 2 ^ 53` and
`k <= 1074` is a double, and rounds to itself. -/
theorem roundDouble_dyadic (n : ℤ) (k : ℕ) (hn : |n| < 2 ^ 53) (hk : k ≤ 1074) :
    roundDouble ((n : ℚ) / 2 ^ k) = (n : ℚ) / 2 ^ k := by
  by_cases h0 : n = 0
  · subst h0
    simp [roundDouble_zero]
  set q : ℚ := (n : ℚ) / 2 ^ k with hq
  have hqpos : 0 < |q| := by
    rw [hq, abs_div, abs_of_pos (by positivity : (0 : ℚ) < 2 ^ k)]
    apply div_pos _ (by positivity)
    exact abs_pos.mpr (by exact_mod_cast h0)
  have hnq : |(n : ℚ)| < 2 ^ 53 := by exact_mod_cast hn
  have hlt : |q| < (2 : ℚ) ^ ((53 : ℤ) - k) := by
    rw [hq, abs_div, abs_of_pos (by positivity : (0 : ℚ) < 2 ^ k),
      zpow_sub₀ (by norm_num : (2 : ℚ) ≠ 0), zpow_natCast]
    apply div_lt_div_of_pos_right _ (by positivity)
    exact_mod_cast hnq
  have hlog : Int.log 2 |q| < 53 - k :=
    (Int.lt_zpow_iff_log_lt (R := ℚ) (b := 2) (by norm_num) hqpos).mp (by simpa using hlt)
  set e : ℤ := max (Int.log 2 |q|) (-1022) with he
  have he1 : e ≤ 52 - k := by
    rw [he]
    apply max_le
    · omega
    · omega
  obtain ⟨j, hj⟩ : ∃ j : ℕ, (j : ℤ) = 52 - k - e := ⟨(52 - k - e).toNat, by omega⟩
  have hdiv : q / 2 ^ (e - 52) = ((n * 2 ^ j : ℤ) : ℚ) := by
    have h2 : (2 : ℚ) ^ (e - 52) = (2 ^ k * 2 ^ j)⁻¹ := by
      rw [← zpow_natCast (2 : ℚ) k, ← zpow_natCast (2 : ℚ) j, ← zpow_add₀ (by norm_num),
        ← zpow_neg]
      congr 1
      omega
    rw [h2, hq]
    push_cast
    field_simp
    ring
  have hrd : roundDouble q = (roundHalfEven (q / 2 ^ (e - 52)) : ℚ) * 2 ^ (e - 52) := rfl
  rw [hrd, hdiv, roundHalfEven_intCast, ← hdiv]
  have : (2 : ℚ) ^ (e - 52) ≠ 0 := by positivity
  field_simp

/-- The double sum of `13/4` and `2 ^ (-52)` is `13/4`: doubles between 2 and 4 are
`2 ^ (-51)` apart, the exact sum lies half way between two of them, and the tie goes to the
even significand. -/
theorem roundDouble_event_absorbed : roundDouble (13 / 4 + 1 / 2 ^ 52) = 13 / 4 := by
  rw [roundDouble_eval (13 / 4 + 1 / 2 ^ 52) (1 / 2 ^ 51) 1 (13 * 2 ^ 49) (by norm_num)
    (by norm_num) (by norm_num [abs_of_pos]) (by norm_num [abs_of_pos])
    (roundHalfEven_tie_even _ _ (by norm_num) (by norm_num))]
  norm_num

/-- Progress of a rounded step: when the step `dt` is at least `M / 2 ^ 52` for a bound `M` on
the magnitude of `t + dt`, the double sum of `t` and `dt` is at least `t + dt / 2`. -/
theorem roundDouble_progress (t dt M : ℚ) (hx : |t + dt| ≤ M) (hM : 1 / 2 ^ 1022 ≤ M)
    (hdt : M / 2 ^ 52 ≤ dt) : t + dt / 2 ≤ roundDouble (t + dt) := by
  have h := roundDouble_abs_sub_le (t + dt) M hx hM
  rw [abs_le] at h
  have h2 : M / 2 ^ 53 = M / 2 ^ 52 / 2 := by ring
  linarith [h.1]

/-- Rounding to the nearest integer keeps the order. -/
theorem roundHalfEven_mono {a b : ℚ} (h : a ≤ b) : roundHalfEven a ≤ roundHalfEven b := by
  by_contra hc
  have h1 : roundHalfEven b + 1 ≤ roundHalfEven a := by omega
  have h2 : ((roundHalfEven b : ℤ) : ℚ) + 1 ≤ (roundHalfEven a : ℚ) := by exact_mod_cast h1
  have ha := (abs_le.mp (roundHalfEven_abs_sub_le a)).2
  have hb := (abs_le.mp (roundHalfEven_abs_sub_le b)).1
  have hab : a = b := le_antisymm h (by linarith)
  subst hab
  exact hc (le_refl _)

/-- Rounding to the nearest integer, ties to even, commutes with negation. -/
theorem roundHalfEven_neg (q : ℚ) : roundHalfEven (-q) = -roundHalfEven q := by
  have h1 := Int.floor_le q
  have h2 := Int.lt_floor_add_one q
  rcases lt_trichotomy (q - ⌊q⌋) (1 / 2) with h | h | h
  · have e1 : roundHalfEven q = ⌊q⌋ :=
      roundHalfEven_eq_of_lt _ _ (by rw [abs_lt]; constructor <;> linarith)
    rw [e1]
    exact roundHalfEven_eq_of_lt _ _ (by rw [abs_lt]; push_cast; constructor <;> linarith)
  · have hq : q = ⌊q⌋ + 1 / 2 := by linarith
    have hnq : -q = ((-⌊q⌋ - 1 : ℤ) : ℚ) + 1 / 2 := by push_cast; linarith
    rcases Int.emod_two_eq_zero_or_one ⌊q⌋ with he | ho
    · rw [roundHalfEven_tie_even q _ hq he, roundHalfEven_tie_odd (-q) _ hnq (by omega)]
      ring
    · rw [roundHalfEven_tie_odd q _ hq ho, roundHalfEven_tie_even (-q) _ hnq (by omega)]
      ring
  · have e1 : roundHalfEven q = ⌊q⌋ + 1 :=
      roundHalfEven_eq_of_lt _ _ (by rw [abs_lt]; push_cast; constructor <;> linarith)
    rw [e1]
    exact roundHalfEven_eq_of_lt _ _ (by rw [abs_lt]; push_cast; constructor <;> linarith)

/-- Rounding to `double` commutes with negation. -/
theorem roundDouble_neg (q : ℚ) : roundDouble (-q) = -roundDouble q := by
  unfold roundDouble
  simp only [abs_neg, neg_div, roundHalfEven_neg]
  push_cast
  ring

theorem roundDouble_nonneg {q : ℚ} (h : 0 ≤ q) : 0 ≤ roundDouble q := by
  unfold roundDouble
  apply mul_nonneg _ (by positivity)
  have : (0 : ℤ) ≤ roundHalfEven (q / 2 ^ (max (Int.log 2 |q|) (-1022) - 52)) := by
    have := roundHalfEven_mono (a := ((0 : ℤ) : ℚ))
      (b := q / 2 ^ (max (Int.log 2 |q|) (-1022) - 52))
      (by push_cast; positivity)
    rwa [roundHalfEven_intCast] at this
  exact_mod_cast this

/-- Rounding to `double` keeps the order on non-negative rationals. -/
theorem roundDouble_mono_of_nonneg {x y : ℚ} (hx : 0 ≤ x) (h : x ≤ y) :
    roundDouble x ≤ roundDouble y := by
  rcases eq_or_lt_of_le hx with h0 | hxpos
  · rw [← h0, roundDouble_zero]
    exact roundDouble_nonneg (le_trans hx h)
  have hypos : 0 < y := lt_of_lt_of_le hxpos h
  have hlog : Int.log 2 |x| ≤ Int.log 2 |y| := by
    rw [abs_of_pos hxpos, abs_of_pos hypos]
    exact Int.log_mono_right hxpos h
  set ex : ℤ := max (Int.log 2 |x|) (-1022) with hex
  set ey : ℤ := max (Int.log 2 |y|) (-1022) with hey
  have hrx : roundDouble x = (roundHalfEven (x / 2 ^ (ex - 52)) : ℚ) * 2 ^ (ex - 52) := rfl
  have hry : roundDouble y = (roundHalfEven (y / 2 ^ (ey - 52)) : ℚ) * 2 ^ (ey - 52) := rfl
  have hle : ex ≤ ey := max_le_max hlog (le_refl _)
  rcases eq_or_lt_of_le hle with heq | hlt
  · rw [hrx, hry, heq]
    apply mul_le_mul_of_nonneg_right _ (by positivity)
    have := roundHalfEven_mono (a := x / 2 ^ (ey - 52)) (b := y / 2 ^ (ey - 52))
      (div_le_div_of_nonneg_right h (by positivity))
    exact_mod_cast this
  · have hey2 : ey = Int.log 2 |y| := by
      rcases max_cases (Int.log 2 |y|) (-1022) with ⟨hc, _⟩ | ⟨hc, _⟩
      · rw [hey, hc]
      · have : -1022 ≤ ex := le_max_right _ _
        rw [hey, hc] at hlt
        omega
    have hylow : (2 : ℚ) ^ ey ≤ y := by
      have := Int.zpow_log_le_self (R := ℚ) (b := 2) (by norm_num) (abs_pos.mpr (ne_of_gt hypos))
      simp only [Nat.cast_ofNat] at this
      rw [hey2]
      rw [abs_of_pos hypos] at this ⊢
      exact this
    have hxup : x < (2 : ℚ) ^ (ex + 1) := by
      have := Int.lt_zpow_succ_log_self (R := ℚ) (b := 2) (by norm_num) |x|
      simp only [Nat.cast_ofNat] at this
      rw [abs_of_pos hxpos] at this
      refine lt_of_lt_of_le this ?_
      apply zpow_le_zpow_right₀ (by norm_num)
      have : Int.log 2 x ≤ ex := by
        rw [hex, abs_of_pos hxpos]
        exact le_max_left _ _
      omega
    have h53 : (2 : ℚ) ^ (ex + 1) / 2 ^ (ex - 52) = ((2 ^ 53 : ℤ) : ℚ) := by
      rw [← zpow_sub₀ (by norm_num : (2 : ℚ) ≠ 0)]
      have : ex + 1 - (ex - 52) = 53 := by ring
      rw [this]
      norm_num
    have h52 : (2 : ℚ) ^ ey / 2 ^ (ey - 52) = ((2 ^ 52 : ℤ) : ℚ) := by
      rw [← zpow_sub₀ (by norm_num : (2 : ℚ) ≠ 0)]
      have : ey - (ey - 52) = 52 := by ring
      rw [this]
      norm_num
    have hx1 : roundDouble x ≤ (2 : ℚ) ^ (ex + 1) := by
      have hm := roundHalfEven_mono (a := x / 2 ^ (ex - 52))
        (b := (2 : ℚ) ^ (ex + 1) / 2 ^ (ex - 52))
        (div_le_div_of_nonneg_right (le_of_lt hxup) (by positivity))
      rw [h53, roundHalfEven_intCast] at hm
      have hm2 : (roundHalfEven (x / 2 ^ (ex - 52)) : ℚ) ≤ ((2 ^ 53 : ℤ) : ℚ) := by
        exact_mod_cast hm
      rw [hrx]
      calc (roundHalfEven (x / 2 ^ (ex - 52)) : ℚ) * 2 ^ (ex - 52)
          ≤ ((2 ^ 53 : ℤ) : ℚ) * 2 ^ (ex - 52) :=
            mul_le_mul_of_nonneg_right hm2 (by positivity)
        _ = 2 ^ (ex + 1) := by
            rw [← h53]
            field_simp
    have hy1 : (2 : ℚ) ^ ey ≤ roundDouble y := by
      have hm := roundHalfEven_mono (a := (2 : ℚ) ^ ey / 2 ^ (ey - 52))
        (b := y / 2 ^ (ey - 52))
        (div_le_div_of_nonneg_right hylow (by positivity))
      rw [h52, roundHalfEven_intCast] at hm
      have hm2 : ((2 ^ 52 : ℤ) : ℚ) ≤ (roundHalfEven (y / 2 ^ (ey - 52)) : ℚ) := by
        exact_mod_cast hm
      rw [hry]
      calc (2 : ℚ) ^ ey = ((2 ^ 52 : ℤ) : ℚ) * 2 ^ (ey - 52) := by
            rw [← h52]
            field_simp
        _ ≤ (roundHalfEven (y / 2 ^ (ey - 52)) : ℚ) * 2 ^ (ey - 52) :=
            mul_le_mul_of_nonneg_right hm2 (by positivity)
    have hpow : (2 : ℚ) ^ (ex + 1) ≤ 2 ^ ey :=
      zpow_le_zpow_right₀ (by norm_num) (by omega)
    linarith

/-- Rounding to `double` keeps the order: it is monotone. -/
theorem roundDouble_mono : Monotone roundDouble := by
  intro x y h
  rcases le_or_lt 0 x with hx | hx
  · exact roundDouble_mono_of_nonneg hx h
  · rcases le_or_lt 0 y with hy | hy
    · have h1 := roundDouble_nonneg (q := -x) (by linarith)
      rw [roundDouble_neg] at h1
      have h2 := roundDouble_nonneg hy
      linarith
    · have := roundDouble_mono_of_nonneg (x := -y) (y := -x) (by linarith) (by linarith)
      rw [roundDouble_neg, roundDouble_neg] at this
      linarith

/-! ## The grid loop in the arithmetic of `scalar_t` -/

/-- In exact arithmetic (`fl` the identity) the rounded loop body is `gridLoopBody`. -/
theorem gridLoopBodyRounded_id (finalTime dt : ℚ) (eventTimes : List ℚ) (eventDelta : ℚ)
    (s : GridLoopState) :
    gridLoopBodyRounded id finalTime dt eventTimes eventDelta s =
      gridLoopBody finalTime dt eventTimes eventDelta s := rfl

theorem gridLoopRounded_id (finalTime dt : ℚ) (eventTimes : List ℚ) (eventDelta : ℚ) :
    ∀ (fuel : Nat) (s : GridLoopState),
      gridLoopRounded id finalTime dt eventTimes eventDelta fuel s =
        gridLoop finalTime dt eventTimes eventDelta fuel s := by
  intro fuel
  induction fuel with
  | zero => intro s; rfl
  | succ n ih =>
    intro s
    rw [gridLoopRounded, gridLoop, gridLoopBodyRounded_id, ih]

/-- In exact arithmetic, with the assertions enabled and the fuel `gridFuel`, the rounded
grid builder is `timeDiscretizationWithEvents`. -/
theorem timeDiscretizationWithEventsRounded_id (initTime finalTime dt : ℚ)
    (eventTimes : List ℚ) (eventDelta : ℚ) :
    timeDiscretizationWithEventsRounded id true (gridFuel initTime finalTime dt eventTimes)
        initTime finalTime dt eventTimes eventDelta =
      timeDiscretizationWithEvents initTime finalTime dt eventTimes eventDelta := by
  simp only [timeDiscretizationWithEventsRounded, timeDiscretizationWithEvents,
    gridLoopRounded_id, true_and]

/-- The four ways through the rounded loop body: an event is consumed or not, and the final
time is reached or not. -/
theorem gridLoopBodyRounded_cases (fl : ℚ → ℚ) (finalTime dt : ℚ) (eventTimes : List ℚ)
    (eventDelta : ℚ) (s : GridLoopState) :
    ((s.nextEventIdx < eventTimes.length ∧
        eventTimes.getD s.nextEventIdx 0 ≤ fl (s.nextTime + dt)) ∧
      finalTime ≤ eventTimes.getD s.nextEventIdx 0 ∧
      gridLoopBodyRounded fl finalTime dt eventTimes eventDelta s =
        ⟨s.timeDiscretization ++ [finalTime], finalTime, s.nextEventIdx + 1⟩) ∨
    ((s.nextEventIdx < eventTimes.length ∧
        eventTimes.getD s.nextEventIdx 0 ≤ fl (s.nextTime + dt)) ∧
      eventTimes.getD s.nextEventIdx 0 < finalTime ∧
      gridLoopBodyRounded fl finalTime dt eventTimes eventDelta s =
        ⟨s.timeDiscretization ++ [fl (eventTimes.getD s.nextEventIdx 0 + eventDelta)],
          eventTimes.getD s.nextEventIdx 0, s.nextEventIdx + 1⟩) ∨
    (¬ (s.nextEventIdx < eventTimes.length ∧
        eventTimes.getD s.nextEventIdx 0 ≤ fl (s.nextTime + dt)) ∧
      finalTime ≤ fl (s.nextTime + dt) ∧
      gridLoopBodyRounded fl finalTime dt eventTimes eventDelta s =
        ⟨s.timeDiscretization ++ [finalTime], finalTime, s.nextEventIdx⟩) ∨
    (¬ (s.nextEventIdx < eventTimes.length ∧
        eventTimes.getD s.nextEventIdx 0 ≤ fl (s.nextTime + dt)) ∧
      fl (s.nextTime + dt) < finalTime ∧
      gridLoopBodyRounded fl finalTime dt eventTimes eventDelta s =
        ⟨s.timeDiscretization ++ [fl (s.nextTime + dt)], fl (s.nextTime + dt),
          s.nextEventIdx⟩) := by
  by_cases h1 : s.nextEventIdx < eventTimes.length ∧
      eventTimes.getD s.nextEventIdx 0 ≤ fl (s.nextTime + dt)
  · by_cases h2 : finalTime ≤ eventTimes.getD s.nextEventIdx 0
    · left
      refine ⟨h1, h2, ?_⟩
      simp only [gridLoopBodyRounded, ge_iff_le, if_pos h1, if_pos h2]
    · right; left
      refine ⟨h1, lt_of_not_ge h2, ?_⟩
      simp only [gridLoopBodyRounded, ge_iff_le, if_pos h1, if_neg h2]
  · by_cases h2 : finalTime ≤ fl (s.nextTime + dt)
    · right; right; left
      refine ⟨h1, h2, ?_⟩
      simp only [gridLoopBodyRounded, ge_iff_le, if_neg h1, if_pos h2]
    · right; right; right
      refine ⟨h1, lt_of_not_ge h2, ?_⟩
      simp only [gridLoopBodyRounded, ge_iff_le, if_neg h1, if_neg h2]

/-- Loop-invariant rule for `gridLoopRounded`: a predicate that holds initially and is
preserved by every pass whose loop condition is true holds for the final state. -/
theorem gridLoopRounded_invariant (fl : ℚ → ℚ) (finalTime dt : ℚ) (eventTimes : List ℚ)
    (eventDelta : ℚ) (P : GridLoopState → Prop)
    (hstep : ∀ s, P s → back s.timeDiscretization < finalTime →
      P (gridLoopBodyRounded fl finalTime dt eventTimes eventDelta s)) :
    ∀ (fuel : Nat) (s : GridLoopState) (grid : List ℚ), P s →
      gridLoopRounded fl finalTime dt eventTimes eventDelta fuel s = some grid →
      ∃ s1, P s1 ∧ s1.timeDiscretization = grid ∧ ¬ back grid < finalTime := by
  intro fuel
  induction fuel with
  | zero => intro s grid _ h; simp [gridLoopRounded] at h
  | succ n ih =>
    intro s grid hP h
    rw [gridLoopRounded] at h
    split_ifs at h with hb
    · exact ih _ grid (hstep s hP hb) h
    · simp only [Option.some.injEq] at h
      exact ⟨s, hP, h, by rw [← h]; exact hb⟩

/-- More passes do not change a result already reached. -/
theorem gridLoopRounded_fuel_mono (fl : ℚ → ℚ) (finalTime dt : ℚ) (eventTimes : List ℚ)
    (eventDelta : ℚ) :
    ∀ (fuel k : Nat) (s : GridLoopState) (grid : List ℚ),
      gridLoopRounded fl finalTime dt eventTimes eventDelta fuel s = some grid →
      gridLoopRounded fl finalTime dt eventTimes eventDelta (fuel + k) s = some grid := by
  intro fuel
  induction fuel with
  | zero => intro k s grid h; simp [gridLoopRounded] at h
  | succ n ih =>
    intro k s grid h
    rw [show n + 1 + k = (n + k) + 1 by omega, gridLoopRounded]
    rw [gridLoopRounded] at h
    split_ifs at h with hb
    · rw [if_pos hb]; exact ih k _ grid h
    · rw [if_neg hb]; exact h

theorem stepsToFinal_anti (finalTime δ : ℚ) (hδ : 0 < δ) {t t1 : ℚ} (h : t ≤ t1) :
    stepsToFinal finalTime δ t1 ≤ stepsToFinal finalTime δ t := by
  unfold stepsToFinal
  apply Nat.ceil_mono
  apply div_le_div_of_nonneg_right _ (le_of_lt hδ)
  linarith

/-- Termination of the rounded loop: when every rounded sum `nextTime + dt` formed at a time
in `[lo, finalTime)` exceeds `nextTime` by at least `δ > 0`, and no event time still to come
is below `lo`, the loop ends within `gridMeasure` passes. -/
theorem gridLoopRounded_terminates (fl : ℚ → ℚ) (finalTime dt : ℚ) (eventTimes : List ℚ)
    (eventDelta lo δ : ℚ) (hδ : 0 < δ)
    (hprog : ∀ t, lo ≤ t → t < finalTime → t + δ ≤ fl (t + dt)) :
    ∀ (fuel : Nat) (s : GridLoopState),
      (back s.timeDiscretization < finalTime → s.nextTime < finalTime) →
      lo ≤ s.nextTime →
      (∀ j, s.nextEventIdx ≤ j → j < eventTimes.length → lo ≤ eventTimes.getD j 0) →
      gridMeasure finalTime δ eventTimes s < fuel →
      ∃ grid, gridLoopRounded fl finalTime dt eventTimes eventDelta fuel s = some grid := by
  intro fuel
  induction fuel with
  | zero => intro s _ _ _ h; omega
  | succ n ih =>
    intro s hI hlo hev hm
    rw [gridLoopRounded]
    split_ifs with hb
    · have hnt := hI hb
      have hpos := stepsToFinal_pos hδ hnt
      have h0 : stepsToFinal finalTime δ finalTime = 0 := by simp [stepsToFinal]
      have hlt : lo ≤ finalTime := le_of_lt (lt_of_le_of_lt hlo hnt)
      unfold gridMeasure at hm
      rcases gridLoopBodyRounded_cases fl finalTime dt eventTimes eventDelta s with
        ⟨h1, h2, he⟩ | ⟨h1, h2, he⟩ | ⟨h1, h2, he⟩ | ⟨h1, h2, he⟩
      · rw [he]
        apply ih
        · simp [back_concat]
        · exact hlt
        · intro j hj1 hj2; exact hev j (by simp only at hj1; omega) hj2
        · have := drop_sum_step (fun e => stepsToFinal finalTime δ e + 2) eventTimes _ h1.1
          simp only [gridMeasure, h0] at this ⊢
          omega
      · rw [he]
        apply ih
        · intro _; exact h2
        · exact hev _ (le_refl _) h1.1
        · intro j hj1 hj2; exact hev j (by simp only at hj1; omega) hj2
        · have := drop_sum_step (fun e => stepsToFinal finalTime δ e + 2) eventTimes _ h1.1
          simp only [gridMeasure] at this ⊢
          omega
      · rw [he]
        apply ih
        · simp [back_concat]
        · exact hlt
        · exact hev
        · simp only [gridMeasure, h0]
          omega
      · rw [he]
        have hp := hprog s.nextTime hlo hnt
        apply ih
        · intro _; exact h2
        · simp only; linarith
        · exact hev
        · have h3 := stepsToFinal_step hδ (lt_of_le_of_lt hp h2)
          have h4 := stepsToFinal_anti finalTime δ hδ hp
          simp only [gridMeasure]
          omega
    · exact ⟨_, rfl⟩

/-- On input that passes the assertions the rounded grid builder is its loop, whether the
assertions are compiled in or not. -/
theorem timeDiscretizationWithEventsRounded_valid (fl : ℚ → ℚ) (assertsEnabled : Bool)
    (fuel : Nat) (initTime finalTime dt : ℚ) (eventTimes : List ℚ) (eventDelta : ℚ)
    (hdt : 0 < dt) (hT : initTime < finalTime) :
    timeDiscretizationWithEventsRounded fl assertsEnabled fuel initTime finalTime dt eventTimes
        eventDelta =
      match gridLoopRounded fl finalTime dt eventTimes eventDelta fuel
          ⟨[initTime], initTime, findIndexInTimeArray eventTimes initTime⟩ with
      | some grid => .ok grid
      | none => .error .fuelExhausted := by
  unfold timeDiscretizationWithEventsRounded
  rw [if_neg (by simp [hdt]), if_neg (by simp [hT])]

/-- With enough progress of the rounded sums the rounded grid builder hands back a grid: the
same one for every number of passes allowed from `gridFuel` on. -/
theorem timeDiscretizationWithEventsRounded_ok (fl : ℚ → ℚ) (initTime finalTime dt : ℚ)
    (eventTimes : List ℚ) (eventDelta lo δ : ℚ) (hdt : 0 < dt) (hT : initTime < finalTime)
    (hlo : lo ≤ initTime)
    (hev : ∀ j, findIndexInTimeArray eventTimes initTime ≤ j → j < eventTimes.length →
      lo ≤ eventTimes.getD j 0)
    (hδ : 0 < δ) (hprog : ∀ t, lo ≤ t → t < finalTime → t + δ ≤ fl (t + dt)) :
    ∃ grid,
      gridLoopRounded fl finalTime dt eventTimes eventDelta
        (gridFuel initTime finalTime δ eventTimes)
        ⟨[initTime], initTime, findIndexInTimeArray eventTimes initTime⟩ = some grid ∧
      ∀ fuel assertsEnabled, gridFuel initTime finalTime δ eventTimes ≤ fuel →
        timeDiscretizationWithEventsRounded fl assertsEnabled fuel initTime finalTime dt
          eventTimes eventDelta = .ok grid := by
  obtain ⟨grid, hg⟩ := gridLoopRounded_terminates fl finalTime dt eventTimes eventDelta lo δ hδ
    hprog (gridFuel initTime finalTime δ eventTimes)
    ⟨[initTime], initTime, findIndexInTimeArray eventTimes initTime⟩ (fun _ => hT) hlo hev (by
      have := drop_sum_le (fun e => stepsToFinal finalTime δ e + 2) eventTimes
        (findIndexInTimeArray eventTimes initTime)
      simp only [gridMeasure, gridFuel]
      omega)
  refine ⟨grid, hg, ?_⟩
  intro fuel assertsEnabled hfuel
  obtain ⟨k, rfl⟩ := Nat.exists_eq_add_of_le hfuel
  rw [timeDiscretizationWithEventsRounded_valid fl assertsEnabled _ initTime finalTime dt
    eventTimes eventDelta hdt hT,
    gridLoopRounded_fuel_mono fl finalTime dt eventTimes eventDelta _ k _ grid hg]

/-- Loop-invariant rule for the rounded grid builder: with enough progress of the rounded
sums a grid is handed back, and a predicate that holds for the initial loop state and is
preserved by every pass holds for a state carrying that grid. -/
theorem timeDiscretizationWithEventsRounded_invariant (fl : ℚ → ℚ)
    (initTime finalTime dt : ℚ) (eventTimes : List ℚ) (eventDelta lo δ : ℚ) (hdt : 0 < dt)
    (hT : initTime < finalTime) (hlo : lo ≤ initTime)
    (hev : ∀ j, findIndexInTimeArray eventTimes initTime ≤ j → j < eventTimes.length →
      lo ≤ eventTimes.getD j 0)
    (hδ : 0 < δ) (hprog : ∀ t, lo ≤ t → t < finalTime → t + δ ≤ fl (t + dt))
    (P : GridLoopState → Prop)
    (h0 : P ⟨[initTime], initTime, findIndexInTimeArray eventTimes initTime⟩)
    (hstep : ∀ s, P s → back s.timeDiscretization < finalTime →
      P (gridLoopBodyRounded fl finalTime dt eventTimes eventDelta s)) :
    ∃ s1,
      (∀ fuel assertsEnabled, gridFuel initTime finalTime δ eventTimes ≤ fuel →
        timeDiscretizationWithEventsRounded fl assertsEnabled fuel initTime finalTime dt
          eventTimes eventDelta = .ok s1.timeDiscretization) ∧
      P s1 ∧ ¬ back s1.timeDiscretization < finalTime := by
  obtain ⟨g, hg, hok⟩ := timeDiscretizationWithEventsRounded_ok fl initTime finalTime dt
    eventTimes eventDelta lo δ hdt hT hlo hev hδ hprog
  obtain ⟨s1, hP, hs1, hb⟩ :=
    gridLoopRounded_invariant fl finalTime dt eventTimes eventDelta P hstep _ _ g h0 hg
  refine ⟨s1, ?_, hP, by rw [hs1]; exact hb⟩
  rw [hs1]
  exact hok

/-- Entries of a sorted event array from the looked-up index on are not before `time`. -/
theorem findIndexInTimeArray_sorted_ge (l : List ℚ) (hs : l.Sorted (· ≤ ·)) (t : ℚ) (j : Nat)
    (h1 : findIndexInTimeArray l t ≤ j) (h2 : j < l.length) : t ≤ l.getD j 0 :=
  le_trans (findIndexInTimeArray_at l t (by omega))
    (sorted_le_getD l hs (findIndexInTimeArray l t) j h1 h2)

/-- A rounded sum that gives back `nextTime` stalls the loop: once `fl (t + dt) = t` at the
last grid point `t < finalTime`, with no event left, no number of passes ends the loop. -/
theorem gridLoopRounded_stalls (fl : ℚ → ℚ) (finalTime dt t : ℚ) (eventTimes : List ℚ)
    (eventDelta : ℚ) (hfl : fl (t + dt) = t) (ht : t < finalTime) :
    ∀ (fuel : Nat) (s : GridLoopState), s.nextTime = t → back s.timeDiscretization = t →
      eventTimes.length ≤ s.nextEventIdx →
      gridLoopRounded fl finalTime dt eventTimes eventDelta fuel s = none := by
  intro fuel
  induction fuel with
  | zero => intro s _ _ _; rfl
  | succ n ih =>
    intro s h1 h2 h3
    rw [gridLoopRounded, if_pos (by rw [h2]; exact ht)]
    rcases gridLoopBodyRounded_cases fl finalTime dt eventTimes eventDelta s with
      ⟨k1, _, _⟩ | ⟨k1, _, _⟩ | ⟨_, k2, _⟩ | ⟨_, _, he⟩
    · omega
    · omega
    · rw [h1, hfl] at k2
      exact absurd ht (not_lt.mpr k2)
    · rw [he]
      apply ih
      · simp only; rw [h1, hfl]
      · rw [back_concat, h1, hfl]
      · exact h3

/-- The double sum of `2 ^ 53` and `1` is `2 ^ 53`: the exact sum lies half way between the
doubles `2 ^ 53` and `2 ^ 53 + 2`, and the tie goes to the even significand. -/
theorem roundDouble_two_pow_53_add_one : roundDouble (2 ^ 53 + 1) = 2 ^ 53 := by
  rw [roundDouble_eval (2 ^ 53 + 1) 2 53 (2 ^ 52) (by norm_num) (by norm_num) (by norm_num)
    (by norm_num) (roundHalfEven_tie_even _ _ (by norm_num) (by norm_num))]
  norm_num

/-- For `initTime = 2 ^ 53`, `finalTime = 2 ^ 53 + 4`, `dt = 1` and no events the rounded grid
builder in `double` arithmetic runs out of every fuel, with the assertions compiled in or
not. -/
theorem timeDiscretizationWithEventsRounded_stalls (fuel : Nat) (assertsEnabled : Bool) :
    timeDiscretizationWithEventsRounded roundDouble assertsEnabled fuel (2 ^ 53) (2 ^ 53 + 4) 1
      [] (1 / 2 ^ 52) = .error .fuelExhausted := by
  rw [timeDiscretizationWithEventsRounded_valid roundDouble assertsEnabled fuel _ _ _ _ _
    (by norm_num) (by norm_num),
    gridLoopRounded_stalls roundDouble (2 ^ 53 + 4) 1 (2 ^ 53) [] (1 / 2 ^ 52)
      roundDouble_two_pow_53_add_one (by norm_num) fuel _ rfl (back_singleton _) (by simp)]

/-- Any run of the rounded loop that finishes gives the grid handed back by the rounded grid
builder, for every larger number of passes allowed. -/
theorem timeDiscretizationWithEventsRounded_of_loop (fl : ℚ → ℚ) (initTime finalTime dt : ℚ)
    (eventTimes : List ℚ) (eventDelta : ℚ) (hdt : 0 < dt) (hT : initTime < finalTime)
    (fuel0 : Nat) (grid : List ℚ)
    (h : gridLoopRounded fl finalTime dt eventTimes eventDelta fuel0
      ⟨[initTime], initTime, findIndexInTimeArray eventTimes initTime⟩ = some grid)
    (fuel : Nat) (assertsEnabled : Bool) (hfuel : fuel0 ≤ fuel) :
    timeDiscretizationWithEventsRounded fl assertsEnabled fuel initTime finalTime dt eventTimes
      eventDelta = .ok grid := by
  obtain ⟨k, rfl⟩ := Nat.exists_eq_add_of_le hfuel
  rw [timeDiscretizationWithEventsRounded_valid fl assertsEnabled _ initTime finalTime dt
    eventTimes eventDelta hdt hT,
    gridLoopRounded_fuel_mono fl finalTime dt eventTimes eventDelta _ k _ grid h]

/-- Two runs of the rounded grid builder that hand back a grid hand back the same grid. -/
theorem timeDiscretizationWithEventsRounded_unique (fl : ℚ → ℚ) (initTime finalTime dt : ℚ)
    (eventTimes : List ℚ) (eventDelta : ℚ) (a1 a2 : Bool) (f1 f2 : Nat) (g1 g2 : List ℚ)
    (h1 : timeDiscretizationWithEventsRounded fl a1 f1 initTime finalTime dt eventTimes
      eventDelta = .ok g1)
    (h2 : timeDiscretizationWithEventsRounded fl a2 f2 initTime finalTime dt eventTimes
      eventDelta = .ok g2) : g1 = g2 := by
  unfold timeDiscretizationWithEventsRounded at h1 h2
  split_ifs at h1 h2
  all_goals
    cases k1 : gridLoopRounded fl finalTime dt eventTimes eventDelta f1
      ⟨[initTime], initTime, findIndexInTimeArray eventTimes initTime⟩ with
    | none => rw [k1] at h1; cases h1
    | some r1 =>
      cases k2 : gridLoopRounded fl finalTime dt eventTimes eventDelta f2
        ⟨[initTime], initTime, findIndexInTimeArray eventTimes initTime⟩ with
      | none => rw [k2] at h2; cases h2
      | some r2 =>
        rw [k1] at h1
        rw [k2] at h2
        have e1 := gridLoopRounded_fuel_mono fl finalTime dt eventTimes eventDelta f1 f2 _ r1 k1
        have e2 := gridLoopRounded_fuel_mono fl finalTime dt eventTimes eventDelta f2 f1 _ r2 k2
        rw [Nat.add_comm] at e2
        rw [e1] at e2
        cases h1
        cases h2
        exact Option.some.inj e2

/-! ## C14: termination of the grid loop -/

/-- C14 (counterexample): in `double` arithmetic the loop of `timeDiscretizationWithEvents`
does not terminate for `initTime = 2 ^ 53 < finalTime = 2 ^ 53 + 4`, `dt = 1 > 0`, no events
and `eventDelta = 2 ^ (-52) > 0`. The double sum of `nextTime = 2 ^ 53` and `dt` is `2 ^ 53`
again, so every pass appends `2 ^ 53` and leaves the loop variables as they were: after `n`
passes the grid is `n + 1` copies of `2 ^ 53`, and the call returns for no bound on the
number of passes. -/
theorem timeDiscretizationWithEventsRounded_never_terminates :
    (2 ^ 53 : ℚ) < 2 ^ 53 + 4 ∧ (0 : ℚ) < 1 ∧ (0 : ℚ) < 1 / 2 ^ 52 ∧
    roundDouble (2 ^ 53 + 1) = 2 ^ 53 ∧
    (∀ n : Nat, (gridLoopBodyRounded roundDouble (2 ^ 53 + 4) 1 [] (1 / 2 ^ 52))^[n]
        ⟨[2 ^ 53], 2 ^ 53, findIndexInTimeArray [] (2 ^ 53)⟩ =
      ⟨List.replicate (n + 1) (2 ^ 53), 2 ^ 53, 0⟩) ∧
    ∀ fuel assertsEnabled,
      timeDiscretizationWithEventsRounded roundDouble assertsEnabled fuel (2 ^ 53) (2 ^ 53 + 4) 1
        [] (1 / 2 ^ 52) = .error .fuelExhausted := by
  refine ⟨by norm_num, by norm_num, by norm_num, roundDouble_two_pow_53_add_one, ?_,
    fun fuel a => timeDiscretizationWithEventsRounded_stalls fuel a⟩
  intro n
  induction n with
  | zero => rfl
  | succ k ih =>
    rw [Function.iterate_succ_apply', ih]
    simp only [gridLoopBodyRounded, roundDouble_two_pow_53_add_one, List.length_nil,
      Nat.not_lt_zero, false_and, if_false]
    rw [if_neg (by norm_num), List.replicate_succ' (k + 1)]

/-- C14 (amended): for `initTime < finalTime`, `dt > 0`, any event times and any `eventDelta`,
the loop of `timeDiscretizationWithEvents` terminates whenever the sums `nextTime + dt`, as
the arithmetic of `scalar_t` rounds them, advance by at least some fixed `δ > 0` from every
time in `[lo, finalTime)`, where `lo` is a lower bound of `initTime` and of the event times
(`δ = dt` in exact arithmetic). The loop then ends within `gridFuel` evaluations of its
condition and the grid is handed back, with the assertions compiled in or not, and the loop
stops as soon as the last appended value is no longer below `finalTime`: the last element of
the grid is not below `finalTime`, every element before it is. -/
theorem timeDiscretizationWithEventsRounded_terminates (fl : ℚ → ℚ)
    (initTime finalTime dt : ℚ) (eventTimes : List ℚ) (eventDelta lo δ : ℚ)
    (hT : initTime < finalTime) (hdt : 0 < dt) (hlo : lo ≤ initTime)
    (hev : ∀ e ∈ eventTimes, lo ≤ e) (hδ : 0 < δ)
    (hprog : ∀ t, lo ≤ t → t < finalTime → t + δ ≤ fl (t + dt)) :
    ∃ grid,
      (∀ fuel assertsEnabled, gridFuel initTime finalTime δ eventTimes ≤ fuel →
        timeDiscretizationWithEventsRounded fl assertsEnabled fuel initTime finalTime dt
          eventTimes eventDelta = .ok grid) ∧
      (∀ a ∈ grid.dropLast, a < finalTime) ∧
      ∃ last, grid.getLast? = some last ∧ finalTime ≤ last := by
  obtain ⟨s1, hok, ⟨hne, hP⟩, hb⟩ := timeDiscretizationWithEventsRounded_invariant fl initTime
    finalTime dt eventTimes eventDelta lo δ hdt hT hlo
    (by
      intro j _ hj
      rw [List.getD_eq_getElem eventTimes 0 hj]
      exact hev _ (List.getElem_mem _))
    hδ hprog
    (fun s => s.timeDiscretization ≠ [] ∧ ∀ a ∈ s.timeDiscretization.dropLast, a < finalTime)
    ⟨by simp, by simp⟩
    (by
      rintro s ⟨hne, hP⟩ hb
      have key : ∀ b, (s.timeDiscretization ++ [b]) ≠ [] ∧
          ∀ a ∈ (s.timeDiscretization ++ [b]).dropLast, a < finalTime := by
        intro b
        refine ⟨by simp, ?_⟩
        intro a ha
        rw [List.dropLast_concat] at ha
        rcases mem_dropLast_or_back _ hne a ha with h | h
        · exact hP a h
        · rw [h]; exact hb
      rcases gridLoopBodyRounded_cases fl finalTime dt eventTimes eventDelta s with
        ⟨_, _, he⟩ | ⟨_, _, he⟩ | ⟨_, _, he⟩ | ⟨_, _, he⟩ <;>
      · rw [he]
        exact key _)
  exact ⟨_, hok, hP, back s1.timeDiscretization, getLast?_eq_back _ hne, not_lt.mp hb⟩

/-- In `double` arithmetic on `[0, 1]` with `dt = 1/2`, the event `1/4` and
`eventDelta = 2 ^ (-52)` every rounded step advances by at least `1/4`, and the loop
terminates. -/
theorem timeDiscretizationWithEventsRounded_terminates_witness :
    (∀ t : ℚ, 0 ≤ t → t < 1 → t + 1 / 4 ≤ roundDouble (t + 1 / 2)) ∧
    ∃ grid,
      (∀ fuel assertsEnabled, gridFuel 0 1 (1 / 4) [1 / 4] ≤ fuel →
        timeDiscretizationWithEventsRounded roundDouble assertsEnabled fuel 0 1 (1 / 2)
          [1 / 4] (1 / 2 ^ 52) = .ok grid) ∧
      (∀ a ∈ grid.dropLast, a < 1) ∧
      ∃ last, grid.getLast? = some last ∧ (1 : ℚ) ≤ last := by
  have hprog : ∀ t : ℚ, 0 ≤ t → t < 1 → t + 1 / 4 ≤ roundDouble (t + 1 / 2) := by
    intro t h0 h1
    have := roundDouble_progress t (1 / 2) 2 (by rw [abs_le]; constructor <;> linarith)
      (by norm_num) (by norm_num)
    linarith
  exact ⟨hprog, timeDiscretizationWithEventsRounded_terminates roundDouble 0 1 (1 / 2) [1 / 4]
    (1 / 2 ^ 52) 0 (1 / 4) (by norm_num) (by norm_num) (le_refl _)
    (by intro e he; rw [List.mem_singleton] at he; rw [he]; norm_num) (by norm_num) hprog⟩

/-! ## C5: precondition violations -/

/-- C5 (counterexample): two inputs on which the claim fails. For `initTime = 2 ^ 53`,
`finalTime = 2 ^ 53 + 4`, `dt = 1` neither `dt <= 0` nor `finalTime <= initTime` holds and no
assertion fails, yet in `double` arithmetic no grid is handed back: the loop never ends. For
`initTime = 1`, `finalTime = 0` we have `finalTime <= initTime`, yet with the assertions
compiled out (`NDEBUG`) nothing fails and the grid `{initTime}` is handed back. -/
theorem timeDiscretizationWithEventsRounded_no_violation_no_grid :
    (¬ ((1 : ℚ) ≤ 0 ∨ (2 ^ 53 + 4 : ℚ) ≤ 2 ^ 53) ∧
      ∀ fuel, timeDiscretizationWithEventsRounded roundDouble true fuel (2 ^ 53) (2 ^ 53 + 4) 1
        [] (1 / 2 ^ 52) = .error .fuelExhausted) ∧
    ((0 : ℚ) ≤ 1 ∧
      ∀ fuel, timeDiscretizationWithEventsRounded roundDouble false (fuel + 1) 1 0 (1 / 2)
        [] (1 / 2 ^ 52) = .ok [1]) := by
  refine ⟨⟨by norm_num, fun fuel => timeDiscretizationWithEventsRounded_stalls fuel true⟩,
    by norm_num, ?_⟩
  intro fuel
  unfold timeDiscretizationWithEventsRounded
  rw [if_neg (by simp), if_neg (by simp), gridLoopRounded,
    if_neg (by rw [back_singleton]; norm_num)]

/-- C5 (amended): with the assertions compiled in, `timeDiscretizationWithEvents` fails with
a precondition violation, producing no grid, exactly when `dt <= 0` or
`finalTime <= initTime`; with the assertions compiled out (`NDEBUG`) it never fails, and for
`finalTime <= initTime` it hands back the grid `{initTime}`. On every other input it hands
back a grid provided the loop terminates, which it does when the rounded sums
`nextTime + dt` advance by at least some fixed `δ > 0` from every time in `[lo, finalTime)`,
for a lower bound `lo` of `initTime` and of the event times. -/
theorem timeDiscretizationWithEventsRounded_fails_iff (fl : ℚ → ℚ) (initTime finalTime dt : ℚ)
    (eventTimes : List ℚ) (eventDelta : ℚ) :
    (∀ fuel, timeDiscretizationWithEventsRounded fl true fuel initTime finalTime dt eventTimes
        eventDelta = .error .preconditionViolation ↔ (dt ≤ 0 ∨ finalTime ≤ initTime)) ∧
    (∀ fuel, timeDiscretizationWithEventsRounded fl false fuel initTime finalTime dt eventTimes
        eventDelta ≠ .error .preconditionViolation) ∧
    (finalTime ≤ initTime →
      ∀ fuel, timeDiscretizationWithEventsRounded fl false (fuel + 1) initTime finalTime dt
        eventTimes eventDelta = .ok [initTime]) ∧
    (¬ (dt ≤ 0 ∨ finalTime ≤ initTime) →
      ∀ lo δ, lo ≤ initTime → (∀ e ∈ eventTimes, lo ≤ e) → 0 < δ →
        (∀ t, lo ≤ t → t < finalTime → t + δ ≤ fl (t + dt)) →
        ∃ grid, ∀ fuel assertsEnabled, gridFuel initTime finalTime δ eventTimes ≤ fuel →
          timeDiscretizationWithEventsRounded fl assertsEnabled fuel initTime finalTime dt
            eventTimes eventDelta = .ok grid) := by
  refine ⟨?_, ?_, ?_, ?_⟩
  · intro fuel
    constructor
    · intro h
      by_contra hv
      push_neg at hv
      rw [timeDiscretizationWithEventsRounded_valid fl true fuel initTime finalTime dt
        eventTimes eventDelta hv.1 hv.2] at h
      cases k : gridLoopRounded fl finalTime dt eventTimes eventDelta fuel
        ⟨[initTime], initTime, findIndexInTimeArray eventTimes initTime⟩ with
      | none => rw [k] at h; cases h
      | some g => rw [k] at h; cases h
    · intro h
      unfold timeDiscretizationWithEventsRounded
      by_cases hd : dt > 0
      · have hT : ¬ finalTime > initTime := by
          rcases h with h | h
          · exact absurd hd (not_lt.mpr h)
          · exact not_lt.mpr h
        rw [if_neg (by simp [hd]), if_pos ⟨rfl, hT⟩]
      · rw [if_pos ⟨rfl, hd⟩]
  · intro fuel h
    unfold timeDiscretizationWithEventsRounded at h
    rw [if_neg (by simp), if_neg (by simp)] at h
    cases k : gridLoopRounded fl finalTime dt eventTimes eventDelta fuel
      ⟨[initTime], initTime, findIndexInTimeArray eventTimes initTime⟩ with
    | none => rw [k] at h; cases h
    | some g => rw [k] at h; cases h
  · intro h fuel
    unfold timeDiscretizationWithEventsRounded
    rw [if_neg (by simp), if_neg (by simp), gridLoopRounded,
      if_neg (by rw [back_singleton]; exact not_lt.mpr h)]
  · intro h lo δ hlo hev hδ hprog
    push_neg at h
    obtain ⟨g, -, hok⟩ := timeDiscretizationWithEventsRounded_ok fl initTime finalTime dt
      eventTimes eventDelta lo δ h.1 h.2 hlo
      (by
        intro j _ hj
        rw [List.getD_eq_getElem eventTimes 0 hj]
        exact hev _ (List.getElem_mem _))
      hδ hprog
    exact ⟨g, hok⟩

/-- In `double` arithmetic the input `[0, 1]`, `dt = 1/2`, event `1/4` passes both assertions,
every rounded step advances by at least `1/4`, and a grid is handed back. -/
theorem timeDiscretizationWithEventsRounded_fails_iff_witness :
    ¬ ((1 / 2 : ℚ) ≤ 0 ∨ (1 : ℚ) ≤ 0) ∧
    (∀ t : ℚ, 0 ≤ t → t < 1 → t + 1 / 4 ≤ roundDouble (t + 1 / 2)) ∧
    ∃ grid, ∀ fuel assertsEnabled, gridFuel 0 1 (1 / 4) [1 / 4] ≤ fuel →
      timeDiscretizationWithEventsRounded roundDouble assertsEnabled fuel 0 1 (1 / 2)
        [1 / 4] (1 / 2 ^ 52) = .ok grid := by
  have hprog : ∀ t : ℚ, 0 ≤ t → t < 1 → t + 1 / 4 ≤ roundDouble (t + 1 / 2) := by
    intro t h0 h1
    have := roundDouble_progress t (1 / 2) 2 (by rw [abs_le]; constructor <;> linarith)
      (by norm_num) (by norm_num)
    linarith
  exact ⟨by norm_num, hprog,
    (timeDiscretizationWithEventsRounded_fails_iff roundDouble 0 1 (1 / 2) [1 / 4]
      (1 / 2 ^ 52)).2.2.2 (by norm_num) 0 (1 / 4) (le_refl _)
      (by intro e he; rw [List.mem_singleton] at he; rw [he]; norm_num) (by norm_num) hprog⟩

/-! ## C2: the grid is strictly increasing -/

/-- C2 (counterexample): two valid inputs, in `double` arithmetic, on which the grid is not
strictly increasing. For `initTime = 0 < finalTime = 1`, `dt = 1/4`, the single event time
`1/8` and `eventDelta = 1/2` (all of them doubles, every sum exact) the grid is
`{0, 5/8, 3/8, 5/8, 7/8, 1}`: the point `1/8 + 1/2` placed after the event is followed by
the smaller point `1/8 + 1/4`. For `initTime = 13/4 < finalTime = 5`, `dt = 1`, the single
event time `13/4` and `eventDelta = 2 ^ (-52) < dt` the double sum of `13/4` and
`eventDelta` is `13/4`, and the grid `{13/4, 13/4, 17/4, 5}` starts with `initTime` twice. -/
theorem timeDiscretizationWithEventsRounded_not_increasing :
    ((0 : ℚ) < 1 ∧ (0 : ℚ) < 1 / 4 ∧ ([1 / 8] : List ℚ).Sorted (· < ·) ∧ (0 : ℚ) < 1 / 2 ∧
      ∃ grid,
        (∀ fuel assertsEnabled, 6 ≤ fuel →
          timeDiscretizationWithEventsRounded roundDouble assertsEnabled fuel 0 1 (1 / 4)
            [1 / 8] (1 / 2) = .ok grid) ∧
        grid = [0, 5 / 8, 3 / 8, 5 / 8, 7 / 8, 1] ∧ ¬ grid.Chain' (· < ·)) ∧
    ((13 / 4 : ℚ) < 5 ∧ (0 : ℚ) < 1 ∧ ([13 / 4] : List ℚ).Sorted (· < ·) ∧
      (0 : ℚ) < 1 / 2 ^ 52 ∧ (1 / 2 ^ 52 : ℚ) < 1 ∧
      ∃ grid,
        (∀ fuel assertsEnabled, 4 ≤ fuel →
          timeDiscretizationWithEventsRounded roundDouble assertsEnabled fuel (13 / 4) 5 1
            [13 / 4] (1 / 2 ^ 52) = .ok grid) ∧
        grid = [13 / 4, 13 / 4, 17 / 4, 5] ∧ ¬ grid.Chain' (· < ·)) := by
  constructor
  · refine ⟨by norm_num, by norm_num, by simp [List.Sorted], by norm_num,
      [0, 5 / 8, 3 / 8, 5 / 8, 7 / 8, 1], ?_, rfl, by norm_num⟩
    have h1 := roundDouble_dyadic 1 2 (by norm_num) (by norm_num)
    have h2 := roundDouble_dyadic 5 3 (by norm_num) (by norm_num)
    have h3 := roundDouble_dyadic 3 3 (by norm_num) (by norm_num)
    have h4 := roundDouble_dyadic 7 3 (by norm_num) (by norm_num)
    have h5 := roundDouble_dyadic 9 3 (by norm_num) (by norm_num)
    norm_num at h1 h2 h3 h4 h5
    intro fuel assertsEnabled hfuel
    apply timeDiscretizationWithEventsRounded_of_loop roundDouble 0 1 (1 / 4) [1 / 8] (1 / 2)
      (by norm_num) (by norm_num) 6 _ _ fuel assertsEnabled hfuel
    norm_num [gridLoopRounded, gridLoopBodyRounded, back, findIndexInTimeArray, h1, h2, h3,
      h4, h5]
  · refine ⟨by norm_num, by norm_num, by simp [List.Sorted], by norm_num, by norm_num,
      [13 / 4, 13 / 4, 17 / 4, 5], ?_, rfl, by norm_num⟩
    have h1 := roundDouble_dyadic 17 2 (by norm_num) (by norm_num)
    have h2 := roundDouble_dyadic 21 2 (by norm_num) (by norm_num)
    have h3 := roundDouble_event_absorbed
    norm_num at h1 h2 h3
    intro fuel assertsEnabled hfuel
    apply timeDiscretizationWithEventsRounded_of_loop roundDouble (13 / 4) 5 1 [13 / 4]
      (1 / 2 ^ 52) (by norm_num) (by norm_num) 4 _ _ fuel assertsEnabled hfuel
    norm_num [gridLoopRounded, gridLoopBodyRounded, back, findIndexInTimeArray, h1, h2, h3]

/-- C2 (amended): for `initTime < finalTime`, `dt > 0` and strictly increasing event times the
grid handed back is strictly increasing, provided that in the arithmetic of `scalar_t`
(rounding `fl`) (i) every sum `nextTime + dt` formed at a time in `[initTime, finalTime)`
exceeds `nextTime` by at least some fixed `δ > 0`, (ii) for every event time `e` in
`[initTime, finalTime)` the point `e + eventDelta`, as rounded, is not below `e` and is
below the rounded `e + dt`, and lies above `e` if `e` is `initTime` itself, and (iii) the
rounded points `e + eventDelta` of two such event times are in the order of the event times.
In exact arithmetic (i)-(iii) hold for `0 < eventDelta < dt`. -/
theorem timeDiscretizationWithEventsRounded_strictly_increasing (fl : ℚ → ℚ)
    (initTime finalTime dt : ℚ) (eventTimes : List ℚ) (eventDelta δ : ℚ)
    (hT : initTime < finalTime) (hdt : 0 < dt) (hs : eventTimes.Sorted (· < ·)) (hδ : 0 < δ)
    (hprog : ∀ t, initTime ≤ t → t < finalTime → t + δ ≤ fl (t + dt))
    (hpoint : ∀ e ∈ eventTimes, initTime ≤ e → e < finalTime →
      e ≤ fl (e + eventDelta) ∧ fl (e + eventDelta) < fl (e + dt))
    (hinit : initTime ∈ eventTimes → initTime < fl (initTime + eventDelta))
    (horder : ∀ a ∈ eventTimes, ∀ b ∈ eventTimes, initTime ≤ a → a < b → b < finalTime →
      fl (a + eventDelta) < fl (b + eventDelta)) :
    ∃ grid,
      (∀ fuel assertsEnabled, gridFuel initTime finalTime δ eventTimes ≤ fuel →
        timeDiscretizationWithEventsRounded fl assertsEnabled fuel initTime finalTime dt
          eventTimes eventDelta = .ok grid) ∧
      grid.Chain' (· < ·) ∧ grid.Sorted (· < ·) := by
  have hsle : eventTimes.Sorted (· ≤ ·) := hs.imp le_of_lt
  obtain ⟨s1, hok, hP, -⟩ := timeDiscretizationWithEventsRounded_invariant fl initTime
    finalTime dt eventTimes eventDelta initTime δ hdt hT (le_refl _)
    (fun j h1 h2 => findIndexInTimeArray_sorted_ge eventTimes hsle initTime j h1 h2) hδ hprog
    (fun s => s.timeDiscretization.Sorted (· < ·) ∧
      (∀ a ∈ s.timeDiscretization, a ≤ back s.timeDiscretization) ∧
      initTime ≤ s.nextTime ∧
      ((back s.timeDiscretization = s.nextTime ∧
          (s.nextEventIdx < eventTimes.length →
            s.nextTime < eventTimes.getD s.nextEventIdx 0 ∨
            (s.nextTime = eventTimes.getD s.nextEventIdx 0 ∧ s.nextTime = initTime))) ∨
        (back s.timeDiscretization = fl (s.nextTime + eventDelta) ∧
          s.nextTime ∈ eventTimes ∧ s.nextTime < finalTime ∧
          (s.nextEventIdx < eventTimes.length →
            s.nextTime < eventTimes.getD s.nextEventIdx 0))))
    (by
      refine ⟨List.sorted_singleton _, ?_, le_refl _, Or.inl ⟨back_singleton _, ?_⟩⟩
      · intro a ha
        rw [List.mem_singleton] at ha
        rw [back_singleton, ha]
      · intro h
        rcases lt_or_eq_of_le (findIndexInTimeArray_at eventTimes initTime h) with k | k
        · exact Or.inl k
        · exact Or.inr ⟨k, rfl⟩)
    (by
      rintro s ⟨hsorted, hall, hinit0, hst⟩ hb
      have hnt : s.nextTime < finalTime := by
        rcases hst with ⟨h, -⟩ | ⟨-, -, h, -⟩
        · rw [← h]; exact hb
        · exact h
      have hle : s.nextEventIdx < eventTimes.length →
          s.nextTime ≤ eventTimes.getD s.nextEventIdx 0 := by
        rcases hst with ⟨-, h⟩ | ⟨-, -, -, h⟩
        · intro k
          rcases h k with k1 | ⟨k1, -⟩
          · exact le_of_lt k1
          · exact le_of_eq k1
        · exact fun k => le_of_lt (h k)
      rcases gridLoopBodyRounded_cases fl finalTime dt eventTimes eventDelta s with
        ⟨h1, h2, he⟩ | ⟨h1, h2, he⟩ | ⟨h1, h2, he⟩ | ⟨h1, h2, he⟩
      · rw [he]
        obtain ⟨k1, k2⟩ := sorted_concat s.timeDiscretization finalTime hsorted hall hb
        refine ⟨k1, k2, le_of_lt hT, Or.inl ⟨back_concat _ _, ?_⟩⟩
        intro h
        have := sorted_lt_getD_succ eventTimes hs s.nextEventIdx h
        left
        simp only
        linarith
      · have hmem : eventTimes.getD s.nextEventIdx 0 ∈ eventTimes := by
          rw [List.getD_eq_getElem eventTimes 0 h1.1]
          exact List.getElem_mem _
        have hie : initTime ≤ eventTimes.getD s.nextEventIdx 0 := le_trans hinit0 (hle h1.1)
        have hlt : back s.timeDiscretization <
            fl (eventTimes.getD s.nextEventIdx 0 + eventDelta) := by
          rcases hst with ⟨k1, k2⟩ | ⟨k1, k2, -, k4⟩
          · rw [k1]
            rcases k2 h1.1 with k3 | ⟨k3, k5⟩
            · exact lt_of_lt_of_le k3 (hpoint _ hmem hie h2).1
            · rw [← k3, k5]
              rw [← k3, k5] at hmem
              exact hinit hmem
          · rw [k1]
            exact horder _ k2 _ hmem hinit0 (k4 h1.1) h2
        rw [he]
        obtain ⟨k1, k2⟩ := sorted_concat s.timeDiscretization _ hsorted hall hlt
        refine ⟨k1, k2, hie, Or.inr ⟨back_concat _ _, hmem, h2, ?_⟩⟩
        intro h
        exact sorted_lt_getD_succ eventTimes hs s.nextEventIdx h
      · rw [he]
        obtain ⟨k1, k2⟩ := sorted_concat s.timeDiscretization finalTime hsorted hall hb
        refine ⟨k1, k2, le_of_lt hT, Or.inl ⟨back_concat _ _, ?_⟩⟩
        intro h
        have : fl (s.nextTime + dt) < eventTimes.getD s.nextEventIdx 0 := by
          by_contra hc
          exact h1 ⟨h, not_lt.mp hc⟩
        left
        simp only
        linarith
      · have hp := hprog s.nextTime hinit0 hnt
        have hlt : back s.timeDiscretization < fl (s.nextTime + dt) := by
          rcases hst with ⟨k1, -⟩ | ⟨k1, k2, k3, -⟩
          · rw [k1]; linarith
          · rw [k1]
            exact (hpoint _ k2 hinit0 k3).2
        rw [he]
        obtain ⟨k1, k2⟩ := sorted_concat s.timeDiscretization _ hsorted hall hlt
        refine ⟨k1, k2, by simp only; linarith, Or.inl ⟨back_concat _ _, ?_⟩⟩
        intro h
        have : fl (s.nextTime + dt) < eventTimes.getD s.nextEventIdx 0 := by
          by_contra hc
          exact h1 ⟨h, not_lt.mp hc⟩
        exact Or.inl this)
  exact ⟨s1.timeDiscretization, hok, List.Pairwise.chain' hP.1, hP.1⟩

/-- A strictly increasing grid in `double` arithmetic: `dt = 1`, events `1/4, 13/4` and
`eventDelta = 2 ^ (-52)` on `[0, 4]`. Every rounded step advances by at least `1/2`. The sum
`1/4 + 2 ^ (-52)` is a double; the double sum of `13/4` and `2 ^ (-52)` is `13/4`, so the
point of the second event lies on the event, and the grid
`{0, 1/4 + 2 ^ (-52), 5/4, 9/4, 13/4, 4}` increases all the same. -/
theorem timeDiscretizationWithEventsRounded_strictly_increasing_witness :
    (∀ t : ℚ, 0 ≤ t → t < 4 → t + 1 / 2 ≤ roundDouble (t + 1)) ∧
    roundDouble (1 / 4 + 1 / 2 ^ 52) = 1 / 4 + 1 / 2 ^ 52 ∧
    roundDouble (13 / 4 + 1 / 2 ^ 52) = 13 / 4 ∧
    roundDouble (1 / 4 + 1) = 5 / 4 ∧ roundDouble (13 / 4 + 1) = 17 / 4 ∧
    (0 : ℚ) ∉ ([1 / 4, 13 / 4] : List ℚ) ∧
    ∃ grid,
      (∀ fuel assertsEnabled, gridFuel 0 4 (1 / 2) [1 / 4, 13 / 4] ≤ fuel →
        timeDiscretizationWithEventsRounded roundDouble assertsEnabled fuel 0 4 1
          [1 / 4, 13 / 4] (1 / 2 ^ 52) = .ok grid) ∧
      grid.Chain' (· < ·) ∧ grid.Sorted (· < ·) := by
  have hprog : ∀ t : ℚ, 0 ≤ t → t < 4 → t + 1 / 2 ≤ roundDouble (t + 1) := by
    intro t h0 h1
    have := roundDouble_progress t 1 8 (by rw [abs_le]; constructor <;> linarith)
      (by norm_num) (by norm_num)
    linarith
  have h1 := roundDouble_dyadic (2 ^ 50 + 1) 52 (by norm_num) (by norm_num)
  have h3 := roundDouble_dyadic 5 2 (by norm_num) (by norm_num)
  have h4 := roundDouble_dyadic 17 2 (by norm_num) (by norm_num)
  have k1 : roundDouble (1 / 4 + 1 / 2 ^ 52) = 1 / 4 + 1 / 2 ^ 52 := by
    norm_num at h1 ⊢
    exact h1
  have k2 : roundDouble (13 / 4 + 1 / 2 ^ 52) = 13 / 4 := roundDouble_event_absorbed
  have k3 : roundDouble (1 / 4 + 1) = 5 / 4 := by
    norm_num at h3 ⊢
    exact h3
  have k4 : roundDouble (13 / 4 + 1) = 17 / 4 := by
    norm_num at h4 ⊢
    exact h4
  refine ⟨hprog, k1, k2, k3, k4, by norm_num,
    timeDiscretizationWithEventsRounded_strictly_increasing roundDouble
    0 4 1 [1 / 4, 13 / 4] (1 / 2 ^ 52) (1 / 2) (by norm_num) (by norm_num)
    (by simp [List.Sorted]; norm_num) (by norm_num) hprog ?_ ?_ ?_⟩
  · intro e he _ _
    simp only [List.mem_cons, List.mem_singleton, List.not_mem_nil, or_false] at he
    rcases he with rfl | rfl
    · rw [k1, k3]; norm_num
    · rw [k2, k4]; norm_num
  · intro h
    norm_num at h
  · intro a ha b hb _ hab _
    simp only [List.mem_cons, List.mem_singleton, List.not_mem_nil, or_false] at ha hb
    rcases ha with rfl | rfl <;> rcases hb with rfl | rfl
    · exact absurd hab (lt_irrefl _)
    · rw [k1, k2]; norm_num
    · norm_num at hab
    · exact absurd hab (lt_irrefl _)

/-! ## C3: events are represented in the grid -/

/-- C3 (counterexample): two valid inputs, in `double` arithmetic, on which an event time in
`[initTime, finalTime)` has no grid point `e + eventDelta`. On `[0, 4]` with `dt = 1`, the
event `13/4` and `eventDelta = 2 ^ (-52)` the double sum of `13/4` and `eventDelta` is `13/4`
itself, and the grid `{0, 1, 2, 3, 13/4, 4}` has its point on the event. On `[0, 1]` with
`dt = 1/2`, the events `3/4, 7/8` and `eventDelta = 1/4` (every sum exact) the grid is
`{0, 1/2, 1}`: the point `3/4 + 1/4` of the first event ends the loop, and the second event
has no point. -/
theorem timeDiscretizationWithEventsRounded_event_missing :
    (∃ grid,
      (∀ fuel assertsEnabled, 6 ≤ fuel →
        timeDiscretizationWithEventsRounded roundDouble assertsEnabled fuel 0 4 1 [13 / 4]
          (1 / 2 ^ 52) = .ok grid) ∧
      grid = [0, 1, 2, 3, 13 / 4, 4] ∧
      (13 / 4 : ℚ) ∈ ([13 / 4] : List ℚ) ∧ (0 : ℚ) ≤ 13 / 4 ∧ (13 / 4 : ℚ) < 4 ∧
      (13 / 4 + 1 / 2 ^ 52 : ℚ) ∉ grid) ∧
    (∃ grid,
      (∀ fuel assertsEnabled, 3 ≤ fuel →
        timeDiscretizationWithEventsRounded roundDouble assertsEnabled fuel 0 1 (1 / 2)
          [3 / 4, 7 / 8] (1 / 4) = .ok grid) ∧
      grid = [0, 1 / 2, 1] ∧ ([3 / 4, 7 / 8] : List ℚ).Sorted (· ≤ ·) ∧
      (7 / 8 : ℚ) ∈ ([3 / 4, 7 / 8] : List ℚ) ∧ (0 : ℚ) ≤ 7 / 8 ∧ (7 / 8 : ℚ) < 1 ∧
      (7 / 8 + 1 / 4 : ℚ) ∉ grid ∧ roundDouble (7 / 8 + 1 / 4) ∉ grid) := by
  have h1 := roundDouble_dyadic 1 0 (by norm_num) (by norm_num)
  have h2 := roundDouble_dyadic 2 0 (by norm_num) (by norm_num)
  have h3 := roundDouble_dyadic 3 0 (by norm_num) (by norm_num)
  have h4 := roundDouble_dyadic 4 0 (by norm_num) (by norm_num)
  have h5 := roundDouble_dyadic 17 2 (by norm_num) (by norm_num)
  have h6 := roundDouble_dyadic 1 1 (by norm_num) (by norm_num)
  have h7 := roundDouble_dyadic 9 3 (by norm_num) (by norm_num)
  have h8 := roundDouble_event_absorbed
  norm_num at h1 h2 h3 h4 h5 h6 h7 h8
  constructor
  · refine ⟨[0, 1, 2, 3, 13 / 4, 4], ?_, rfl, by simp, by norm_num, by norm_num, by norm_num⟩
    intro fuel assertsEnabled hfuel
    apply timeDiscretizationWithEventsRounded_of_loop roundDouble 0 4 1 [13 / 4] (1 / 2 ^ 52)
      (by norm_num) (by norm_num) 6 _ _ fuel assertsEnabled hfuel
    norm_num [gridLoopRounded, gridLoopBodyRounded, back, findIndexInTimeArray, h1, h2, h3, h4,
      h5, h8]
  · refine ⟨[0, 1 / 2, 1], ?_, rfl, by simp [List.Sorted]; norm_num, by simp, by norm_num,
      by norm_num, by norm_num, by norm_num [h7]⟩
    intro fuel assertsEnabled hfuel
    apply timeDiscretizationWithEventsRounded_of_loop roundDouble 0 1 (1 / 2) [3 / 4, 7 / 8]
      (1 / 4) (by norm_num) (by norm_num) 3 _ _ fuel assertsEnabled hfuel
    norm_num [gridLoopRounded, gridLoopBodyRounded, back, findIndexInTimeArray, h1, h6]

/-- C3 (amended): for `initTime < finalTime`, `dt > 0` and sorted event times, every event
time `e` of the array with `initTime <= e < finalTime` is represented in the grid by the sum
`e + eventDelta` as the arithmetic of `scalar_t` rounds it (rounding `fl`; the rounded sum
can be `e` itself), provided that this point is not beyond `finalTime`. This holds whenever
the rounded sums `nextTime + dt` advance by at least some fixed `δ > 0` from every time in
`[initTime, finalTime)` (so that the loop terminates) and the rounded points
`e + eventDelta` keep the order of the event times (as under any monotone rounding, that of
`double` being one). -/
theorem timeDiscretizationWithEventsRounded_events_represented (fl : ℚ → ℚ)
    (initTime finalTime dt : ℚ) (eventTimes : List ℚ) (eventDelta δ : ℚ)
    (hT : initTime < finalTime) (hdt : 0 < dt) (hs : eventTimes.Sorted (· ≤ ·)) (hδ : 0 < δ)
    (hprog : ∀ t, initTime ≤ t → t < finalTime → t + δ ≤ fl (t + dt))
    (horder : ∀ a ∈ eventTimes, ∀ b ∈ eventTimes, a ≤ b →
      fl (a + eventDelta) ≤ fl (b + eventDelta)) :
    ∃ grid,
      (∀ fuel assertsEnabled, gridFuel initTime finalTime δ eventTimes ≤ fuel →
        timeDiscretizationWithEventsRounded fl assertsEnabled fuel initTime finalTime dt
          eventTimes eventDelta = .ok grid) ∧
      ∀ e ∈ eventTimes, initTime ≤ e → e < finalTime → fl (e + eventDelta) ≤ finalTime →
        fl (e + eventDelta) ∈ grid := by
  obtain ⟨s1, hok, ⟨-, hK1, hK2⟩, hb⟩ := timeDiscretizationWithEventsRounded_invariant fl
    initTime finalTime dt eventTimes eventDelta initTime δ hdt hT (le_refl _)
    (fun j h1 h2 => findIndexInTimeArray_sorted_ge eventTimes hs initTime j h1 h2) hδ hprog
    (fun s => findIndexInTimeArray eventTimes initTime ≤ s.nextEventIdx ∧
      (∀ j, findIndexInTimeArray eventTimes initTime ≤ j → j < s.nextEventIdx →
        j < eventTimes.length → eventTimes.getD j 0 < finalTime →
        fl (eventTimes.getD j 0 + eventDelta) ∈ s.timeDiscretization) ∧
      (¬ back s.timeDiscretization < finalTime →
        (∀ j, s.nextEventIdx ≤ j → j < eventTimes.length → finalTime ≤ eventTimes.getD j 0) ∨
        (∃ k, findIndexInTimeArray eventTimes initTime ≤ k ∧ k < s.nextEventIdx ∧
          k < eventTimes.length ∧ eventTimes.getD k 0 < finalTime ∧
          finalTime ≤ fl (eventTimes.getD k 0 + eventDelta))))
    (by
      refine ⟨le_refl _, ?_, ?_⟩
      · intro j h1 h2; simp only at h2; omega
      · intro h; rw [back_singleton] at h; exact absurd hT h)
    (by
      rintro s ⟨hi, hK1, -⟩ hb
      rcases gridLoopBodyRounded_cases fl finalTime dt eventTimes eventDelta s with
        ⟨h1, h2, he⟩ | ⟨h1, h2, he⟩ | ⟨h1, h2, he⟩ | ⟨h1, h2, he⟩
      · rw [he]
        refine ⟨by simp only; omega, ?_, ?_⟩
        · intro j hj1 hj2 hj3 hj4
          simp only at hj2 ⊢
          rcases Nat.lt_or_eq_of_le (Nat.lt_succ_iff.mp hj2) with h | h
          · exact List.mem_append_left _ (hK1 j hj1 h hj3 hj4)
          · subst h; linarith
        · intro _
          left
          intro j hj1 hj2
          have := sorted_le_getD eventTimes hs s.nextEventIdx j (by simp only at hj1; omega) hj2
          linarith
      · rw [he]
        refine ⟨by simp only; omega, ?_, ?_⟩
        · intro j hj1 hj2 hj3 hj4
          simp only at hj2 ⊢
          rcases Nat.lt_or_eq_of_le (Nat.lt_succ_iff.mp hj2) with h | h
          · exact List.mem_append_left _ (hK1 j hj1 h hj3 hj4)
          · subst h; simp
        · intro hnb
          right
          simp only [back_concat] at hnb
          exact ⟨s.nextEventIdx, hi, by simp only; omega, h1.1, h2, not_lt.mp hnb⟩
      · rw [he]
        refine ⟨hi, ?_, ?_⟩
        · intro j hj1 hj2 hj3 hj4
          exact List.mem_append_left _ (hK1 j hj1 hj2 hj3 hj4)
        · intro _
          left
          intro j hj1 hj2
          simp only at hj1
          have h3 : fl (s.nextTime + dt) < eventTimes.getD s.nextEventIdx 0 := by
            by_contra hc
            exact h1 ⟨by omega, not_lt.mp hc⟩
          have := sorted_le_getD eventTimes hs s.nextEventIdx j hj1 hj2
          linarith
      · rw [he]
        refine ⟨hi, ?_, ?_⟩
        · intro j hj1 hj2 hj3 hj4
          exact List.mem_append_left _ (hK1 j hj1 hj2 hj3 hj4)
        · intro hnb
          simp only [back_concat] at hnb
          exact absurd h2 hnb)
  refine ⟨s1.timeDiscretization, hok, ?_⟩
  intro e he hie hef hpe
  obtain ⟨j, hj, hje⟩ := List.getElem_of_mem he
  have hjD : eventTimes.getD j 0 = e := by rw [List.getD_eq_getElem eventTimes 0 hj, hje]
  have hj0 : findIndexInTimeArray eventTimes initTime ≤ j := by
    by_contra hc
    have := findIndexInTimeArray_before eventTimes initTime j (by omega)
    rw [hjD] at this
    linarith
  have hlt : eventTimes.getD j 0 < finalTime := by rw [hjD]; exact hef
  by_cases hjs : j < s1.nextEventIdx
  · have := hK1 j hj0 hjs hj hlt
    rwa [hjD] at this
  · rcases hK2 hb with h | ⟨k, hk0, hk1, hk2, hk3, hk4⟩
    · have := h j (by omega) hj
      linarith
    · have hkj := sorted_le_getD eventTimes hs k j (by omega) hj
      rw [hjD] at hkj
      have hkmem : eventTimes.getD k 0 ∈ eventTimes := by
        rw [List.getD_eq_getElem eventTimes 0 hk2]
        exact List.getElem_mem _
      have hord := horder _ hkmem e he hkj
      have hkeq : fl (eventTimes.getD k 0 + eventDelta) = fl (e + eventDelta) :=
        le_antisymm hord (le_trans hpe hk4)
      have := hK1 k hk0 hk1 hk2 hk3
      rwa [hkeq] at this

/-- Both events are represented in `double` arithmetic: `dt = 1`, events `1/4, 13/4` and
`eventDelta = 2 ^ (-52)` on `[0, 4]`. The sum `1/4 + 2 ^ (-52)` is a double and is a grid
point; the double sum of `13/4` and `2 ^ (-52)` is `13/4`, and the event is represented by
the grid point `13/4`. -/
theorem timeDiscretizationWithEventsRounded_events_represented_witness :
    (∀ t : ℚ, 0 ≤ t → t < 4 → t + 1 / 2 ≤ roundDouble (t + 1)) ∧
    roundDouble (1 / 4 + 1 / 2 ^ 52) = 1 / 4 + 1 / 2 ^ 52 ∧
    roundDouble (13 / 4 + 1 / 2 ^ 52) = 13 / 4 ∧
    ∃ grid,
      (∀ fuel assertsEnabled, gridFuel 0 4 (1 / 2) [1 / 4, 13 / 4] ≤ fuel →
        timeDiscretizationWithEventsRounded roundDouble assertsEnabled fuel 0 4 1
          [1 / 4, 13 / 4] (1 / 2 ^ 52) = .ok grid) ∧
      (1 / 4 + 1 / 2 ^ 52 : ℚ) ∈ grid ∧ (13 / 4 : ℚ) ∈ grid := by
  have hprog : ∀ t : ℚ, 0 ≤ t → t < 4 → t + 1 / 2 ≤ roundDouble (t + 1) := by
    intro t h0 h1
    have := roundDouble_progress t 1 8 (by rw [abs_le]; constructor <;> linarith)
      (by norm_num) (by norm_num)
    linarith
  have h1 := roundDouble_dyadic (2 ^ 50 + 1) 52 (by norm_num) (by norm_num)
  have k1 : roundDouble (1 / 4 + 1 / 2 ^ 52) = 1 / 4 + 1 / 2 ^ 52 := by
    norm_num at h1 ⊢
    exact h1
  have k2 : roundDouble (13 / 4 + 1 / 2 ^ 52) = 13 / 4 := roundDouble_event_absorbed
  obtain ⟨grid, hok, hrep⟩ := timeDiscretizationWithEventsRounded_events_represented
    roundDouble 0 4 1 [1 / 4, 13 / 4] (1 / 2 ^ 52) (1 / 2) (by norm_num) (by norm_num)
    (by simp [List.Sorted]; norm_num) (by norm_num) hprog
    (fun a _ b _ hab => roundDouble_mono (by linarith))
  have r1 := hrep (1 / 4) (by simp) (by norm_num) (by norm_num) (by rw [k1]; norm_num)
  have r2 := hrep (13 / 4) (by simp) (by norm_num) (by norm_num) (by rw [k2]; norm_num)
  rw [k1] at r1
  rw [k2] at r2
  exact ⟨hprog, k1, k2, grid, hok, r1, r2⟩

/-! ## C20: gaps between consecutive grid points -/

/-- C20 (counterexample): two valid inputs, in `double` arithmetic, on which the claim fails.
On `[0, 1]` with no events and `dt` the double nearest to `1/10` the grid has 12 points, not
11: the rounded sums fall behind, the point of index 8 is `7205759403792793 / 2 ^ 53` (printed
`0.7999999999999999`), which is not `initTime + 8 * dt`, the point of index 10 is
`1 - 2 ^ (-53)`, still below `finalTime`, and the gap from the point of index 2 to the next
exceeds `dt`. On `[0, 4]` with `dt = 1`, `eventDelta = 1/8` and the unsorted event times
`2, 0` (every sum exact) the grid is `{0, 1, 17/8, 1/8, 1, 2, 3, 4}`, where two consecutive
points differ by `2`, more than `dt + eventDelta`. -/
theorem timeDiscretizationWithEventsRounded_gap_exceeds :
    (roundDouble (1 / 10) = 3602879701896397 / 36028797018963968 ∧
      ∃ grid,
        (∀ fuel assertsEnabled, 12 ≤ fuel →
          timeDiscretizationWithEventsRounded roundDouble assertsEnabled fuel 0 1
            (3602879701896397 / 36028797018963968) [] (1 / 2 ^ 52) = .ok grid) ∧
        grid.length = 12 ∧
        grid[8]? = some (7205759403792793 / 9007199254740992) ∧
        (7205759403792793 / 9007199254740992 : ℚ) ≠
          0 + 8 * (3602879701896397 / 36028797018963968) ∧
        grid[10]? = some (9007199254740991 / 9007199254740992) ∧
        ¬ grid.Chain' (fun a b => b - a ≤ 3602879701896397 / 36028797018963968)) ∧
    (∃ grid,
      (∀ fuel assertsEnabled, 8 ≤ fuel →
        timeDiscretizationWithEventsRounded roundDouble assertsEnabled fuel 0 4 1 [2, 0]
          (1 / 8) = .ok grid) ∧
      grid = [0, 1, 17 / 8, 1 / 8, 1, 2, 3, 4] ∧
      ¬ grid.Chain' (fun a b => |b - a| ≤ 1 + 1 / 8)) := by
  constructor
  · constructor
    · rw [roundDouble_eval (1 / 10) (1 / 72057594037927936) (-4) 7205759403792794
        (by norm_num) (by norm_num) (by norm_num [abs_of_pos]) (by norm_num [abs_of_pos])
        (roundHalfEven_eq_of_lt _ 7205759403792794 (by norm_num [abs_lt]))]
      norm_num
    · refine ⟨[0, 3602879701896397 / 36028797018963968, 3602879701896397 / 18014398509481984, 1351079888211149 / 4503599627370496, 3602879701896397 / 9007199254740992, 1 / 2, 5404319552844595 / 9007199254740992, 3152519739159347 / 4503599627370496, 7205759403792793 / 9007199254740992, 2026619832316723 / 2251799813685248, 9007199254740991 / 9007199254740992, 1], ?_, rfl, rfl, by norm_num, rfl, by norm_num⟩
      have k1 : roundDouble (3602879701896397 / 36028797018963968) = 3602879701896397 / 36028797018963968 := by
        rw [roundDouble_eval (3602879701896397 / 36028797018963968) (1 / 72057594037927936) (-4) (7205759403792794) (by norm_num) (by norm_num)
          (by norm_num [abs_of_pos]) (by norm_num [abs_of_pos])
          (roundHalfEven_eq_of_lt _ 7205759403792794 (by norm_num [abs_lt]))]
        norm_num
      have k2 : roundDouble (3602879701896397 / 18014398509481984) = 3602879701896397 / 18014398509481984 := by
        rw [roundDouble_eval (3602879701896397 / 18014398509481984) (1 / 36028797018963968) (-3) (7205759403792794) (by norm_num) (by norm_num)
          (by norm_num [abs_of_pos]) (by norm_num [abs_of_pos])
          (roundHalfEven_eq_of_lt _ 7205759403792794 (by norm_num [abs_lt]))]
        norm_num
      have k3 : roundDouble (10808639105689191 / 36028797018963968) = 1351079888211149 / 4503599627370496 := by
        rw [roundDouble_eval (10808639105689191 / 36028797018963968) (1 / 18014398509481984) (-2) (5404319552844595 + 1) (by norm_num) (by norm_num)
          (by norm_num [abs_of_pos]) (by norm_num [abs_of_pos])
          (roundHalfEven_tie_odd _ 5404319552844595 (by norm_num) (by norm_num))]
        norm_num
      have k4 : roundDouble (14411518807585589 / 36028797018963968) = 3602879701896397 / 9007199254740992 := by
        rw [roundDouble_eval (14411518807585589 / 36028797018963968) (1 / 18014398509481984) (-2) (7205759403792794) (by norm_num) (by norm_num)
          (by norm_num [abs_of_pos]) (by norm_num [abs_of_pos])
          (roundHalfEven_tie_even _ 7205759403792794 (by norm_num) (by norm_num))]
        norm_num
      have k5 : roundDouble (18014398509481985 / 36028797018963968) = 1 / 2 := by
        rw [roundDouble_eval (18014398509481985 / 36028797018963968) (1 / 9007199254740992) (-1) (4503599627370496) (by norm_num) (by norm_num)
          (by norm_num [abs_of_pos]) (by norm_num [abs_of_pos])
          (roundHalfEven_eq_of_lt _ 4503599627370496 (by norm_num [abs_lt]))]
        norm_num
      have k6 : roundDouble (21617278211378381 / 36028797018963968) = 5404319552844595 / 9007199254740992 := by
        rw [roundDouble_eval (21617278211378381 / 36028797018963968) (1 / 9007199254740992) (-1) (5404319552844595) (by norm_num) (by norm_num)
          (by norm_num [abs_of_pos]) (by norm_num [abs_of_pos])
          (roundHalfEven_eq_of_lt _ 5404319552844595 (by norm_num [abs_lt]))]
        norm_num
      have k7 : roundDouble (25220157913274777 / 36028797018963968) = 3152519739159347 / 4503599627370496 := by
        rw [roundDouble_eval (25220157913274777 / 36028797018963968) (1 / 9007199254740992) (-1) (6305039478318694) (by norm_num) (by norm_num)
          (by norm_num [abs_of_pos]) (by norm_num [abs_of_pos])
          (roundHalfEven_eq_of_lt _ 6305039478318694 (by norm_num [abs_lt]))]
        norm_num
      have k8 : roundDouble (28823037615171173 / 36028797018963968) = 7205759403792793 / 9007199254740992 := by
        rw [roundDouble_eval (28823037615171173 / 36028797018963968) (1 / 9007199254740992) (-1) (7205759403792793) (by norm_num) (by norm_num)
          (by norm_num [abs_of_pos]) (by norm_num [abs_of_pos])
          (roundHalfEven_eq_of_lt _ 7205759403792793 (by norm_num [abs_lt]))]
        norm_num
      have k9 : roundDouble (32425917317067569 / 36028797018963968) = 2026619832316723 / 2251799813685248 := by
        rw [roundDouble_eval (32425917317067569 / 36028797018963968) (1 / 9007199254740992) (-1) (8106479329266892) (by norm_num) (by norm_num)
          (by norm_num [abs_of_pos]) (by norm_num [abs_of_pos])
          (roundHalfEven_eq_of_lt _ 8106479329266892 (by norm_num [abs_lt]))]
        norm_num
      have k10 : roundDouble (36028797018963965 / 36028797018963968) = 9007199254740991 / 9007199254740992 := by
        rw [roundDouble_eval (36028797018963965 / 36028797018963968) (1 / 9007199254740992) (-1) (9007199254740991) (by norm_num) (by norm_num)
          (by norm_num [abs_of_pos]) (by norm_num [abs_of_pos])
          (roundHalfEven_eq_of_lt _ 9007199254740991 (by norm_num [abs_lt]))]
        norm_num
      have k11 : roundDouble (39631676720860361 / 36028797018963968) = 4953959590107545 / 4503599627370496 := by
        rw [roundDouble_eval (39631676720860361 / 36028797018963968) (1 / 4503599627370496) (0) (4953959590107545) (by norm_num) (by norm_num)
          (by norm_num [abs_of_pos]) (by norm_num [abs_of_pos])
          (roundHalfEven_eq_of_lt _ 4953959590107545 (by norm_num [abs_lt]))]
        norm_num
      intro fuel assertsEnabled hfuel
      apply timeDiscretizationWithEventsRounded_of_loop roundDouble 0 1
        (3602879701896397 / 36028797018963968) [] (1 / 2 ^ 52) (by norm_num) (by norm_num) 12 _ _
        fuel assertsEnabled hfuel
      norm_num [gridLoopRounded, gridLoopBodyRounded, back, findIndexInTimeArray, k1, k2, k3,
        k4, k5, k6, k7, k8, k9, k10, k11]
  · have h1 := roundDouble_dyadic 1 0 (by norm_num) (by norm_num)
    have h2 := roundDouble_dyadic 2 0 (by norm_num) (by norm_num)
    have h3 := roundDouble_dyadic 3 0 (by norm_num) (by norm_num)
    have h4 := roundDouble_dyadic 4 0 (by norm_num) (by norm_num)
    have h5 := roundDouble_dyadic 17 3 (by norm_num) (by norm_num)
    have h6 := roundDouble_dyadic 1 3 (by norm_num) (by norm_num)
    norm_num at h1 h2 h3 h4 h5 h6
    refine ⟨[0, 1, 17 / 8, 1 / 8, 1, 2, 3, 4], ?_, rfl, by norm_num [abs_le]⟩
    intro fuel assertsEnabled hfuel
    apply timeDiscretizationWithEventsRounded_of_loop roundDouble 0 4 1 [2, 0] (1 / 8)
      (by norm_num) (by norm_num) 8 _ _ fuel assertsEnabled hfuel
    norm_num [gridLoopRounded, gridLoopBodyRounded, back, findIndexInTimeArray, h1, h2, h3, h4,
      h5, h6]

/-- C20 (amended): let `η` bound the rounding error of every sum the loop forms in the
arithmetic of `scalar_t` (rounding `fl`): of `nextTime + dt` at every time in
`[lo, finalTime)`, for a lower bound `lo` of `initTime` and of the event times, and of
`e + eventDelta` at every event time (`η = 0` in exact arithmetic), with `η < dt`. Then for
`initTime < finalTime`, `dt > 0` and `eventDelta > 0`: with any event times each grid point
exceeds the one before it by at most `dt + eventDelta + 3 η`, and with sorted event times the
two differ by at most `dt + eventDelta + 3 η` in absolute value. With an empty event array
the `k`-th element is within `k η` of `initTime + k * dt` for every element but the last,
and no gap exceeds `dt + η`. -/
theorem timeDiscretizationWithEventsRounded_gaps (fl : ℚ → ℚ) (initTime finalTime dt : ℚ)
    (eventTimes : List ℚ) (eventDelta lo η : ℚ) (hT : initTime < finalTime) (hdt : 0 < dt)
    (heps : 0 < eventDelta) (hlo : lo ≤ initTime) (hev : ∀ e ∈ eventTimes, lo ≤ e)
    (hη : η < dt)
    (hstep : ∀ t, lo ≤ t → t < finalTime → |fl (t + dt) - (t + dt)| ≤ η)
    (hpoint : ∀ e ∈ eventTimes, |fl (e + eventDelta) - (e + eventDelta)| ≤ η) :
    (∃ grid,
      (∀ fuel assertsEnabled, gridFuel initTime finalTime (dt - η) eventTimes ≤ fuel →
        timeDiscretizationWithEventsRounded fl assertsEnabled fuel initTime finalTime dt
          eventTimes eventDelta = .ok grid) ∧
      grid.Chain' (fun a b => b - a ≤ dt + eventDelta + 3 * η) ∧
      (eventTimes.Sorted (· ≤ ·) →
        grid.Chain' (fun a b => |b - a| ≤ dt + eventDelta + 3 * η))) ∧
    (∃ grid,
      (∀ fuel assertsEnabled, gridFuel initTime finalTime (dt - η) [] ≤ fuel →
        timeDiscretizationWithEventsRounded fl assertsEnabled fuel initTime finalTime dt []
          eventDelta = .ok grid) ∧
      (∀ k : Nat, k + 1 < grid.length →
        ∃ g, grid[k]? = some g ∧ |g - (initTime + k * dt)| ≤ k * η) ∧
      grid.Chain' (fun a b => b - a ≤ dt + η)) := by
  have hη0 : 0 ≤ η := le_trans (abs_nonneg _) (hstep initTime hlo hT)
  have hδ : 0 < dt - η := by linarith
  have hprog : ∀ t, lo ≤ t → t < finalTime → t + (dt - η) ≤ fl (t + dt) := by
    intro t h1 h2
    have := (abs_le.mp (hstep t h1 h2)).1
    linarith
  constructor
  · obtain ⟨s1, hok, ⟨-, hc, -, -, -, -, hs⟩, -⟩ :=
      timeDiscretizationWithEventsRounded_invariant fl initTime finalTime dt eventTimes
      eventDelta lo (dt - η) hdt hT hlo
      (by
        intro j _ hj
        rw [List.getD_eq_getElem eventTimes 0 hj]
        exact hev _ (List.getElem_mem _))
      hδ hprog
      (fun s => s.timeDiscretization ≠ [] ∧
        s.timeDiscretization.Chain' (fun a b => b - a ≤ dt + eventDelta + 3 * η) ∧
        lo ≤ s.nextTime ∧
        (back s.timeDiscretization < finalTime → s.nextTime < finalTime) ∧
        s.nextTime - η ≤ back s.timeDiscretization ∧
        back s.timeDiscretization ≤ s.nextTime + eventDelta + η ∧
        (eventTimes.Sorted (· ≤ ·) →
          s.timeDiscretization.Chain' (fun a b => |b - a| ≤ dt + eventDelta + 3 * η) ∧
          (s.nextEventIdx < eventTimes.length →
            s.nextTime ≤ eventTimes.getD s.nextEventIdx 0)))
      (by
        refine ⟨by simp, List.chain'_singleton _, hlo, fun _ => hT, ?_, ?_, ?_⟩
        · rw [back_singleton]; simp only; linarith
        · rw [back_singleton]; simp only; linarith
        · intro _
          exact ⟨List.chain'_singleton _, findIndexInTimeArray_at eventTimes initTime⟩)
      (by
        rintro s ⟨hne, hc, hlos, hfin, hge, hle, hs⟩ hb
        have hnt := hfin hb
        have hst := abs_le.mp (hstep s.nextTime hlos hnt)
        rcases gridLoopBodyRounded_cases fl finalTime dt eventTimes eventDelta s with
          ⟨h1, h2, he⟩ | ⟨h1, h2, he⟩ | ⟨h1, h2, he⟩ | ⟨h1, h2, he⟩
        · rw [he]
          refine ⟨by simp, chain'_concat _ _ hne _ hc (by linarith [h1.2, hst.2]),
            le_of_lt (lt_of_le_of_lt hlos hnt), ?_, ?_, ?_, ?_⟩
          · intro h; rw [back_concat] at h; exact absurd h (lt_irrefl _)
          · rw [back_concat]; simp only; linarith
          · rw [back_concat]; simp only; linarith
          · intro hsort
            obtain ⟨hc2, hnx⟩ := hs hsort
            refine ⟨chain'_concat _ _ hne _ hc2 ?_, ?_⟩
            · rw [abs_le]; constructor <;> linarith [h1.2, hst.2]
            · intro h
              have := sorted_le_getD eventTimes hsort s.nextEventIdx (s.nextEventIdx + 1)
                (by omega) h
              simp only
              linarith
        · have hmem : eventTimes.getD s.nextEventIdx 0 ∈ eventTimes := by
            rw [List.getD_eq_getElem eventTimes 0 h1.1]
            exact List.getElem_mem _
          have hpt := abs_le.mp (hpoint _ hmem)
          rw [he]
          refine ⟨by simp, chain'_concat _ _ hne _ hc (by linarith [h1.2, hst.2, hpt.2]),
            hev _ hmem, fun _ => h2, ?_, ?_, ?_⟩
          · rw [back_concat]; simp only; linarith [hpt.1]
          · rw [back_concat]; simp only; linarith [hpt.2]
          · intro hsort
            obtain ⟨hc2, hnx⟩ := hs hsort
            have hnx1 := hnx h1.1
            refine ⟨chain'_concat _ _ hne _ hc2 ?_, ?_⟩
            · rw [abs_le]; constructor <;> linarith [h1.2, hst.2, hpt.1, hpt.2]
            · intro h
              exact sorted_le_getD eventTimes hsort s.nextEventIdx (s.nextEventIdx + 1)
                (by omega) h
        · rw [he]
          refine ⟨by simp, chain'_concat _ _ hne _ hc (by linarith [hst.2]),
            le_of_lt (lt_of_le_of_lt hlos hnt), ?_, ?_, ?_, ?_⟩
          · intro h; rw [back_concat] at h; exact absurd h (lt_irrefl _)
          · rw [back_concat]; simp only; linarith
          · rw [back_concat]; simp only; linarith
          · intro hsort
            obtain ⟨hc2, hnx⟩ := hs hsort
            refine ⟨chain'_concat _ _ hne _ hc2 ?_, ?_⟩
            · rw [abs_le]; constructor <;> linarith [hst.2]
            · intro h
              have : fl (s.nextTime + dt) < eventTimes.getD s.nextEventIdx 0 := by
                by_contra hc
                exact h1 ⟨h, not_lt.mp hc⟩
              simp only
              linarith
        · rw [he]
          refine ⟨by simp, chain'_concat _ _ hne _ hc (by linarith [hst.2]),
            by simp only; linarith [hst.1], fun _ => h2, ?_, ?_, ?_⟩
          · rw [back_concat]; simp only; linarith
          · rw [back_concat]; simp only; linarith
          · intro hsort
            obtain ⟨hc2, hnx⟩ := hs hsort
            refine ⟨chain'_concat _ _ hne _ hc2 ?_, ?_⟩
            · rw [abs_le]; constructor <;> linarith [hst.1, hst.2]
            · intro h
              have : fl (s.nextTime + dt) < eventTimes.getD s.nextEventIdx 0 := by
                by_contra hc
                exact h1 ⟨h, not_lt.mp hc⟩
              exact le_of_lt this)
    exact ⟨_, hok, hc, fun hsort => (hs hsort).1⟩
  · obtain ⟨s1, hok, ⟨-, hk, hc, -, -⟩, -⟩ :=
      timeDiscretizationWithEventsRounded_invariant fl initTime finalTime dt []
      eventDelta lo (dt - η) hdt hT hlo
      (by intro j _ hj; simp at hj)
      hδ hprog
      (fun s => s.timeDiscretization ≠ [] ∧
        (∀ k : Nat, k + 1 < s.timeDiscretization.length →
          ∃ g, s.timeDiscretization[k]? = some g ∧ |g - (initTime + k * dt)| ≤ k * η) ∧
        s.timeDiscretization.Chain' (fun a b => b - a ≤ dt + η) ∧
        lo ≤ s.nextTime ∧
        (back s.timeDiscretization < finalTime →
          s.nextTime = back s.timeDiscretization ∧
          |back s.timeDiscretization -
            (initTime + ((s.timeDiscretization.length - 1 : Nat) : ℚ) * dt)| ≤
            ((s.timeDiscretization.length - 1 : Nat) : ℚ) * η))
      (by
        refine ⟨by simp, ?_, List.chain'_singleton _, hlo, ?_⟩
        · intro k hk
          simp at hk
        · intro _
          simp [back_singleton])
      (by
        rintro s ⟨hne, hk, hc, hlos, hlast⟩ hb
        obtain ⟨hnt, hbk⟩ := hlast hb
        have hst := abs_le.mp (hstep s.nextTime hlos (by rw [hnt]; exact hb))
        have hlen : 1 ≤ s.timeDiscretization.length := by
          rcases Nat.eq_zero_or_pos s.timeDiscretization.length with h | h
          · exact absurd (List.length_eq_zero.mp h) hne
          · exact h
        have key : ∀ b, ∀ k : Nat, k + 1 < (s.timeDiscretization ++ [b]).length →
            ∃ g, (s.timeDiscretization ++ [b])[k]? = some g ∧
              |g - (initTime + k * dt)| ≤ k * η := by
          intro b k hk1
          rw [List.length_append, List.length_singleton] at hk1
          rw [List.getElem?_append_left (by omega)]
          by_cases hk2 : k + 1 < s.timeDiscretization.length
          · exact hk k hk2
          · have hk3 : k = s.timeDiscretization.length - 1 := by omega
            rw [hk3, getElem?_pred_length_eq_back _ hne]
            exact ⟨_, rfl, hbk⟩
        rcases gridLoopBodyRounded_cases fl finalTime dt [] eventDelta s with
          ⟨h1, h2, he⟩ | ⟨h1, h2, he⟩ | ⟨h1, h2, he⟩ | ⟨h1, h2, he⟩
        · simp at h1
        · simp at h1
        · rw [he]
          refine ⟨by simp, key _, chain'_concat _ _ hne _ hc (by linarith [hst.2]),
            le_of_lt (lt_of_le_of_lt hlo hT), ?_⟩
          intro h
          rw [back_concat] at h
          exact absurd h (lt_irrefl _)
        · rw [he]
          refine ⟨by simp, key _, chain'_concat _ _ hne _ hc (by linarith [hst.2]),
            by simp only; linarith [hst.1], ?_⟩
          intro _
          refine ⟨(back_concat _ _).symm, ?_⟩
          rw [back_concat, List.length_append, List.length_singleton, Nat.add_sub_cancel]
          have hcast : ((s.timeDiscretization.length - 1 : Nat) : ℚ) + 1 =
              (s.timeDiscretization.length : ℚ) := by
            rw [← Nat.cast_add_one, Nat.sub_add_cancel hlen]
          have hbk2 := abs_le.mp hbk
          rw [← hcast, abs_le]
          rw [← hnt] at hbk2
          constructor <;> nlinarith [hst.1, hst.2, hbk2.1, hbk2.2])
    exact ⟨_, hok, hk, hc⟩

/-- The grids of `double` arithmetic on `[0, 1]` with `dt` the double nearest to `1/10` and
`eventDelta = 2 ^ (-52)`, with the events `1/4, 3/4` and without events: every sum has
magnitude at most 2, so its rounding error is at most `η = 2 ^ (-52)`. -/
theorem timeDiscretizationWithEventsRounded_gaps_witness :
    (∀ t : ℚ, 0 ≤ t → t < 1 →
      |roundDouble (t + 3602879701896397 / 36028797018963968) -
        (t + 3602879701896397 / 36028797018963968)| ≤ 1 / 2 ^ 52) ∧
    (∃ grid,
      (∀ fuel assertsEnabled,
        gridFuel 0 1 (3602879701896397 / 36028797018963968 - 1 / 2 ^ 52) [1 / 4, 3 / 4] ≤ fuel →
        timeDiscretizationWithEventsRounded roundDouble assertsEnabled fuel 0 1
          (3602879701896397 / 36028797018963968) [1 / 4, 3 / 4] (1 / 2 ^ 52) = .ok grid) ∧
      grid.Chain' (fun a b =>
        b - a ≤ 3602879701896397 / 36028797018963968 + 1 / 2 ^ 52 + 3 * (1 / 2 ^ 52)) ∧
      grid.Chain' (fun a b =>
        |b - a| ≤ 3602879701896397 / 36028797018963968 + 1 / 2 ^ 52 + 3 * (1 / 2 ^ 52))) ∧
    (∃ grid,
      (∀ fuel assertsEnabled,
        gridFuel 0 1 (3602879701896397 / 36028797018963968 - 1 / 2 ^ 52) [] ≤ fuel →
        timeDiscretizationWithEventsRounded roundDouble assertsEnabled fuel 0 1
          (3602879701896397 / 36028797018963968) [] (1 / 2 ^ 52) = .ok grid) ∧
      (∀ k : Nat, k + 1 < grid.length →
        ∃ g, grid[k]? = some g ∧
          |g - ((0 : ℚ) + (k : ℚ) * (3602879701896397 / 36028797018963968))| ≤ (k : ℚ) * (1 / 2 ^ 52)) ∧
      grid.Chain' (fun a b => b - a ≤ 3602879701896397 / 36028797018963968 + 1 / 2 ^ 52)) := by
  have hstep : ∀ t : ℚ, 0 ≤ t → t < 1 →
      |roundDouble (t + 3602879701896397 / 36028797018963968) -
        (t + 3602879701896397 / 36028797018963968)| ≤ 1 / 2 ^ 52 := by
    intro t h0 h1
    have := roundDouble_abs_sub_le (t + 3602879701896397 / 36028797018963968) 2
      (by rw [abs_le]; constructor <;> linarith) (by norm_num)
    have h2 : (2 : ℚ) / 2 ^ 53 = 1 / 2 ^ 52 := by norm_num
    rw [← h2]
    exact this
  obtain ⟨⟨g, h1, h2, h3⟩, h4⟩ := timeDiscretizationWithEventsRounded_gaps roundDouble 0 1
    (3602879701896397 / 36028797018963968) [1 / 4, 3 / 4] (1 / 2 ^ 52) 0 (1 / 2 ^ 52)
    (by norm_num) (by norm_num) (by norm_num) (le_refl _)
    (by
      intro e he
      simp only [List.mem_cons, List.mem_singleton, List.not_mem_nil, or_false] at he
      rcases he with rfl | rfl <;> norm_num)
    (by norm_num) hstep
    (by
      intro e he
      simp only [List.mem_cons, List.mem_singleton, List.not_mem_nil, or_false] at he
      have h2 : (2 : ℚ) / 2 ^ 53 = 1 / 2 ^ 52 := by norm_num
      rw [← h2]
      apply roundDouble_abs_sub_le _ 2 _ (by norm_num)
      rcases he with rfl | rfl <;> norm_num [abs_le])
  exact ⟨hstep, ⟨g, h1, h2, h3 (by simp [List.Sorted]; norm_num)⟩, h4⟩

end ocs2
